import Mathlib

/-! Wildcard Aho-Corasick topic matcher: embedding of `aho_corasick.hpp`.

The automaton of `src/src/aho_corasick/aho_corasick.hpp` is embedded as follows.

* A `std::basic_string<char>` is a `List Char`.
* States live in a store `heap : Nat → state`; a `state*` is the number of the state, the
  root is number `0`, a null pointer is `none`, and `new state` takes the next free number
  `d_size`.
* The `std::map<CharType, unique_ptr>` of a state is only ever searched by key
  (`next_state`), so it is a function `Char → Option Nat`.
* The `std::set<std::pair<string, unsigned>>` of a state is a list kept strictly ascending in
  the lexicographic order of `std::pair`, which is the order `store_emits` walks it in.
* The `std::map<emit, bool>` returned by `parse_text` is the list of its keys in iteration
  order. Its comparator is `interval::operator<`, which looks at the start index only, so
  two keys with the same start are the same key.
* `size_t` arithmetic that can leave the range is taken modulo `2 ^ 64`, the `unsigned`
  pattern counter modulo `2 ^ 32`. A text position never leaves the range, because the
  length of a `std::string` is itself a `size_t`.
* The constructor of `state` leaves `d_ending_pattern` without a value. The value a later
  read finds there is the field `d_uninit` of the trie, an arbitrary boolean, so that every
  result below holds for both values.
* The `while` loop of `get_state` follows failure links and has no bound of its own; it is
  run with fuel, and running out of fuel (`none`) stands for a loop that never ends.
* After `prev_states = std::move(cur_states)` the vector `cur_states` is empty, as it is with
  the standard allocator, so every pass of the outer loop of `parse_text` starts from an empty
  `cur_states`.
* A `std::vector` of intervals or of states is a list, and `std::set<interval>` is a list
  kept strictly ascending by start, the only thing `interval::operator<` compares. The
  constructor of `interval_tree::node` calls itself and is run with fuel like `get_state`.
* The iterator range of `insert(first, last)` is the list of the keywords from `it` to `last`;
  reading `*it` at `last` has no defined behaviour and gives `none`.
-/

namespace aho_corasick

/-! ## Machine arithmetic -/

/-- Number of values of a `size_t`. -/
def SIZE_MOD : Nat := 2 ^ 64

/-- Number of values of an `unsigned`. -/
def UNSIGNED_MOD : Nat := 2 ^ 32

/-- Subtraction of `size_t` values. -/
def size_sub (a b : Nat) : Nat := (a % SIZE_MOD + (SIZE_MOD - b % SIZE_MOD)) % SIZE_MOD

/-- Addition of `size_t` values. -/
def size_add (a b : Nat) : Nat := (a + b) % SIZE_MOD

/-! ## Intervals and emits -/

/-- The class `interval`: an inclusive index range. -/
structure interval where
  d_start : Nat
  d_end : Nat
deriving DecidableEq, Repr

/-- The class `emit`: an interval with the keyword and its insertion index. -/
structure emit extends interval where
  d_keyword : List Char
  d_index : Nat
deriving DecidableEq, Repr

/-- The constructor `emit(start, end, keyword, index)`. -/
def emit.make (start stop : Nat) (keyword : List Char) (index : Nat) : emit :=
  { d_start := start, d_end := stop, d_keyword := keyword, d_index := index }

/-- The comparator `interval::operator<` as inherited by `emit`: start indices only. -/
def emit.lt (a b : emit) : Bool := decide (a.d_start < b.d_start)

/-- The statement `collected_emits[e] = true` on a `std::map<emit, bool>`: a key equivalent to
`e` (same start) is kept as it is, otherwise `e` is entered at its place in the order. -/
def map_insert (e : emit) : List emit → List emit
  | [] => [e]
  | x :: xs =>
    if emit.lt e x then e :: x :: xs
    else if emit.lt x e then x :: map_insert e xs
    else x :: xs

/-! ## States -/

/-- Order of `std::basic_string<char>`: lexicographic on the character codes. -/
def string_lt : List Char → List Char → Bool
  | [], [] => false
  | [], _ :: _ => true
  | _ :: _, [] => false
  | a :: as, b :: bs =>
    if a.toNat < b.toNat then true
    else if b.toNat < a.toNat then false
    else string_lt as bs

/-- Order of `std::pair<string_type, unsigned>`. -/
def key_index_lt (a b : List Char × Nat) : Bool :=
  string_lt a.1 b.1 || (!string_lt b.1 a.1 && decide (a.2 < b.2))

/-- The call `std::set<key_index>::insert`. -/
def set_insert (k : List Char × Nat) : List (List Char × Nat) → List (List Char × Nat)
  | [] => [k]
  | x :: xs =>
    if key_index_lt k x then k :: x :: xs
    else if key_index_lt x k then x :: set_insert k xs
    else x :: xs

/-- The class `state`. The member `d_root` is never read and is left out. -/
structure state where
  d_depth : Nat
  d_success : Char → Option Nat
  d_has_success : Bool
  d_failure : Option Nat
  d_emits : List (List Char × Nat)
  d_value : Char
  d_ending_pattern : Bool

/-- The constructor `state(depth, val)`; `u` is what `d_ending_pattern` happens to hold. -/
def state.make (u : Bool) (depth : Nat) (val : Char) : state :=
  { d_depth := depth, d_success := fun _ => none, d_has_success := false,
    d_failure := none, d_emits := [], d_value := val, d_ending_pattern := u }

/-- The private `state::next_state`: a plain search of the transition map. -/
def state.next_state (s : state) (character : Char) : Option Nat := s.d_success character

/-- The method `state::add_emit(keyword, index)`. -/
def state.add_emit (s : state) (keyword : List Char) (index : Nat) : state :=
  { s with d_emits := set_insert (keyword, index) s.d_emits }

/-- The assignment `d_success[character].reset(target)`. -/
def state.set_success (s : state) (character : Char) (target : Nat) : state :=
  { s with d_success := fun c => if c = character then some target else s.d_success c }

/-! ## The trie -/

/-- The class `basic_trie::config`. -/
structure config where
  d_case_insensitive : Bool
deriving DecidableEq, Repr

/-- The class `basic_trie<char>` together with the store of its states. -/
structure basic_trie where
  heap : Nat → state
  d_size : Nat
  d_config : config
  d_constructed_failure_states : Bool
  d_num_keywords : Nat
  d_uninit : Bool

/-- The constructor `basic_trie(const config&)`: a root of depth `0` and nothing else. -/
def basic_trie.make (u : Bool) (c : config) : basic_trie :=
  { heap := fun _ => state.make u 0 (Char.ofNat 0), d_size := 1, d_config := c,
    d_constructed_failure_states := false, d_num_keywords := 0, d_uninit := u }

/-- The default constructor `basic_trie()`: case sensitive. -/
def basic_trie.fresh (u : Bool) : basic_trie := basic_trie.make u { d_case_insensitive := false }

/-- The method `basic_trie::case_insensitive()`. -/
def basic_trie.case_insensitive (t : basic_trie) : basic_trie :=
  { t with d_config := { d_case_insensitive := true } }

/-- Overwrite one state of the store. -/
def basic_trie.put (t : basic_trie) (i : Nat) (s : state) : basic_trie :=
  { t with heap := fun j => if j = i then s else t.heap j }

/-- The method `state::add_state(character)` called on state `cur`: the child for
`character`, created when the map has no entry for it. -/
def add_state (t : basic_trie) (cur : Nat) (character : Char) : basic_trie × Nat :=
  match (t.heap cur).next_state character with
  | some next => (t, next)
  | none =>
    let next := t.d_size
    let t1 : basic_trie :=
      { t.put next (state.make t.d_uninit ((t.heap cur).d_depth + 1) character) with
        d_size := t.d_size + 1 }
    let s := (t1.heap cur).set_success character next
    (t1.put cur { s with d_has_success := if next ≠ cur then true else s.d_has_success }, next)

/-- The method `state::add_state(character, state)` called on state `cur`: enters `target`
under `character` when the map has no entry for it. -/
def add_state_to (t : basic_trie) (cur : Nat) (character : Char) (target : Nat) : basic_trie :=
  match (t.heap cur).next_state character with
  | some _ => t
  | none =>
    let s := (t.heap cur).set_success character target
    t.put cur { s with d_has_success := if target ≠ cur then true else s.d_has_success }

/-- The method `state::set_failure` called on state `cur`. -/
def set_failure (t : basic_trie) (cur : Nat) (fail_state : Nat) : basic_trie :=
  t.put cur { t.heap cur with d_failure := some fail_state }

/-- Loop variables of `insert`: the trie, `cur_state` and `last_multi_wildcard`. -/
structure insert_vars where
  trie : basic_trie
  cur_state : Nat
  last_multi_wildcard : Option Nat

/-- One pass through the body of the loop of `basic_trie::insert`. -/
def insert_step (v : insert_vars) (ch : Char) : insert_vars :=
  let r := add_state v.trie v.cur_state ch
  let t1 := r.1
  let cur := r.2
  if ch = '.' then
    match v.last_multi_wildcard with
    | some w => { trie := set_failure t1 cur w, cur_state := cur, last_multi_wildcard := some w }
    | none => { trie := t1, cur_state := cur, last_multi_wildcard := none }
  else if ch = '+' then
    { trie := add_state_to t1 cur '+' cur, cur_state := cur,
      last_multi_wildcard := v.last_multi_wildcard }
  else if ch = '#' then
    { trie := add_state_to t1 cur '#' cur, cur_state := cur, last_multi_wildcard := some cur }
  else
    { trie := t1, cur_state := cur, last_multi_wildcard := v.last_multi_wildcard }

/-- The loop of `basic_trie::insert`, started at the root with no wildcard seen. -/
def insert_loop (t : basic_trie) (keyword : List Char) : insert_vars :=
  keyword.foldl insert_step { trie := t, cur_state := 0, last_multi_wildcard := none }

/-- The method `basic_trie::insert(keyword)`. -/
def insert (t : basic_trie) (keyword : List Char) : basic_trie :=
  if keyword = [] then t
  else
    let v := insert_loop t keyword
    let t1 := v.trie
    let cur := v.cur_state
    let t2 := if cur ≠ 0 then t1.put cur { t1.heap cur with d_ending_pattern := true } else t1
    let t3 := t2.put cur ((t2.heap cur).add_emit keyword t2.d_num_keywords)
    { t3 with d_num_keywords := (t3.d_num_keywords + 1) % UNSIGNED_MOD,
              d_constructed_failure_states := false }

/-- Insert a sequence of keywords one after the other, as the callers do. -/
def insert_all (t : basic_trie) (keywords : List (List Char)) : basic_trie :=
  keywords.foldl insert t

/-! ## Matching -/

/-- The loop of `basic_trie::get_state`: the first state on the failure chain of `cur` that
has a transition for `c` decides. The outer `none` means the fuel ran out. -/
def get_state_loop (t : basic_trie) (c : Char) : Nat → Nat → Option (Option Nat)
  | 0, _ => none
  | fuel + 1, cur =>
    match (t.heap cur).next_state c with
    | some r => some (some r)
    | none =>
      match (t.heap cur).d_failure with
      | none => some none
      | some f => get_state_loop t c fuel f

/-- The method `basic_trie::get_state`. A failure chain without a cycle visits at most
`d_size` states, so more fuel than that is never needed by a loop that ends. -/
def get_state (t : basic_trie) (cur : Nat) (c : Char) : Option (Option Nat) :=
  get_state_loop t c (t.d_size + 1) cur

/-- The method `basic_trie::store_emits`. -/
def store_emits (pos : Nat) (s : state) (collected : List emit) : List emit :=
  if s.d_emits.isEmpty then collected
  else
    s.d_emits.foldl
      (fun m str => map_insert (emit.make (size_add (size_sub pos str.1.length) 1) pos str.1 str.2) m)
      collected

/-- Loop variables of the inner loop of `parse_text`: `cur_states` and `collected_emits`. -/
structure parse_vars where
  cur_states : List Nat
  collected_emits : List emit

/-- What `parse_text` does with the result `r` of one `get_state` call: when a state came
back, store its emits if `finished` holds at the last position, and push it. -/
def parse_push (t : basic_trie) (len pos : Nat) (only_leaf : Bool) (r : Option Nat)
    (v : parse_vars) : parse_vars :=
  match r with
  | none => v
  | some s =>
    let st := t.heap s
    let finished :=
      (if only_leaf then !st.d_has_success else (!st.d_has_success || st.d_ending_pattern))
        && decide (pos + 1 = len)
    { cur_states := v.cur_states ++ [s],
      collected_emits := if finished then store_emits pos st v.collected_emits
                         else v.collected_emits }

/-- The body of the inner loop of `parse_text` for one state of `prev_states`: the exact
transition, then the `+` transition unless the state is a `+` state and the symbol is the
separator, then the `#` transition. -/
def parse_visit (t : basic_trie) (len pos : Nat) (c : Char) (v : parse_vars) (cur_state : Nat) :
    Option parse_vars :=
  match get_state t cur_state c with
  | none => none
  | some r1 =>
    let v1 := parse_push t len pos true r1 v
    match (if !((t.heap cur_state).d_value = '+' && c = '.')
           then (get_state t cur_state '+').map (fun r2 => parse_push t len pos false r2 v1)
           else some v1) with
    | none => none
    | some v2 =>
      match get_state t cur_state '#' with
      | none => none
      | some r3 => some (parse_push t len pos false r3 v2)

/-- The inner loop of `parse_text` over `prev_states`. -/
def parse_inner (t : basic_trie) (len pos : Nat) (c : Char) :
    List Nat → parse_vars → Option parse_vars
  | [], v => some v
  | s :: rest, v =>
    match parse_visit t len pos c v s with
    | none => none
    | some v1 => parse_inner t len pos c rest v1

/-- The outer loop of `parse_text` over the symbols of the text, from position `pos` on. -/
def parse_outer (t : basic_trie) (len : Nat) :
    List Char → Nat → List Nat → List emit → Option (List emit)
  | [], _, _, collected => some collected
  | c0 :: rest, pos, prev_states, collected =>
    let c := if t.d_config.d_case_insensitive then c0.toLower else c0
    match parse_inner t len pos c prev_states { cur_states := [], collected_emits := collected } with
    | none => none
    | some v => parse_outer t len rest (pos + 1) v.cur_states v.collected_emits

/-- The method `basic_trie::parse_text`: the keys of the returned map in order, or `none` when
a `get_state` loop does not end. -/
def parse_text (t : basic_trie) (text : List Char) : Option (List emit) :=
  parse_outer t text.length text 0 [0] []

/-! ## Definitions used to state and prove the properties -/

/-- The two wildcard symbols. -/
def is_wild (c : Char) : Bool := c = '+' || c = '#'

/-- What `get_state` returns when the failure chain of `cur` has at most one link. -/
def get1 (t : basic_trie) (cur : Nat) (c : Char) : Option Nat :=
  match (t.heap cur).next_state c with
  | some r => some r
  | none =>
    match (t.heap cur).d_failure with
    | none => none
    | some f => (t.heap f).next_state c

/-- The test `!state->has_success()` of the exact transition. -/
def fin_leaf (t : basic_trie) (r : Nat) : Bool := !(t.heap r).d_has_success

/-- The test `!state->has_success() || state->ending_pattern()` of the wildcard transitions. -/
def fin_any (t : basic_trie) (r : Nat) : Bool :=
  !(t.heap r).d_has_success || (t.heap r).d_ending_pattern

/-- The states pushed while visiting `s` on symbol `c`, in the order of the pushes, each with
the outcome of its `finished` test short of the position check. -/
def moves (t : basic_trie) (c : Char) (s : Nat) : List (Nat × Bool) :=
  ((get1 t s c).map (fun r => (r, fin_leaf t r))).toList ++
  ((if ((t.heap s).d_value = '+' && c = '.') then []
    else ((get1 t s '+').map (fun r => (r, fin_any t r))).toList) ++
   ((get1 t s '#').map (fun r => (r, fin_any t r))).toList)

/-- Store the emits of the finished states of a list of moves, in order. -/
def harvest (t : basic_trie) (pos : Nat) (ms : List (Nat × Bool)) (collected : List emit) :
    List emit :=
  ms.foldl (fun col m => if m.2 then store_emits pos (t.heap m.1) col else col) collected

/-- The active states after one more symbol. -/
def step (t : basic_trie) (c : Char) (prev_states : List Nat) : List Nat :=
  (prev_states.flatMap (moves t c)).map Prod.fst

/-- The active states after the symbols `w`, starting from `prev_states`. -/
def active_from (t : basic_trie) (prev_states : List Nat) (w : List Char) : List Nat :=
  w.foldl (fun prev c => step t c prev) prev_states

/-- The active states after the symbols `w`, starting from the root alone. -/
def active (t : basic_trie) (w : List Char) : List Nat := active_from t [0] w

/-- The text as the loop of `parse_text` sees it: lowercased under the option. -/
def seen (t : basic_trie) (text : List Char) : List Char :=
  text.map (fun c0 => if t.d_config.d_case_insensitive then c0.toLower else c0)

/-- The result of the outer loop of `parse_text` once every `get_state` call is known to
return, on the text as the loop sees it. -/
def collect (t : basic_trie) : List Char → Nat → List Nat → List emit → List emit
  | [], _, _, col => col
  | c :: rest, pos, prev, col =>
    collect t rest (pos + 1) (step t c prev)
      (if rest = [] then harvest t pos (prev.flatMap (moves t c)) col else col)

/-- Failure chains have at most one link and the root exists; then `get_state` returns. -/
def Shallow (t : basic_trie) : Prop :=
  1 ≤ t.d_size ∧ ∀ s f, (t.heap s).d_failure = some f → (t.heap f).d_failure = none

/-- Follow exact transitions, without failure links, from `s` along `w`. -/
def walk (t : basic_trie) : Nat → List Char → Option Nat
  | s, [] => some s
  | s, c :: cs =>
    match (t.heap s).next_state c with
    | some r => walk t r cs
    | none => none

/-- The emit that `store_emits` enters at position `pos` for the pair `str` of a state: it
ends at `pos` and starts `str.first.size() - 1` places before, in `size_t` arithmetic. -/
def emit_at (pos : Nat) (str : List Char × Nat) : emit :=
  emit.make (size_add (size_sub pos str.1.length) 1) pos str.1 str.2

/-- How the run of wildcard-free symbols at the end of a keyword grows by one symbol. -/
def tail_step (a : List Char) (c : Char) : List Char := if is_wild c then [] else a ++ [c]

/-- The symbols of a keyword after its last wildcard symbol. -/
def lit_tail (kw : List Char) : List Char := kw.foldl tail_step []

/-- How the value and the depth of `cur_state` change when `insert` consumes one symbol: a
wildcard symbol right after the same wildcard symbol follows the self-loop and stays. -/
def shape_step (p : Char × Nat) (c : Char) : Char × Nat :=
  (c, if is_wild c && c == p.1 then p.2 else p.2 + 1)

/-- Value and depth of the state at which `insert` ends for a keyword. -/
def walk_shape (kw : List Char) : Char × Nat := kw.foldl shape_step (Char.ofNat 0, 0)

/-- The state `add_state` creates below `cur`, after the `switch` of `insert` is through
with it. -/
def new_child (t : basic_trie) (cur : Nat) (ch : Char) (lmw : Option Nat) : state :=
  { d_depth := (t.heap cur).d_depth + 1,
    d_success := fun c => if is_wild ch = true ∧ c = ch then some t.d_size else none,
    d_has_success := false,
    d_failure := if ch = '.' then lmw else none,
    d_emits := [],
    d_value := ch,
    d_ending_pattern := t.d_uninit }

/-- The trie after one pass of the loop of `insert` that had to create a state. -/
def grown (t : basic_trie) (cur : Nat) (ch : Char) (lmw : Option Nat) : basic_trie :=
  { t with
    heap := fun j =>
      if j = t.d_size then new_child t cur ch lmw
      else if j = cur then
        { t.heap cur with
          d_success := fun c => if c = ch then some t.d_size else (t.heap cur).d_success c,
          d_has_success := true }
      else t.heap j,
    d_size := t.d_size + 1 }

/-- The trie after one pass of the loop of `insert` that found the transition to `r`. -/
def relinked (t : basic_trie) (r : Nat) (ch : Char) (lmw : Option Nat) : basic_trie :=
  match (if ch = '.' then lmw else none) with
  | some w => set_failure t r w
  | none => t

/-- What holds of every trie obtained from an empty one by calls of `insert`. `ps` lists the
keywords inserted so far and `lt` gives, for each state, the symbols on the way from the root
to the state that come after the last wildcard symbol. -/
structure Inv (t : basic_trie) (lt : Nat → List Char) (ps : List (List Char)) : Prop where
  size_pos : 1 ≤ t.d_size
  root_depth : (t.heap 0).d_depth = 0
  root_value : (t.heap 0).d_value = Char.ofNat 0
  root_tail : lt 0 = []
  next_lt : ∀ s c r, (t.heap s).d_success c = some r → s < t.d_size ∧ r < t.d_size ∧ r ≠ 0
  next_value : ∀ s c r, (t.heap s).d_success c = some r → (t.heap r).d_value = c
  next_depth : ∀ s c r, (t.heap s).d_success c = some r →
    r = s ∨ (t.heap r).d_depth = (t.heap s).d_depth + 1
  next_tail : ∀ s c r, (t.heap s).d_success c = some r → lt r = tail_step (lt s) c
  self_loop : ∀ s, is_wild (t.heap s).d_value = true →
    (t.heap s).d_success (t.heap s).d_value = some s
  fail_lt : ∀ s f, (t.heap s).d_failure = some f → f < t.d_size
  fail_value : ∀ s f, (t.heap s).d_failure = some f →
    (t.heap s).d_value = '.' ∧ (t.heap f).d_value = '#'
  fail_depth : ∀ s f, (t.heap s).d_failure = some f → (t.heap f).d_depth ≤ (t.heap s).d_depth
  emits_ok : ∀ s k, k ∈ (t.heap s).d_emits →
    k.1 ∈ ps ∧ s ≠ 0 ∧ lt s = lit_tail k.1 ∧
      ((t.heap s).d_value, (t.heap s).d_depth) = walk_shape k.1 ∧
      (t.heap s).d_ending_pattern = true

/-- What holds between two passes of the loop of `insert`, after the symbols `q` of the
keyword, in the run that started on the trie `t0`. -/
structure LoopInv (t0 : basic_trie) (ps : List (List Char)) (v : insert_vars)
    (q : List Char) (lt : Nat → List Char) : Prop where
  inv : Inv v.trie lt ps
  cur_lt : v.cur_state < v.trie.d_size
  cur_tail : lt v.cur_state = lit_tail q
  cur_shape : ((v.trie.heap v.cur_state).d_value, (v.trie.heap v.cur_state).d_depth) =
    walk_shape q
  lmw_ok : ∀ w, v.last_multi_wildcard = some w →
    w < v.trie.d_size ∧ (v.trie.heap w).d_value = '#' ∧
      (v.trie.heap w).d_depth ≤ (v.trie.heap v.cur_state).d_depth
  walk_ok : walk v.trie 0 q = some v.cur_state
  same_config : v.trie.d_config = t0.d_config
  same_count : v.trie.d_num_keywords = t0.d_num_keywords
  same_uninit : v.trie.d_uninit = t0.d_uninit

/-- What holds in addition between two passes of the loop of the first `insert` into an
empty trie: no state emits yet, and `cur_state` has no transition other than to itself. -/
structure LeafInv (v : insert_vars) : Prop where
  no_emits : ∀ s, (v.trie.heap s).d_emits = []
  cur_leaf : (v.trie.heap v.cur_state).d_has_success = false
  cur_loops : ∀ c r, (v.trie.heap v.cur_state).d_success c = some r → r = v.cur_state

/-- The longest beginning of a word that ends with `#`, searched from the end of the word
given in reverse. -/
def hash_stem_rev : List Char → Option (List Char)
  | [] => none
  | c :: rest => if c = '#' then some (c :: rest).reverse else hash_stem_rev rest

/-- The longest beginning of the word `w` that ends with `#`, if `w` has a `#`. -/
def hash_stem (w : List Char) : Option (List Char) := hash_stem_rev w.reverse

/-- How the failure links of a trie built by `insert` are wired. `nh` gives, for each state,
the nearest state on the way from the root to it, itself included, that was entered by `#`. -/
structure Wire (t : basic_trie) (nh : Nat → Option Nat) : Prop where
  nh_root : nh 0 = none
  nh_next : ∀ s c r, (t.heap s).d_success c = some r → nh r = if c = '#' then some r else nh s
  fail_eq : ∀ s, (t.heap s).d_failure = if (t.heap s).d_value = '.' then nh s else none
  reach : ∀ s, s < t.d_size → ∃ w, walk t 0 w = some s

/-- The number of keywords of a list that are not empty: the calls of `insert` that reach
the pattern counter. -/
def num_keywords (ps : List (List Char)) : Nat := (ps.filter (fun p => !p.isEmpty)).length

/-- Bookkeeping of a trie built by `insert` from `n` keywords that are not empty: the slots
of the store that hold no state yet emit nothing, and the counter is `n` as an `unsigned`. -/
structure Book (t : basic_trie) (n : Nat) : Prop where
  blank : ∀ s, t.d_size ≤ s → (t.heap s).d_emits = []
  count : t.d_num_keywords = n % UNSIGNED_MOD

/-! ## The interval tree -/

/-- The largest `size_t`, which `determine_median` uses for "no value yet". -/
def SIZE_MAX : Nat := SIZE_MOD - 1

/-- The method `interval::size()`. -/
def interval.size (i : interval) : Nat := size_add (size_sub i.d_end i.d_start) 1

/-- The method `interval::overlaps_with(const interval&)`. -/
def interval.overlaps_with (a b : interval) : Bool :=
  decide (a.d_start ≤ b.d_end) && decide (a.d_end ≥ b.d_start)

/-- The class `interval_tree::node` for `T = interval`; `null` is an empty `node_ptr`. -/
inductive node where
  | null : node
  | mk (d_point : Nat) (d_left d_right : node) (d_intervals : List interval) : node

/-- One pass of the loop of `determine_median` over the pair `(start, end)`. -/
def median_step (p : Nat × Nat) (i : interval) : Nat × Nat :=
  (if p.1 = SIZE_MAX ∨ i.d_start < p.1 then i.d_start else p.1,
   if p.2 = SIZE_MAX ∨ i.d_end > p.2 then i.d_end else p.2)

/-- The method `node::determine_median`. -/
def determine_median (intervals : List interval) : Nat :=
  size_add (intervals.foldl median_step (SIZE_MAX, SIZE_MAX)).1
    (intervals.foldl median_step (SIZE_MAX, SIZE_MAX)).2 / 2

/-- The intervals the constructor of `node` sends to the left child. -/
def to_left (point : Nat) (intervals : List interval) : List interval :=
  intervals.filter (fun i => decide (i.d_end < point))

/-- The intervals the constructor of `node` sends to the right child. -/
def to_right (point : Nat) (intervals : List interval) : List interval :=
  intervals.filter (fun i => !decide (i.d_end < point) && decide (i.d_start > point))

/-- The intervals the constructor of `node` keeps in the node. -/
def to_here (point : Nat) (intervals : List interval) : List interval :=
  intervals.filter (fun i => !decide (i.d_end < point) && !decide (i.d_start > point))

/-- The constructor `node(intervals)`, which calls itself for the children and has no bound
of its own: it is run with fuel, and `none` stands for a recursion that never ends. -/
def node.build : Nat → List interval → Option node
  | 0, _ => none
  | fuel + 1, intervals =>
    match (if (to_left (determine_median intervals) intervals).length > 0
           then node.build fuel (to_left (determine_median intervals) intervals)
           else some node.null) with
    | none => none
    | some l =>
      match (if (to_right (determine_median intervals) intervals).length > 0
             then node.build fuel (to_right (determine_median intervals) intervals)
             else some node.null) with
      | none => none
      | some r =>
        some (node.mk (determine_median intervals) l r
          (to_here (determine_median intervals) intervals))

/-- The constructor `interval_tree(intervals)`: its root node. A recursion that ends makes
every child from fewer intervals than its parent, so it is never deeper than the collection
is long. -/
def interval_tree.make (intervals : List interval) : Option node :=
  node.build (intervals.length + 1) intervals

/-- The method `node::add_to_overlaps`. -/
def add_to_overlaps (i : interval) (overlaps new_overlaps : List interval) : List interval :=
  overlaps ++ new_overlaps.filter (fun cur => decide (cur ≠ i))

/-- The method `node::check_overlaps` with direction `LEFT`. -/
def check_left_overlaps (d_intervals : List interval) (i : interval) : List interval :=
  d_intervals.filter (fun cur => decide (cur.d_start ≤ i.d_end))

/-- The method `node::check_overlaps` with direction `RIGHT`. -/
def check_right_overlaps (d_intervals : List interval) (i : interval) : List interval :=
  d_intervals.filter (fun cur => decide (cur.d_end ≥ i.d_start))

/-- The methods `node::find_overlaps` and `node::find_overlapping_ranges`, the latter being
the case of an empty `node_ptr`. -/
def find_overlaps : node → interval → List interval
  | node.null, _ => []
  | node.mk d_point d_left d_right d_intervals, i =>
    if d_point < i.d_start then
      add_to_overlaps i (add_to_overlaps i [] (find_overlaps d_right i))
        (check_right_overlaps d_intervals i)
    else if d_point > i.d_end then
      add_to_overlaps i (add_to_overlaps i [] (find_overlaps d_left i))
        (check_left_overlaps d_intervals i)
    else
      add_to_overlaps i
        (add_to_overlaps i (add_to_overlaps i [] d_intervals) (find_overlaps d_left i))
        (find_overlaps d_right i)

/-- The call `std::sort(first, last, comp)`. The standard leaves the order of elements that
`comp` does not tell apart open; here they keep the order they had. -/
def std_sort (comp : interval → interval → Bool) (l : List interval) : List interval :=
  l.insertionSort (fun a b => comp b a = false)

/-- The first comparator of `remove_overlaps`: larger size first, and of two intervals of the
same size the one that starts later. -/
def by_size (a b : interval) : Bool :=
  if size_sub b.size a.size = 0 then decide (a.d_start > b.d_start)
  else decide (a.size > b.size)

/-- The second comparator of `remove_overlaps`: smaller start first. -/
def by_start (a b : interval) : Bool := decide (a.d_start < b.d_start)

/-- The call `std::set<interval>::insert`; the order of the set is `interval::operator<`,
which compares the start only. -/
def iv_set_insert (x : interval) : List interval → List interval
  | [] => [x]
  | y :: ys =>
    if x.d_start < y.d_start then x :: y :: ys
    else if y.d_start < x.d_start then y :: iv_set_insert x ys
    else y :: ys

/-- The test `remove_tmp.find(i) != remove_tmp.end()`. -/
def iv_set_has (s : List interval) (i : interval) : Bool :=
  s.any (fun y => decide (y.d_start = i.d_start))

/-- One pass of the first loop of `remove_overlaps`. -/
def mark_overlaps (tree : node) (remove_tmp : List interval) (i : interval) : List interval :=
  if iv_set_has remove_tmp i then remove_tmp
  else (find_overlaps tree i).foldl (fun s overlap => iv_set_insert overlap s) remove_tmp

/-- The statement `result.erase(std::find(result.begin(), result.end(), i))`; erasing at
`end()`, when `i` is not found, has no defined behaviour and gives `none`. -/
def erase_found (result : Option (List interval)) (i : interval) : Option (List interval) :=
  match result with
  | none => none
  | some l => if i ∈ l then some (l.erase i) else none

/-- The method `interval_tree::remove_overlaps` of the tree with root `tree`. -/
def remove_overlaps (tree : node) (intervals : List interval) : Option (List interval) :=
  let result := std_sort by_size intervals
  let remove_tmp := result.foldl (mark_overlaps tree) []
  (remove_tmp.foldl erase_found (some result)).map (std_sort by_start)

/-- What the pair of `determine_median` holds after the intervals `done`: "no value yet"
twice when there are none, and otherwise the smallest start and the end of one of them. -/
def median_seen (done : List interval) (p : Nat × Nat) : Prop :=
  (done = [] ∧ p = (SIZE_MAX, SIZE_MAX)) ∨
  (done ≠ [] ∧ (∃ a ∈ done, a.d_start = p.1) ∧ (∀ b ∈ done, p.1 ≤ b.d_start) ∧
    (∃ b ∈ done, b.d_end = p.2))

/-- Intervals with `start <= end` whose `start + end` is a `size_t`. -/
def well_formed (intervals : List interval) : Prop :=
  ∀ i ∈ intervals, i.d_start ≤ i.d_end ∧ i.d_start + i.d_end < SIZE_MOD

/-- The test of the claim on interval trees: `c` overlaps `q` and is not `q`. -/
def overlaps_other (q c : interval) : Bool :=
  decide (c.d_start ≤ q.d_end) && decide (c.d_end ≥ q.d_start) && decide (c ≠ q)

/-- The result of `remove_overlaps(intervals)` on the tree built from the same intervals;
`none` when the constructor of the tree does not return. -/
def remove_overlaps_of (intervals : List interval) : Option (List interval) :=
  (interval_tree.make intervals).bind (fun tree => remove_overlaps tree intervals)

/-! ## Tokens -/

/-- The enumeration `token::token_type`. -/
inductive token_type where
  | TYPE_FRAGMENT : token_type
  | TYPE_MATCH : token_type
deriving DecidableEq, Repr

/-- The class `token`. -/
structure token where
  d_type : token_type
  d_fragment : List Char
  d_emit : emit
deriving DecidableEq, Repr

/-- The constructor `emit()`: both ends are `-1` as a `size_t`. -/
def emit.empty : emit := emit.make SIZE_MAX SIZE_MAX [] 0

/-- The method `emit::is_empty()`. -/
def emit.is_empty (e : emit) : Bool := decide (e.d_start = SIZE_MAX) && decide (e.d_end = SIZE_MAX)

/-- The constructor `token(fragment)`. -/
def token.fragment (fragment : List Char) : token :=
  { d_type := token_type.TYPE_FRAGMENT, d_fragment := fragment, d_emit := emit.empty }

/-- The constructor `token(fragment, e)`. -/
def token.matched (fragment : List Char) (e : emit) : token :=
  { d_type := token_type.TYPE_MATCH, d_fragment := fragment, d_emit := e }

/-- The call `text.substr(pos, len)`: it throws `std::out_of_range`, here `none`, when `pos`
lies behind the end of the text, and otherwise takes at most `len` symbols from `pos` on. -/
def substr (text : List Char) (pos len : Nat) : Option (List Char) :=
  if pos > text.length then none else some ((text.drop pos).take len)

/-- The method `basic_trie::create_fragment`. -/
def create_fragment (e : emit) (text : List Char) (last_pos : Nat) : Option token :=
  (substr text (size_add last_pos 1)
    (size_sub (if e.is_empty then text.length else e.d_start) (size_add last_pos 1))).map
    token.fragment

/-- The method `basic_trie::create_match`. -/
def create_match (e : emit) (text : List Char) : Option token :=
  (substr text e.d_start (size_sub (size_add e.d_end 1) e.d_start)).map
    (fun str => token.matched str e)

/-- One pass of the loop of `tokenise` over the pair of `tokens` and `last_pos`. The loop
variable of the source is an entry of the map of emits; the calls it makes on the entry are
calls on its key, the emit. -/
def tokenise_step (text : List Char) (acc : Option (List token × Nat)) (e : emit) :
    Option (List token × Nat) :=
  match acc with
  | none => none
  | some (tokens, last_pos) =>
    match (if size_sub e.d_start last_pos > 1
           then (create_fragment e text last_pos).map (fun f => tokens ++ [f])
           else some tokens) with
    | none => none
    | some tokens1 => (create_match e text).map (fun m => (tokens1 ++ [m], e.d_end))

/-- The method `basic_trie::tokenise`; `none` when `parse_text` does not return or `substr`
throws. -/
def tokenise (t : basic_trie) (text : List Char) : Option (List token) :=
  match parse_text t text with
  | none => none
  | some collected_emits =>
    match collected_emits.foldl (tokenise_step text) (some ([], SIZE_MAX)) with
    | none => none
    | some (tokens, last_pos) =>
      if size_sub text.length last_pos > 1
      then (create_fragment emit.empty text last_pos).map (fun f => tokens ++ [f])
      else some tokens

/-- The fragment texts of a sequence of tokens, one after the other. -/
def concat_fragments (tokens : List token) : List Char :=
  tokens.flatMap (fun tk => tk.d_fragment)

/-! ## The states carried by `parse_text` and the range insert -/

/-- The loop of `parse_text` over the symbols `text`, as in `parse_outer`, giving what the
vector `prev_states` holds when the loop is through with them. -/
def parse_states (t : basic_trie) (len : Nat) :
    List Char → Nat → List Nat → List emit → Option (List Nat)
  | [], _, prev_states, _ => some prev_states
  | c0 :: rest, pos, prev_states, collected =>
    let c := if t.d_config.d_case_insensitive then c0.toLower else c0
    match parse_inner t len pos c prev_states { cur_states := [], collected_emits := collected } with
    | none => none
    | some v => parse_states t len rest (pos + 1) v.cur_states v.collected_emits

/-- The vector `prev_states` of the call `parse_text(text)` after the first `k` symbols of the
text; `none` when a `get_state` loop does not end before. -/
def prev_states_at (t : basic_trie) (text : List Char) (k : Nat) : Option (List Nat) :=
  parse_states t text.length (text.take k) 0 [0] []

/-- The loop `for (it = first; first != last; ++it) insert(*it)` of
`basic_trie::insert(first, last)`. Its test compares `first` with `last`, and neither is ever
moved, so the test has the same outcome `first_ne_last` in every pass. The list is what lies
between `it` and `last`; reading `*it` once `it` has reached `last` has no defined behaviour
and gives `none`. -/
def insert_range_loop (first_ne_last : Bool) : basic_trie → List (List Char) → Option basic_trie
  | t, [] => if first_ne_last then none else some t
  | t, keyword :: rest =>
    if first_ne_last then insert_range_loop first_ne_last (insert t keyword) rest else some t

/-- The method `basic_trie::insert(first, last)` on a range that holds `keywords`. -/
def insert_range (t : basic_trie) (keywords : List (List Char)) : Option basic_trie :=
  insert_range_loop (decide (keywords ≠ [])) t keywords

/-- What holds in the first loop of `remove_overlaps` over the collection `c`, after the
intervals `done` of the sorted `result`, of the set `remove_tmp`: it holds intervals of `c`;
each of them overlaps an interval that was taken before, is not in the set and is at least
as large; and every interval of `c` that overlaps an interval taken before and not in the
set is in the set. -/
structure Marked (c done remove_tmp : List interval) : Prop where
  sub : ∀ r ∈ remove_tmp, r ∈ c
  cause : ∀ r ∈ remove_tmp, ∃ k ∈ done, k ∉ remove_tmp ∧ k.overlaps_with r = true ∧
    r.size ≤ k.size
  closed : ∀ k ∈ done, k ∉ remove_tmp → ∀ x ∈ c, overlaps_other k x = true → x ∈ remove_tmp

end aho_corasick

namespace aho_corasick

/-! ## The matching loop in closed form -/

theorem get_state_eq_get1 (t : basic_trie) (ht : Shallow t) (s : Nat) (c : Char) :
    get_state t s c = some (get1 t s c) := by
  unfold get_state
  obtain ⟨n, hn⟩ : ∃ n, t.d_size + 1 = n + 2 := ⟨t.d_size - 1, by have := ht.1; omega⟩
  rw [hn]
  simp only [get_state_loop, get1]
  cases h : (t.heap s).next_state c with
  | some r => rfl
  | none =>
    cases h2 : (t.heap s).d_failure with
    | none => rfl
    | some f =>
      simp only []
      cases h3 : (t.heap f).next_state c with
      | some r => rfl
      | none => simp [ht.2 s f h2]

theorem parse_visit_eq (t : basic_trie) (ht : Shallow t)
    (len pos : Nat) (c : Char) (v : parse_vars) (s : Nat) :
    parse_visit t len pos c v s =
      some { cur_states := v.cur_states ++ (moves t c s).map Prod.fst,
             collected_emits :=
               if pos + 1 = len then harvest t pos (moves t c s) v.collected_emits
               else v.collected_emits } := by
  unfold parse_visit
  simp only [get_state_eq_get1 t ht, moves, harvest, parse_push, fin_leaf, fin_any]
  by_cases hl : pos + 1 = len <;> cases get1 t s c <;> cases get1 t s '+' <;>
    cases get1 t s '#' <;>
    by_cases hg : ((t.heap s).d_value = '+' && c = '.') = true <;>
    simp [hl, hg]

theorem harvest_append (t : basic_trie) (pos : Nat) (ms ns : List (Nat × Bool))
    (col : List emit) :
    harvest t pos (ms ++ ns) col = harvest t pos ns (harvest t pos ms col) := by
  simp [harvest, List.foldl_append]

theorem parse_inner_eq (t : basic_trie) (ht : Shallow t) (len pos : Nat) (c : Char) :
    ∀ (prev : List Nat) (v : parse_vars),
      parse_inner t len pos c prev v =
        some { cur_states := v.cur_states ++ step t c prev,
               collected_emits :=
                 if pos + 1 = len then harvest t pos (prev.flatMap (moves t c)) v.collected_emits
                 else v.collected_emits } := by
  intro prev
  induction prev with
  | nil => intro v; simp [parse_inner, step, harvest]
  | cons s rest ih =>
    intro v
    simp only [parse_inner, parse_visit_eq t ht, ih]
    by_cases hl : pos + 1 = len <;>
      simp [hl, step, harvest_append, List.flatMap_cons, List.map_append, List.append_assoc]

theorem parse_outer_eq (t : basic_trie) (ht : Shallow t) (len : Nat) :
    ∀ (text : List Char) (pos : Nat) (prev : List Nat) (col : List emit),
      pos + text.length = len →
      parse_outer t len text pos prev col = some (collect t (seen t text) pos prev col) := by
  intro text
  induction text with
  | nil => intro pos prev col _; simp [parse_outer, collect, seen]
  | cons c0 rest ih =>
    intro pos prev col hlen
    simp only [List.length_cons] at hlen
    simp only [parse_outer, parse_inner_eq t ht, seen, List.map_cons, collect, List.nil_append]
    rw [ih (pos + 1) _ _ (by omega)]
    have hiff : (pos + 1 = len) ↔ rest = [] := by
      constructor
      · intro h
        have : rest.length = 0 := by omega
        exact List.length_eq_zero.mp this
      · intro h; subst h; simpa using hlen
    by_cases hr : rest = []
    · simp [hr, hiff.mpr hr, seen]
    · have hne : ¬ (pos + 1 = len) := fun h => hr (hiff.mp h)
      simp [hr, hne, seen]

theorem active_from_snoc (t : basic_trie) (prev : List Nat) (w : List Char) (c : Char) :
    active_from t prev (w ++ [c]) = step t c (active_from t prev w) := by
  simp [active_from, List.foldl_append]

theorem active_from_append (t : basic_trie) (prev : List Nat) (w v : List Char) :
    active_from t prev (w ++ v) = active_from t (active_from t prev w) v := by
  simp [active_from, List.foldl_append]

theorem collect_snoc (t : basic_trie) (c : Char) :
    ∀ (w : List Char) (pos : Nat) (prev : List Nat) (col : List emit),
      collect t (w ++ [c]) pos prev col =
        harvest t (pos + w.length) ((active_from t prev w).flatMap (moves t c)) col := by
  intro w
  induction w with
  | nil => intro pos prev col; simp [collect, active_from]
  | cons a rest ih =>
    intro pos prev col
    have hne : rest ++ [c] ≠ [] := by simp
    rw [List.cons_append, collect, if_neg hne, ih, List.length_cons]
    have e : pos + 1 + rest.length = pos + (rest.length + 1) := by omega
    rw [e]
    rfl

/-- The result of `parse_text` on a trie with short failure chains: nothing for the empty
text, and otherwise what the moves out of the states active before the last symbol store. -/
theorem parse_text_nil (t : basic_trie) : parse_text t [] = some [] := rfl

theorem parse_text_snoc (t : basic_trie) (ht : Shallow t) (text w : List Char) (c : Char)
    (hs : seen t text = w ++ [c]) :
    parse_text t text = some (harvest t w.length ((active t w).flatMap (moves t c)) []) := by
  unfold parse_text
  rw [parse_outer_eq t ht text.length text 0 [0] [] (by omega), hs, collect_snoc]
  simp [active]

end aho_corasick

namespace aho_corasick

/-! ## One pass of the loop of `insert`, in closed form -/

theorem is_wild_iff (c : Char) : is_wild c = true ↔ c = '+' ∨ c = '#' := by
  simp [is_wild]

theorem insert_step_new (t : basic_trie) (cur : Nat) (ch : Char) (lmw : Option Nat)
    (h : (t.heap cur).d_success ch = none) (hc : cur ≠ t.d_size) :
    insert_step { trie := t, cur_state := cur, last_multi_wildcard := lmw } ch =
      { trie := grown t cur ch lmw, cur_state := t.d_size,
        last_multi_wildcard := if ch = '#' then some t.d_size else lmw } := by
  have hc2 : t.d_size ≠ cur := fun e => hc e.symm
  by_cases h1 : ch = '.'
  · subst h1
    cases lmw with
    | none =>
      simp only [insert_step, add_state, state.next_state, h, grown, new_child, basic_trie.put,
        state.set_success, state.make, is_wild]
      simp [hc, hc2]
      funext j
      split_ifs <;> simp_all
    | some w =>
      simp only [insert_step, add_state, state.next_state, h, grown, new_child, basic_trie.put,
        state.set_success, state.make, is_wild, set_failure]
      simp [hc, hc2]
      funext j
      split_ifs <;> simp_all
  · by_cases h2 : ch = '+'
    · subst h2
      simp only [insert_step, add_state, add_state_to, state.next_state, h, grown, new_child,
        basic_trie.put, state.set_success, state.make, is_wild, set_failure]
      simp [hc, hc2]
      funext j
      split_ifs <;> simp_all
    · by_cases h3 : ch = '#'
      · subst h3
        simp only [insert_step, add_state, add_state_to, state.next_state, h, grown, new_child,
          basic_trie.put, state.set_success, state.make, is_wild, set_failure]
        simp [hc, hc2]
        funext j
        split_ifs <;> simp_all
      · simp only [insert_step, add_state, add_state_to, state.next_state, h, grown, new_child,
          basic_trie.put, state.set_success, state.make, is_wild, set_failure]
        simp [hc, hc2, h1, h2, h3]
        funext j
        split_ifs <;> simp_all

end aho_corasick

namespace aho_corasick

/-! ## What ends up in the collected emits -/

theorem mem_map_insert {x e : emit} : ∀ {m : List emit}, x ∈ map_insert e m → x = e ∨ x ∈ m := by
  intro m
  induction m with
  | nil => intro h; simpa [map_insert] using h
  | cons y ys ih =>
    intro h
    simp only [map_insert] at h
    split at h
    · simpa using h
    · split at h
      · rcases List.mem_cons.mp h with h1 | h1
        · exact Or.inr (by simp [h1])
        · rcases ih h1 with h2 | h2
          · exact Or.inl h2
          · exact Or.inr (by simp [h2])
      · exact Or.inr h

theorem map_insert_ne_nil (e : emit) (m : List emit) : map_insert e m ≠ [] := by
  cases m with
  | nil => simp [map_insert]
  | cons y ys =>
    simp only [map_insert]
    split
    · simp
    · split <;> simp

/-- Every key of the map after a run of `map_insert` calls was there before or is the emit
of one of the pairs. -/
theorem mem_foldl_map_insert {x : emit} (pos : Nat) :
    ∀ (ks : List (List Char × Nat)) (col : List emit),
      x ∈ ks.foldl (fun m str => map_insert (emit_at pos str) m) col →
      x ∈ col ∨ ∃ k ∈ ks, x = emit_at pos k := by
  intro ks
  induction ks with
  | nil => intro col h; exact Or.inl h
  | cons k rest ih =>
    intro col h
    simp only [List.foldl_cons] at h
    rcases ih _ h with h1 | ⟨k2, hk2, hx⟩
    · rcases mem_map_insert h1 with h2 | h2
      · exact Or.inr ⟨k, by simp, h2⟩
      · exact Or.inl h2
    · exact Or.inr ⟨k2, by simp [hk2], hx⟩

theorem foldl_map_insert_ne_nil (pos : Nat) :
    ∀ (ks : List (List Char × Nat)) (col : List emit),
      (ks ≠ [] ∨ col ≠ []) →
      ks.foldl (fun m str => map_insert (emit_at pos str) m) col ≠ [] := by
  intro ks
  induction ks with
  | nil => intro col h; rcases h with h | h; exact absurd rfl h; simpa using h
  | cons k rest ih =>
    intro col _
    simp only [List.foldl_cons]
    exact ih _ (Or.inr (map_insert_ne_nil _ _))

theorem store_emits_eq (pos : Nat) (s : state) (col : List emit) :
    store_emits pos s col = s.d_emits.foldl (fun m str => map_insert (emit_at pos str) m) col := by
  unfold store_emits
  cases h : s.d_emits with
  | nil => simp
  | cons k ks => simp [emit_at]

theorem mem_store_emits {x : emit} {pos : Nat} {s : state} {col : List emit}
    (h : x ∈ store_emits pos s col) : x ∈ col ∨ ∃ k ∈ s.d_emits, x = emit_at pos k := by
  rw [store_emits_eq] at h
  exact mem_foldl_map_insert pos _ _ h

theorem store_emits_ne_nil (pos : Nat) (s : state) (col : List emit)
    (h : s.d_emits ≠ [] ∨ col ≠ []) : store_emits pos s col ≠ [] := by
  rw [store_emits_eq]
  exact foldl_map_insert_ne_nil pos _ _ h

theorem mem_harvest {x : emit} (t : basic_trie) (pos : Nat) :
    ∀ (ms : List (Nat × Bool)) (col : List emit),
      x ∈ harvest t pos ms col →
      x ∈ col ∨ ∃ m ∈ ms, m.2 = true ∧ ∃ k ∈ (t.heap m.1).d_emits, x = emit_at pos k := by
  intro ms
  induction ms with
  | nil => intro col h; exact Or.inl h
  | cons m rest ih =>
    intro col h
    have h2 : x ∈ harvest t pos rest (if m.2 then store_emits pos (t.heap m.1) col else col) := h
    rcases ih _ h2 with h1 | ⟨m2, hm2, hfin, k, hk, hx⟩
    · by_cases hm : m.2 = true
      · rw [if_pos hm] at h1
        rcases mem_store_emits h1 with h3 | ⟨k, hk, hx⟩
        · exact Or.inl h3
        · exact Or.inr ⟨m, by simp, hm, k, hk, hx⟩
      · rw [if_neg hm] at h1
        exact Or.inl h1
    · exact Or.inr ⟨m2, by simp [hm2], hfin, k, hk, hx⟩

theorem harvest_ne_nil_of_ne_nil (t : basic_trie) (pos : Nat) :
    ∀ (ms : List (Nat × Bool)) (col : List emit), col ≠ [] → harvest t pos ms col ≠ [] := by
  intro ms
  induction ms with
  | nil => intro col h; exact h
  | cons m rest ih =>
    intro col h
    have e : harvest t pos (m :: rest) col =
        harvest t pos rest (if m.2 then store_emits pos (t.heap m.1) col else col) := rfl
    rw [e]
    apply ih
    by_cases hm : m.2 = true
    · rw [if_pos hm]; exact store_emits_ne_nil _ _ _ (Or.inr h)
    · rw [if_neg hm]; exact h

theorem harvest_ne_nil (t : basic_trie) (pos : Nat) :
    ∀ (ms : List (Nat × Bool)) (col : List emit) (m : Nat × Bool),
      m ∈ ms → m.2 = true → (t.heap m.1).d_emits ≠ [] → harvest t pos ms col ≠ [] := by
  intro ms
  induction ms with
  | nil => intro col m hm; simp at hm
  | cons a rest ih =>
    intro col m hm hfin hne
    have e : harvest t pos (a :: rest) col =
        harvest t pos rest (if a.2 then store_emits pos (t.heap a.1) col else col) := rfl
    rw [e]
    rcases List.mem_cons.mp hm with h1 | h1
    · subst h1
      rw [if_pos hfin]
      exact harvest_ne_nil_of_ne_nil t pos rest _ (store_emits_ne_nil _ _ _ (Or.inl hne))
    · exact ih _ m h1 hfin hne

end aho_corasick

namespace aho_corasick

theorem insert_step_old (t : basic_trie) (cur : Nat) (ch : Char) (lmw : Option Nat) (r : Nat)
    (h : (t.heap cur).d_success ch = some r)
    (hl : is_wild ch = true → (t.heap r).d_success ch = some r) :
    insert_step { trie := t, cur_state := cur, last_multi_wildcard := lmw } ch =
      { trie := relinked t r ch lmw, cur_state := r,
        last_multi_wildcard := if ch = '#' then some r else lmw } := by
  by_cases h1 : ch = '.'
  · subst h1
    cases lmw <;> simp [insert_step, add_state, state.next_state, h, relinked]
  · by_cases h2 : ch = '+'
    · subst h2
      have := hl (by decide)
      simp [insert_step, add_state, add_state_to, state.next_state, h, relinked, this]
    · by_cases h3 : ch = '#'
      · subst h3
        have := hl (by decide)
        simp [insert_step, add_state, add_state_to, state.next_state, h, relinked, this]
      · simp [insert_step, add_state, state.next_state, h, relinked, h1, h2, h3]

theorem walk_append (t : basic_trie) :
    ∀ (w v : List Char) (s q : Nat), walk t s w = some q → walk t s (w ++ v) = walk t q v := by
  intro w
  induction w with
  | nil => intro v s q h; simp [walk] at h; subst h; rfl
  | cons c cs ih =>
    intro v s q h
    simp only [walk, List.cons_append] at h ⊢
    cases hn : (t.heap s).next_state c with
    | none => simp [hn] at h
    | some r => simp only [hn] at h ⊢; exact ih v r q h

theorem walk_snoc (t : basic_trie) (w : List Char) (s q r : Nat) (c : Char)
    (h : walk t s w = some q) (hc : (t.heap q).d_success c = some r) :
    walk t s (w ++ [c]) = some r := by
  rw [walk_append t w [c] s q h]
  simp [walk, state.next_state, hc]

theorem walk_mono (t t2 : basic_trie)
    (hm : ∀ s c r, (t.heap s).d_success c = some r → (t2.heap s).d_success c = some r) :
    ∀ (w : List Char) (s q : Nat), walk t s w = some q → walk t2 s w = some q := by
  intro w
  induction w with
  | nil => intro s q h; simpa [walk] using h
  | cons c cs ih =>
    intro s q h
    simp only [walk] at h ⊢
    cases hn : (t.heap s).next_state c with
    | none => simp [hn] at h
    | some r =>
      simp only [hn] at h
      have := hm s c r hn
      simp only [state.next_state, this]
      exact ih r q h

theorem lit_tail_snoc (q : List Char) (c : Char) :
    lit_tail (q ++ [c]) = tail_step (lit_tail q) c := by
  simp [lit_tail, List.foldl_append]

theorem walk_shape_snoc (q : List Char) (c : Char) :
    walk_shape (q ++ [c]) = shape_step (walk_shape q) c := by
  simp [walk_shape, List.foldl_append]

theorem tail_step_ne_self (a : List Char) (c : Char) (h : a = tail_step a c) :
    is_wild c = true := by
  unfold tail_step at h
  by_cases hw : is_wild c = true
  · exact hw
  · rw [if_neg hw] at h
    have := congrArg List.length h
    simp at this

end aho_corasick

namespace aho_corasick

/-! ## The invariant across a pass that finds its transition -/

theorem relinked_success (t : basic_trie) (r : Nat) (ch : Char) (lmw : Option Nat) (s : Nat) :
    ((relinked t r ch lmw).heap s).d_success = (t.heap s).d_success := by
  unfold relinked
  split
  · simp only [set_failure, basic_trie.put]; split_ifs with h <;> simp [h]
  · rfl

theorem relinked_value (t : basic_trie) (r : Nat) (ch : Char) (lmw : Option Nat) (s : Nat) :
    ((relinked t r ch lmw).heap s).d_value = (t.heap s).d_value := by
  unfold relinked
  split
  · simp only [set_failure, basic_trie.put]; split_ifs with h <;> simp [h]
  · rfl

theorem relinked_depth (t : basic_trie) (r : Nat) (ch : Char) (lmw : Option Nat) (s : Nat) :
    ((relinked t r ch lmw).heap s).d_depth = (t.heap s).d_depth := by
  unfold relinked
  split
  · simp only [set_failure, basic_trie.put]; split_ifs with h <;> simp [h]
  · rfl

theorem relinked_emits (t : basic_trie) (r : Nat) (ch : Char) (lmw : Option Nat) (s : Nat) :
    ((relinked t r ch lmw).heap s).d_emits = (t.heap s).d_emits := by
  unfold relinked
  split
  · simp only [set_failure, basic_trie.put]; split_ifs with h <;> simp [h]
  · rfl

theorem relinked_ending (t : basic_trie) (r : Nat) (ch : Char) (lmw : Option Nat) (s : Nat) :
    ((relinked t r ch lmw).heap s).d_ending_pattern = (t.heap s).d_ending_pattern := by
  unfold relinked
  split
  · simp only [set_failure, basic_trie.put]; split_ifs with h <;> simp [h]
  · rfl

theorem relinked_has_success (t : basic_trie) (r : Nat) (ch : Char) (lmw : Option Nat)
    (s : Nat) :
    ((relinked t r ch lmw).heap s).d_has_success = (t.heap s).d_has_success := by
  unfold relinked
  split
  · simp only [set_failure, basic_trie.put]; split_ifs with h <;> simp [h]
  · rfl

theorem relinked_size (t : basic_trie) (r : Nat) (ch : Char) (lmw : Option Nat) :
    (relinked t r ch lmw).d_size = t.d_size := by
  unfold relinked
  split <;> rfl

theorem relinked_frame (t : basic_trie) (r : Nat) (ch : Char) (lmw : Option Nat) :
    (relinked t r ch lmw).d_config = t.d_config ∧
    (relinked t r ch lmw).d_num_keywords = t.d_num_keywords ∧
    (relinked t r ch lmw).d_uninit = t.d_uninit := by
  unfold relinked
  split <;> exact ⟨rfl, rfl, rfl⟩

theorem relinked_failure (t : basic_trie) (r : Nat) (ch : Char) (lmw : Option Nat) (s f : Nat)
    (h : ((relinked t r ch lmw).heap s).d_failure = some f) :
    (t.heap s).d_failure = some f ∨ (s = r ∧ ch = '.' ∧ lmw = some f) := by
  unfold relinked at h
  split at h
  · rename_i w hw
    simp only [set_failure, basic_trie.put] at h
    by_cases hs : s = r
    · simp only [hs, if_true] at h
      right
      refine ⟨hs, ?_, ?_⟩
      · by_contra hne; simp [hne] at hw
      · by_cases hc : ch = '.'
        · simp only [hc, if_true] at hw; rw [hw]; simpa using h
        · simp [hc] at hw
    · simp only [hs, if_false] at h
      exact Or.inl h
  · exact Or.inl h

theorem loop_step_old (t0 t : basic_trie) (ps : List (List Char)) (cur : Nat) (ch : Char)
    (lmw : Option Nat) (q : List Char) (lt : Nat → List Char) (r : Nat)
    (hI : LoopInv t0 ps { trie := t, cur_state := cur, last_multi_wildcard := lmw } q lt)
    (h : (t.heap cur).d_success ch = some r) :
    LoopInv t0 ps
      (insert_step { trie := t, cur_state := cur, last_multi_wildcard := lmw } ch)
      (q ++ [ch]) lt := by
  have I := hI.inv
  simp only at I
  have hv : (t.heap r).d_value = ch := I.next_value cur ch r h
  have hloop : is_wild ch = true → (t.heap r).d_success ch = some r := by
    intro hw
    have := I.self_loop r (by rw [hv]; exact hw)
    rwa [hv] at this
  rw [insert_step_old t cur ch lmw r h hloop]
  have hb := I.next_lt cur ch r h
  have hshape : ((t.heap r).d_value, (t.heap r).d_depth) = walk_shape (q ++ [ch]) := by
    rw [walk_shape_snoc, ← hI.cur_shape]
    simp only [shape_step, hv]
    rcases I.next_depth cur ch r h with h1 | h1
    · subst h1
      have hw : is_wild ch = true :=
        tail_step_ne_self (lt r) ch (I.next_tail r ch r h)
      simp [hw, hv]
    · have : ¬ (is_wild ch = true ∧ ch = (t.heap cur).d_value) := by
        rintro ⟨hw, he⟩
        have := I.self_loop cur (by rw [← he]; exact hw)
        rw [← he, h] at this
        have hrc : r = cur := by simpa using this
        subst hrc
        omega
      by_cases hw : is_wild ch = true
      · have hne : ch ≠ (t.heap cur).d_value := fun he => this ⟨hw, he⟩
        simp [hw, hne, h1]
      · simp [hw, h1]
  have hdep : (t.heap cur).d_depth ≤ (t.heap r).d_depth := by
    rcases I.next_depth cur ch r h with h1 | h1
    · rw [h1]
    · omega
  refine
    { inv := ?_, cur_lt := ?_, cur_tail := ?_, cur_shape := ?_, lmw_ok := ?_, walk_ok := ?_,
      same_config := ?_, same_count := ?_, same_uninit := ?_ }
  · refine
      { size_pos := ?_, root_depth := ?_, root_value := ?_, root_tail := I.root_tail,
        next_lt := ?_, next_value := ?_, next_depth := ?_, next_tail := ?_, self_loop := ?_,
        fail_lt := ?_, fail_value := ?_, fail_depth := ?_, emits_ok := ?_ }
    · simp only [relinked_size]; exact I.size_pos
    · simp only [relinked_depth]; exact I.root_depth
    · simp only [relinked_value]; exact I.root_value
    · intro s c r2 h2; simp only [relinked_success, relinked_size] at h2 ⊢
      exact I.next_lt s c r2 h2
    · intro s c r2 h2; simp only [relinked_success, relinked_value] at h2 ⊢
      exact I.next_value s c r2 h2
    · intro s c r2 h2; simp only [relinked_success, relinked_depth] at h2 ⊢
      exact I.next_depth s c r2 h2
    · intro s c r2 h2; simp only [relinked_success] at h2
      exact I.next_tail s c r2 h2
    · intro s h2; simp only [relinked_success, relinked_value] at h2 ⊢
      exact I.self_loop s h2
    · intro s f h2
      simp only [relinked_size]
      rcases relinked_failure t r ch lmw s f h2 with h3 | ⟨_, _, h5⟩
      · exact I.fail_lt s f h3
      · exact (hI.lmw_ok f h5).1
    · intro s f h2
      simp only [relinked_value]
      rcases relinked_failure t r ch lmw s f h2 with h3 | ⟨h3, h4, h5⟩
      · exact I.fail_value s f h3
      · subst h3; exact ⟨by rw [hv, h4], (hI.lmw_ok f h5).2.1⟩
    · intro s f h2
      simp only [relinked_depth]
      rcases relinked_failure t r ch lmw s f h2 with h3 | ⟨h3, _, h5⟩
      · exact I.fail_depth s f h3
      · subst h3
        have := (hI.lmw_ok f h5).2.2
        simp only at this
        omega
    · intro s k hk
      simp only [relinked_emits, relinked_value, relinked_depth, relinked_ending] at hk ⊢
      exact I.emits_ok s k hk
  · simp only [relinked_size]; exact hb.2.1
  · simp only; rw [lit_tail_snoc, ← hI.cur_tail]; exact I.next_tail cur ch r h
  · simp only [relinked_value, relinked_depth]; exact hshape
  · intro w hw
    simp only [relinked_size, relinked_value, relinked_depth]
    by_cases h3 : ch = '#'
    · simp only [h3, if_true, Option.some.injEq] at hw
      subst hw
      exact ⟨hb.2.1, by rw [hv, h3], le_refl _⟩
    · simp only [h3, if_false] at hw
      have := hI.lmw_ok w hw
      simp only at this
      exact ⟨this.1, this.2.1, by omega⟩
  · simp only
    apply walk_snoc (relinked t r ch lmw) q 0 cur r ch
    · exact walk_mono t _ (fun s c r2 h2 => by rw [relinked_success]; exact h2) q 0 cur hI.walk_ok
    · rw [relinked_success]; exact h
  · exact (relinked_frame t r ch lmw).1.trans hI.same_config
  · exact (relinked_frame t r ch lmw).2.1.trans hI.same_count
  · exact (relinked_frame t r ch lmw).2.2.trans hI.same_uninit

end aho_corasick

namespace aho_corasick

/-! ## The invariant across a pass that creates a state -/

theorem grown_heap_new (t : basic_trie) (cur : Nat) (ch : Char) (lmw : Option Nat) :
    (grown t cur ch lmw).heap t.d_size = new_child t cur ch lmw := by
  simp [grown]

theorem grown_value (t : basic_trie) (cur : Nat) (ch : Char) (lmw : Option Nat) (j : Nat)
    (hj : j ≠ t.d_size) : ((grown t cur ch lmw).heap j).d_value = (t.heap j).d_value := by
  simp only [grown, hj, if_false]; split_ifs with h <;> simp [h]

theorem grown_depth (t : basic_trie) (cur : Nat) (ch : Char) (lmw : Option Nat) (j : Nat)
    (hj : j ≠ t.d_size) : ((grown t cur ch lmw).heap j).d_depth = (t.heap j).d_depth := by
  simp only [grown, hj, if_false]; split_ifs with h <;> simp [h]

theorem grown_failure (t : basic_trie) (cur : Nat) (ch : Char) (lmw : Option Nat) (j : Nat)
    (hj : j ≠ t.d_size) : ((grown t cur ch lmw).heap j).d_failure = (t.heap j).d_failure := by
  simp only [grown, hj, if_false]; split_ifs with h <;> simp [h]

theorem grown_emits (t : basic_trie) (cur : Nat) (ch : Char) (lmw : Option Nat) (j : Nat)
    (hj : j ≠ t.d_size) : ((grown t cur ch lmw).heap j).d_emits = (t.heap j).d_emits := by
  simp only [grown, hj, if_false]; split_ifs with h <;> simp [h]

theorem grown_ending (t : basic_trie) (cur : Nat) (ch : Char) (lmw : Option Nat) (j : Nat)
    (hj : j ≠ t.d_size) :
    ((grown t cur ch lmw).heap j).d_ending_pattern = (t.heap j).d_ending_pattern := by
  simp only [grown, hj, if_false]; split_ifs with h <;> simp [h]

theorem grown_success (t : basic_trie) (cur : Nat) (ch : Char) (lmw : Option Nat) (j : Nat)
    (c : Char) (hj : j ≠ t.d_size) :
    ((grown t cur ch lmw).heap j).d_success c =
      if j = cur ∧ c = ch then some t.d_size else (t.heap j).d_success c := by
  simp only [grown, hj, if_false]
  by_cases h : j = cur
  · subst h; by_cases hc : c = ch <;> simp [hc]
  · simp [h]

theorem grown_trans (t : basic_trie) (cur : Nat) (ch : Char) (lmw : Option Nat) (s : Nat)
    (c : Char) (r : Nat) (h : ((grown t cur ch lmw).heap s).d_success c = some r) :
    (s = t.d_size ∧ r = t.d_size ∧ is_wild ch = true ∧ c = ch) ∨
    (s ≠ t.d_size ∧ s = cur ∧ c = ch ∧ r = t.d_size) ∨
    (s ≠ t.d_size ∧ ¬ (s = cur ∧ c = ch) ∧ (t.heap s).d_success c = some r) := by
  by_cases hs : s = t.d_size
  · left
    subst hs
    rw [grown_heap_new] at h
    simp only [new_child] at h
    by_cases hw : is_wild ch = true ∧ c = ch
    · rw [if_pos hw] at h
      exact ⟨rfl, by simpa using h.symm, hw.1, hw.2⟩
    · rw [if_neg hw] at h; simp at h
  · right
    rw [grown_success t cur ch lmw s c hs] at h
    by_cases hc : s = cur ∧ c = ch
    · rw [if_pos hc] at h
      exact Or.inl ⟨hs, hc.1, hc.2, by simpa using h.symm⟩
    · rw [if_neg hc] at h
      exact Or.inr ⟨hs, hc, h⟩

theorem grown_fail (t : basic_trie) (cur : Nat) (ch : Char) (lmw : Option Nat) (s f : Nat)
    (h : ((grown t cur ch lmw).heap s).d_failure = some f) :
    (s = t.d_size ∧ ch = '.' ∧ lmw = some f) ∨
    (s ≠ t.d_size ∧ (t.heap s).d_failure = some f) := by
  by_cases hs : s = t.d_size
  · left
    subst hs
    rw [grown_heap_new] at h
    simp only [new_child] at h
    by_cases hc : ch = '.'
    · rw [if_pos hc] at h; exact ⟨rfl, hc, h⟩
    · rw [if_neg hc] at h; simp at h
  · right
    rw [grown_failure t cur ch lmw s hs] at h
    exact ⟨hs, h⟩

theorem loop_step_new (t0 t : basic_trie) (ps : List (List Char)) (cur : Nat) (ch : Char)
    (lmw : Option Nat) (q : List Char) (lt : Nat → List Char)
    (hI : LoopInv t0 ps { trie := t, cur_state := cur, last_multi_wildcard := lmw } q lt)
    (h : (t.heap cur).d_success ch = none) :
    LoopInv t0 ps
      (insert_step { trie := t, cur_state := cur, last_multi_wildcard := lmw } ch)
      (q ++ [ch]) (fun j => if j = t.d_size then tail_step (lt cur) ch else lt j) := by
  have I := hI.inv
  simp only at I
  have hcur : cur < t.d_size := hI.cur_lt
  have hcn : cur ≠ t.d_size := by omega
  have hpos := I.size_pos
  have h0 : (0 : Nat) ≠ t.d_size := by omega
  rw [insert_step_new t cur ch lmw h hcn]
  have hnw : ¬ (is_wild ch = true ∧ ch = (t.heap cur).d_value) := by
    rintro ⟨hw, he⟩
    have := I.self_loop cur (by rw [← he]; exact hw)
    rw [← he, h] at this
    simp at this
  refine
    { inv := ?_, cur_lt := ?_, cur_tail := ?_, cur_shape := ?_, lmw_ok := ?_, walk_ok := ?_,
      same_config := hI.same_config, same_count := hI.same_count,
      same_uninit := hI.same_uninit }
  · refine
      { size_pos := ?_, root_depth := ?_, root_value := ?_, root_tail := ?_,
        next_lt := ?_, next_value := ?_, next_depth := ?_, next_tail := ?_, self_loop := ?_,
        fail_lt := ?_, fail_value := ?_, fail_depth := ?_, emits_ok := ?_ }
    · simp only [grown]; omega
    · rw [grown_depth t cur ch lmw 0 h0]; exact I.root_depth
    · rw [grown_value t cur ch lmw 0 h0]; exact I.root_value
    · simp only [h0, if_false]; exact I.root_tail
    · intro s c r h2
      have hsz : (grown t cur ch lmw).d_size = t.d_size + 1 := rfl
      rw [hsz]
      rcases grown_trans t cur ch lmw s c r h2 with ⟨h3, h4, _, _⟩ | ⟨_, h3, _, h4⟩ | ⟨_, _, h3⟩
      · subst h3; subst h4; exact ⟨by omega, by omega, by omega⟩
      · subst h3; subst h4; exact ⟨by omega, by omega, by omega⟩
      · have := I.next_lt s c r h3
        exact ⟨by omega, by omega, this.2.2⟩
    · intro s c r h2
      rcases grown_trans t cur ch lmw s c r h2 with ⟨_, h4, _, h5⟩ | ⟨_, _, h5, h4⟩ | ⟨_, _, h3⟩
      · subst h4; rw [grown_heap_new, h5]; rfl
      · subst h4; rw [grown_heap_new, h5]; rfl
      · have := I.next_lt s c r h3
        rw [grown_value t cur ch lmw r (by omega)]
        exact I.next_value s c r h3
    · intro s c r h2
      rcases grown_trans t cur ch lmw s c r h2 with ⟨h3, h4, _, _⟩ | ⟨_, h3, _, h4⟩ | ⟨hs, _, h3⟩
      · left; rw [h3, h4]
      · right
        subst h3; subst h4
        rw [grown_heap_new, grown_depth t s ch lmw s hcn]
        rfl
      · have := I.next_lt s c r h3
        rw [grown_depth t cur ch lmw r (by omega), grown_depth t cur ch lmw s hs]
        exact I.next_depth s c r h3
    · intro s c r h2
      rcases grown_trans t cur ch lmw s c r h2 with ⟨h3, h4, h5, h6⟩ | ⟨_, h3, h6, h4⟩ |
        ⟨hs, _, h3⟩
      · subst h3; subst h4; subst h6
        simp [tail_step, h5]
      · subst h3; subst h4; subst h6
        simp [hcn]
      · have := I.next_lt s c r h3
        have hr : r ≠ t.d_size := by omega
        simp only [hr, hs, if_false]
        exact I.next_tail s c r h3
    · intro s h2
      by_cases hs : s = t.d_size
      · subst hs
        rw [grown_heap_new] at h2 ⊢
        simp only [new_child] at h2 ⊢
        simp [h2]
      · rw [grown_value t cur ch lmw s hs] at h2 ⊢
        rw [grown_success t cur ch lmw s _ hs]
        have h3 := I.self_loop s h2
        have : ¬ (s = cur ∧ (t.heap s).d_value = ch) := by
          rintro ⟨h4, h5⟩
          subst h4
          rw [h5, h] at h3
          simp at h3
        rw [if_neg this]
        exact h3
    · intro s f h2
      have hsz : (grown t cur ch lmw).d_size = t.d_size + 1 := rfl
      rw [hsz]
      rcases grown_fail t cur ch lmw s f h2 with ⟨_, _, h5⟩ | ⟨_, h3⟩
      · have := (hI.lmw_ok f h5).1
        simp only at this
        omega
      · have := I.fail_lt s f h3
        omega
    · intro s f h2
      rcases grown_fail t cur ch lmw s f h2 with ⟨h3, h4, h5⟩ | ⟨hs, h3⟩
      · have hw := hI.lmw_ok f h5
        simp only at hw
        subst h3
        rw [grown_heap_new, grown_value t cur ch lmw f (by omega)]
        exact ⟨h4, hw.2.1⟩
      · have := I.fail_lt s f h3
        rw [grown_value t cur ch lmw s hs, grown_value t cur ch lmw f (by omega)]
        exact I.fail_value s f h3
    · intro s f h2
      rcases grown_fail t cur ch lmw s f h2 with ⟨h3, _, h5⟩ | ⟨hs, h3⟩
      · have hw := hI.lmw_ok f h5
        simp only at hw
        subst h3
        rw [grown_heap_new, grown_depth t cur ch lmw f (by omega)]
        simp only [new_child]
        omega
      · have := I.fail_lt s f h3
        rw [grown_depth t cur ch lmw s hs, grown_depth t cur ch lmw f (by omega)]
        exact I.fail_depth s f h3
    · intro s k hk
      by_cases hs : s = t.d_size
      · subst hs
        rw [grown_heap_new] at hk
        simp [new_child] at hk
      · rw [grown_emits t cur ch lmw s hs] at hk
        rw [grown_value t cur ch lmw s hs, grown_depth t cur ch lmw s hs,
          grown_ending t cur ch lmw s hs]
        simp only [hs, if_false]
        exact I.emits_ok s k hk
  · show t.d_size < t.d_size + 1
    omega
  · simp only [if_true]
    rw [lit_tail_snoc, ← hI.cur_tail]
  · simp only [grown_heap_new, new_child]
    rw [walk_shape_snoc, ← hI.cur_shape]
    simp only [shape_step]
    by_cases hw : is_wild ch = true
    · have hne : ch ≠ (t.heap cur).d_value := fun he => hnw ⟨hw, he⟩
      simp [hw, hne]
    · simp [hw]
  · intro w hw
    have hsz : (grown t cur ch lmw).d_size = t.d_size + 1 := rfl
    simp only [hsz, grown_heap_new]
    by_cases h3 : ch = '#'
    · simp only [h3, if_true, Option.some.injEq] at hw
      subst hw
      rw [grown_heap_new]
      exact ⟨by omega, by simp [new_child, h3], le_refl _⟩
    · simp only [h3, if_false] at hw
      have := hI.lmw_ok w hw
      simp only at this
      rw [grown_value t cur ch lmw w (by omega), grown_depth t cur ch lmw w (by omega)]
      exact ⟨by omega, this.2.1, by simp only [new_child]; omega⟩
  · simp only
    apply walk_snoc (grown t cur ch lmw) q 0 cur t.d_size ch
    · refine walk_mono t _ ?_ q 0 cur hI.walk_ok
      intro s c r h2
      have := I.next_lt s c r h2
      rw [grown_success t cur ch lmw s c (by omega)]
      have : ¬ (s = cur ∧ c = ch) := by
        rintro ⟨h4, h5⟩
        subst h4; subst h5
        rw [h] at h2
        simp at h2
      rw [if_neg this]
      exact h2
    · rw [grown_success t cur ch lmw cur ch hcn]
      simp

end aho_corasick

namespace aho_corasick

/-! ## The invariant across `insert` -/

theorem loop_step (t0 : basic_trie) (ps : List (List Char)) (v : insert_vars) (ch : Char)
    (q : List Char) (lt : Nat → List Char) (hI : LoopInv t0 ps v q lt) :
    ∃ lt2, LoopInv t0 ps (insert_step v ch) (q ++ [ch]) lt2 := by
  obtain ⟨t, cur, lmw⟩ := v
  cases h : (t.heap cur).d_success ch with
  | none => exact ⟨_, loop_step_new t0 t ps cur ch lmw q lt hI h⟩
  | some r => exact ⟨_, loop_step_old t0 t ps cur ch lmw q lt r hI h⟩

theorem leaf_step (t0 : basic_trie) (ps : List (List Char)) (v : insert_vars) (ch : Char)
    (q : List Char) (lt : Nat → List Char) (hI : LoopInv t0 ps v q lt) (hL : LeafInv v) :
    LeafInv (insert_step v ch) := by
  obtain ⟨t, cur, lmw⟩ := v
  have I := hI.inv
  simp only at I
  have hcur : cur < t.d_size := hI.cur_lt
  cases h : (t.heap cur).d_success ch with
  | none =>
    rw [insert_step_new t cur ch lmw h (by omega)]
    refine { no_emits := ?_, cur_leaf := ?_, cur_loops := ?_ }
    · intro s
      by_cases hs : s = t.d_size
      · subst hs; rw [grown_heap_new]; rfl
      · rw [grown_emits t cur ch lmw s hs]; exact hL.no_emits s
    · simp only [grown_heap_new]; rfl
    · intro c r h2
      simp only at h2 ⊢
      rcases grown_trans t cur ch lmw _ c r h2 with ⟨_, h4, _, _⟩ | ⟨h3, _⟩ | ⟨h3, _⟩
      · exact h4
      · exact absurd rfl h3
      · exact absurd rfl h3
  | some r =>
    have hv : (t.heap r).d_value = ch := I.next_value cur ch r h
    have hloop : is_wild ch = true → (t.heap r).d_success ch = some r := by
      intro hw
      have := I.self_loop r (by rw [hv]; exact hw)
      rwa [hv] at this
    rw [insert_step_old t cur ch lmw r h hloop]
    have hr : r = cur := hL.cur_loops ch r h
    subst hr
    refine { no_emits := ?_, cur_leaf := ?_, cur_loops := ?_ }
    · intro s; rw [relinked_emits]; exact hL.no_emits s
    · simp only [relinked_has_success]; exact hL.cur_leaf
    · intro c r2 h2
      simp only [relinked_success] at h2
      exact hL.cur_loops c r2 h2

theorem loop_fold (t0 : basic_trie) (ps : List (List Char)) :
    ∀ (rest : List Char) (v : insert_vars) (q : List Char) (lt : Nat → List Char),
      LoopInv t0 ps v q lt → ∃ lt2, LoopInv t0 ps (rest.foldl insert_step v) (q ++ rest) lt2 := by
  intro rest
  induction rest with
  | nil => intro v q lt h; exact ⟨lt, by simpa using h⟩
  | cons c cs ih =>
    intro v q lt h
    obtain ⟨lt1, h1⟩ := loop_step t0 ps v c q lt h
    obtain ⟨lt2, h2⟩ := ih (insert_step v c) (q ++ [c]) lt1 h1
    exact ⟨lt2, by simpa using h2⟩

theorem leaf_fold (t0 : basic_trie) (ps : List (List Char)) :
    ∀ (rest : List Char) (v : insert_vars) (q : List Char) (lt : Nat → List Char),
      LoopInv t0 ps v q lt → LeafInv v → LeafInv (rest.foldl insert_step v) := by
  intro rest
  induction rest with
  | nil => intro v q lt _ hL; exact hL
  | cons c cs ih =>
    intro v q lt h hL
    obtain ⟨lt1, h1⟩ := loop_step t0 ps v c q lt h
    exact ih (insert_step v c) (q ++ [c]) lt1 h1 (leaf_step t0 ps v c q lt h hL)

theorem loop_start (t : basic_trie) (ps : List (List Char)) (lt : Nat → List Char)
    (I : Inv t lt ps) :
    LoopInv t ps { trie := t, cur_state := 0, last_multi_wildcard := none } [] lt :=
  { inv := I
    cur_lt := I.size_pos
    cur_tail := I.root_tail
    cur_shape := by simp [walk_shape, I.root_value, I.root_depth]
    lmw_ok := by intro w hw; simp at hw
    walk_ok := rfl
    same_config := rfl
    same_count := rfl
    same_uninit := rfl }

theorem insert_loop_inv (t : basic_trie) (ps : List (List Char)) (lt : Nat → List Char)
    (I : Inv t lt ps) (kw : List Char) :
    ∃ lt2, LoopInv t ps (insert_loop t kw) kw lt2 := by
  have := loop_fold t ps kw _ [] lt (loop_start t ps lt I)
  simpa [insert_loop] using this

theorem walk_snoc_inv (t : basic_trie) (w : List Char) (c : Char) (s r : Nat)
    (h : walk t s (w ++ [c]) = some r) :
    ∃ q, walk t s w = some q ∧ (t.heap q).d_success c = some r := by
  induction w generalizing s with
  | nil =>
    simp only [List.nil_append, walk] at h
    cases hn : (t.heap s).next_state c with
    | none => simp [hn] at h
    | some r2 =>
      simp only [hn] at h
      exact ⟨s, rfl, by rw [← h]; exact hn⟩
  | cons a rest ih =>
    simp only [List.cons_append, walk] at h ⊢
    cases hn : (t.heap s).next_state a with
    | none => simp [hn] at h
    | some r2 =>
      simp only [hn] at h
      exact ih r2 h

theorem loop_cur_ne_zero (t0 : basic_trie) (ps : List (List Char)) (v : insert_vars)
    (kw : List Char) (lt : Nat → List Char) (hI : LoopInv t0 ps v kw lt) (hk : kw ≠ []) :
    v.cur_state ≠ 0 := by
  obtain ⟨w, c, rfl⟩ : ∃ w c, kw = w ++ [c] := by
    rcases List.eq_nil_or_concat kw with h | ⟨w, c, h⟩
    · exact absurd h hk
    · exact ⟨w, c, by simpa using h⟩
  obtain ⟨q, _, h2⟩ := walk_snoc_inv v.trie w c 0 v.cur_state hI.walk_ok
  exact (hI.inv.next_lt q c v.cur_state h2).2.2

theorem mem_set_insert {x k : List Char × Nat} :
    ∀ {m : List (List Char × Nat)}, x ∈ set_insert k m → x = k ∨ x ∈ m := by
  intro m
  induction m with
  | nil => intro h; simpa [set_insert] using h
  | cons y ys ih =>
    intro h
    simp only [set_insert] at h
    split at h
    · simpa using h
    · split at h
      · rcases List.mem_cons.mp h with h1 | h1
        · exact Or.inr (by simp [h1])
        · rcases ih h1 with h2 | h2
          · exact Or.inl h2
          · exact Or.inr (by simp [h2])
      · exact Or.inr h

/-- The state store after `insert` of a keyword that is not empty: only the state the loop
ended at changes, and only in its end mark and its emits. -/
theorem insert_heap (t : basic_trie) (kw : List Char) (hk : kw ≠ [])
    (hc : (insert_loop t kw).cur_state ≠ 0) (s : Nat) :
    (insert t kw).heap s =
      if s = (insert_loop t kw).cur_state then
        { (insert_loop t kw).trie.heap s with
          d_ending_pattern := true,
          d_emits := set_insert (kw, (insert_loop t kw).trie.d_num_keywords)
            ((insert_loop t kw).trie.heap s).d_emits }
      else (insert_loop t kw).trie.heap s := by
  simp only [insert, hk, if_false, hc, ne_eq, not_false_eq_true, if_true, basic_trie.put,
    state.add_emit]
  by_cases h : s = (insert_loop t kw).cur_state
  · simp [h]
  · simp [h]

theorem insert_size (t : basic_trie) (kw : List Char) (hk : kw ≠ []) :
    (insert t kw).d_size = (insert_loop t kw).trie.d_size := by
  simp only [insert, hk, if_false, basic_trie.put]
  split <;> rfl

theorem insert_config (t : basic_trie) (kw : List Char) (hk : kw ≠ []) :
    (insert t kw).d_config = (insert_loop t kw).trie.d_config := by
  simp only [insert, hk, if_false, basic_trie.put]
  split <;> rfl

end aho_corasick

namespace aho_corasick

theorem Inv.shallow {t : basic_trie} {lt : Nat → List Char} {ps : List (List Char)}
    (I : Inv t lt ps) : Shallow t := by
  refine ⟨I.size_pos, ?_⟩
  intro s f h
  cases hf : (t.heap f).d_failure with
  | none => rfl
  | some g =>
    have h1 := (I.fail_value s f h).2
    have h2 := (I.fail_value f g hf).1
    rw [h1] at h2
    exact absurd h2 (by decide)

theorem inv_make (u : Bool) (c : config) : Inv (basic_trie.make u c) (fun _ => []) [] :=
  { size_pos := le_refl 1
    root_depth := rfl
    root_value := rfl
    root_tail := rfl
    next_lt := by intro s c r h; simp [basic_trie.make, state.make] at h
    next_value := by intro s c r h; simp [basic_trie.make, state.make] at h
    next_depth := by intro s c r h; simp [basic_trie.make, state.make] at h
    next_tail := by intro s c r h; simp [basic_trie.make, state.make] at h
    self_loop := by
      intro s h
      have : is_wild (Char.ofNat 0) = false := by decide
      simp only [basic_trie.make, state.make] at h
      rw [this] at h
      exact absurd h (by simp)
    fail_lt := by intro s f h; simp [basic_trie.make, state.make] at h
    fail_value := by intro s f h; simp [basic_trie.make, state.make] at h
    fail_depth := by intro s f h; simp [basic_trie.make, state.make] at h
    emits_ok := by intro s k h; simp [basic_trie.make, state.make] at h }

/-- The invariant survives `insert`, and the state reached from the root along the keyword is
the one that got the emit. -/
theorem insert_inv (t : basic_trie) (ps : List (List Char)) (lt : Nat → List Char)
    (I : Inv t lt ps) (kw : List Char) (hk : kw ≠ []) :
    ∃ lt2, Inv (insert t kw) lt2 (ps ++ [kw]) ∧
      walk (insert t kw) 0 kw = some (insert_loop t kw).cur_state ∧
      (insert_loop t kw).cur_state ≠ 0 ∧
      (insert t kw).d_config = t.d_config := by
  obtain ⟨lt2, hI⟩ := insert_loop_inv t ps lt I kw
  have hc := loop_cur_ne_zero t ps _ kw lt2 hI hk
  have J := hI.inv
  have hh := insert_heap t kw hk hc
  have hsucc : ∀ s, ((insert t kw).heap s).d_success = ((insert_loop t kw).trie.heap s).d_success := by
    intro s; rw [hh]; split_ifs <;> rfl
  have hval : ∀ s, ((insert t kw).heap s).d_value = ((insert_loop t kw).trie.heap s).d_value := by
    intro s; rw [hh]; split_ifs <;> rfl
  have hdep : ∀ s, ((insert t kw).heap s).d_depth = ((insert_loop t kw).trie.heap s).d_depth := by
    intro s; rw [hh]; split_ifs <;> rfl
  have hfail : ∀ s, ((insert t kw).heap s).d_failure = ((insert_loop t kw).trie.heap s).d_failure := by
    intro s; rw [hh]; split_ifs <;> rfl
  have hsz := insert_size t kw hk
  refine ⟨lt2, ?_, ?_, hc, (insert_config t kw hk).trans hI.same_config⟩
  · refine
      { size_pos := ?_, root_depth := ?_, root_value := ?_, root_tail := J.root_tail,
        next_lt := ?_, next_value := ?_, next_depth := ?_, next_tail := ?_, self_loop := ?_,
        fail_lt := ?_, fail_value := ?_, fail_depth := ?_, emits_ok := ?_ }
    · rw [hsz]; exact J.size_pos
    · rw [hdep]; exact J.root_depth
    · rw [hval]; exact J.root_value
    · intro s c r h; rw [hsucc] at h; rw [hsz]; exact J.next_lt s c r h
    · intro s c r h; rw [hsucc] at h; rw [hval]; exact J.next_value s c r h
    · intro s c r h; rw [hsucc] at h; rw [hdep, hdep]; exact J.next_depth s c r h
    · intro s c r h; rw [hsucc] at h; exact J.next_tail s c r h
    · intro s h; rw [hval] at h; rw [hsucc, hval]; exact J.self_loop s h
    · intro s f h; rw [hfail] at h; rw [hsz]; exact J.fail_lt s f h
    · intro s f h; rw [hfail] at h; rw [hval, hval]; exact J.fail_value s f h
    · intro s f h; rw [hfail] at h; rw [hdep, hdep]; exact J.fail_depth s f h
    · intro s k hk2
      rw [hval, hdep]
      rw [hh] at hk2 ⊢
      by_cases hs : s = (insert_loop t kw).cur_state
      · simp only [hs, if_true] at hk2 ⊢
        rcases mem_set_insert hk2 with h1 | h1
        · subst h1
          exact ⟨by simp, hc, hI.cur_tail, hI.cur_shape, trivial⟩
        · have := J.emits_ok _ k h1
          exact ⟨by simp [this.1], this.2.1, this.2.2.1, this.2.2.2.1, trivial⟩
      · simp only [hs, if_false] at hk2 ⊢
        have := J.emits_ok s k hk2
        exact ⟨by simp [this.1], this.2.1, this.2.2.1, this.2.2.2.1, this.2.2.2.2⟩
  · exact walk_mono _ _ (fun s c r h => by rw [hsucc]; exact h) kw 0 _ hI.walk_ok

/-- The trie that holds exactly one keyword: the state reached from the root along the keyword
has no child and is the only state that emits, and it emits the keyword with index `0`. -/
theorem single_spec (u : Bool) (kw : List Char) (hk : kw ≠ []) :
    ∃ lt T, Inv (insert (basic_trie.fresh u) kw) lt [kw] ∧
      walk (insert (basic_trie.fresh u) kw) 0 kw = some T ∧ T ≠ 0 ∧
      ((insert (basic_trie.fresh u) kw).heap T).d_has_success = false ∧
      (∀ s, ((insert (basic_trie.fresh u) kw).heap s).d_emits = if s = T then [(kw, 0)] else []) ∧
      (insert (basic_trie.fresh u) kw).d_config.d_case_insensitive = false := by
  have I0 := inv_make u { d_case_insensitive := false }
  obtain ⟨lt, hI, hw, hc, hcfg⟩ := insert_inv (basic_trie.fresh u) [] _ I0 kw hk
  obtain ⟨lt2, hL⟩ := insert_loop_inv (basic_trie.fresh u) [] _ I0 kw
  have hLeaf : LeafInv (insert_loop (basic_trie.fresh u) kw) := by
    have := leaf_fold (basic_trie.fresh u) [] kw _ [] _ (loop_start _ [] _ I0)
      { no_emits := fun s => rfl
        cur_leaf := rfl
        cur_loops := by intro c r h; simp [basic_trie.fresh, basic_trie.make, state.make] at h }
    simpa [insert_loop] using this
  have hh := insert_heap (basic_trie.fresh u) kw hk hc
  refine ⟨lt, _, by simpa using hI, hw, hc, ?_, ?_, ?_⟩
  · rw [hh]; simp only [if_true]; exact hLeaf.cur_leaf
  · intro s
    rw [hh]
    by_cases hs : s = (insert_loop (basic_trie.fresh u) kw).cur_state
    · simp only [hs, if_true]
      rw [hLeaf.no_emits, hL.same_count]
      rfl
    · simp only [hs, if_false]
      exact hLeaf.no_emits s
  · rw [hcfg]; rfl

end aho_corasick

namespace aho_corasick

/-! ## Active states -/

theorem get1_of_next (t : basic_trie) (s r : Nat) (c : Char)
    (h : (t.heap s).d_success c = some r) : get1 t s c = some r := by
  simp [get1, state.next_state, h]

theorem get1_cases (t : basic_trie) (s r : Nat) (c : Char) (h : get1 t s c = some r) :
    (t.heap s).d_success c = some r ∨
    ∃ f, (t.heap s).d_failure = some f ∧ (t.heap f).d_success c = some r := by
  unfold get1 at h
  cases h1 : (t.heap s).next_state c with
  | some r2 => rw [h1] at h; left; rw [← h]; exact h1
  | none =>
    rw [h1] at h
    cases h2 : (t.heap s).d_failure with
    | none => rw [h2] at h; simp at h
    | some f => rw [h2] at h; exact Or.inr ⟨f, rfl, h⟩

theorem moves_exact (t : basic_trie) (s r : Nat) (c : Char) (h : get1 t s c = some r) :
    (r, fin_leaf t r) ∈ moves t c s := by
  simp [moves, h]

theorem moves_plus (t : basic_trie) (s r : Nat) (c : Char)
    (hg : ¬ ((t.heap s).d_value = '+' ∧ c = '.')) (h : get1 t s '+' = some r) :
    (r, fin_any t r) ∈ moves t c s := by
  have : ((t.heap s).d_value = '+' && c = '.') = false := by
    simpa using hg
  simp [moves, h, this]

theorem moves_hash (t : basic_trie) (s r : Nat) (c : Char) (h : get1 t s '#' = some r) :
    (r, fin_any t r) ∈ moves t c s := by
  simp [moves, h]

theorem mem_moves (t : basic_trie) (s : Nat) (c : Char) (m : Nat × Bool)
    (h : m ∈ moves t c s) :
    get1 t s c = some m.1 ∨ get1 t s '+' = some m.1 ∨ get1 t s '#' = some m.1 := by
  simp only [moves, List.mem_append, Option.mem_toList, Option.mem_def, Option.map_eq_some'] at h
  rcases h with ⟨r, h1, h2⟩ | h | ⟨r, h1, h2⟩
  · left; rw [← h2]; exact h1
  · right; left
    split_ifs at h
    · simp at h
    · simp only [Option.mem_toList, Option.mem_def, Option.map_eq_some'] at h
      obtain ⟨r, h1, h2⟩ := h
      rw [← h2]; exact h1
  · right; right; rw [← h2]; exact h1

theorem mem_step (t : basic_trie) (c : Char) (prev : List Nat) (r : Nat) :
    r ∈ step t c prev ↔ ∃ s ∈ prev, ∃ m ∈ moves t c s, m.1 = r := by
  simp only [step, List.mem_map, List.mem_flatMap]
  constructor
  · rintro ⟨m, ⟨s, hs, hm⟩, hr⟩; exact ⟨s, hs, m, hm, hr⟩
  · rintro ⟨s, hs, m, hm, hr⟩; exact ⟨m, ⟨s, hs, hm⟩, hr⟩

theorem active_move (t : basic_trie) (prev : List Nat) (w : List Char) (c : Char) (s : Nat)
    (m : Nat × Bool) (hs : s ∈ active_from t prev w) (hm : m ∈ moves t c s) :
    m.1 ∈ active_from t prev (w ++ [c]) := by
  rw [active_from_snoc, mem_step]
  exact ⟨s, hs, m, hm, rfl⟩

theorem active_walk (t : basic_trie) (prev : List Nat) :
    ∀ (v w : List Char) (s r : Nat), s ∈ active_from t prev w → walk t s v = some r →
      r ∈ active_from t prev (w ++ v) := by
  intro v
  induction v with
  | nil => intro w s r hs h; simp only [walk, Option.some.injEq] at h; subst h; simpa using hs
  | cons c cs ih =>
    intro w s r hs h
    simp only [walk] at h
    cases hn : (t.heap s).next_state c with
    | none => simp [hn] at h
    | some r2 =>
      simp only [hn] at h
      have h1 := active_move t prev w c s _ hs (moves_exact t s r2 c (get1_of_next t s r2 c hn))
      have := ih (w ++ [c]) r2 r h1 h
      simpa using this

/-- Once a state with a `#` self-loop can be entered by the `#` transition, it stays active
whatever symbols follow. -/
theorem hash_absorbs (t : basic_trie) (prev : List Nat) (H : Nat)
    (hH : get1 t H '#' = some H) :
    ∀ (v w : List Char) (s : Nat), s ∈ active_from t prev w → get1 t s '#' = some H →
      ∃ s2 ∈ active_from t prev (w ++ v), get1 t s2 '#' = some H := by
  intro v
  induction v with
  | nil => intro w s hs h; exact ⟨s, by simpa using hs, h⟩
  | cons c cs ih =>
    intro w s hs h
    have h1 := active_move t prev w c s _ hs (moves_hash t s H c h)
    obtain ⟨s2, hs2, h2⟩ := ih (w ++ [c]) H h1 hH
    exact ⟨s2, by simpa using hs2, h2⟩

/-- Once a state with a `+` self-loop can be entered by the `+` transition, it stays active
as long as no separator follows. -/
theorem plus_absorbs (t : basic_trie) (prev : List Nat) (S : Nat)
    (hS : get1 t S '+' = some S) :
    ∀ (v w : List Char) (s : Nat), s ∈ active_from t prev w → get1 t s '+' = some S →
      '.' ∉ v → ∃ s2 ∈ active_from t prev (w ++ v), get1 t s2 '+' = some S := by
  intro v
  induction v with
  | nil => intro w s hs h _; exact ⟨s, by simpa using hs, h⟩
  | cons c cs ih =>
    intro w s hs h hd
    have hc : c ≠ '.' := fun e => hd (by simp [e])
    have h1 := active_move t prev w c s _ hs (moves_plus t s S c (fun hh => hc hh.2) h)
    obtain ⟨s2, hs2, h2⟩ := ih (w ++ [c]) S h1 hS (fun hh => hd (by simp [hh]))
    exact ⟨s2, by simpa using hs2, h2⟩

/-! ## The result of `parse_text` -/

theorem parse_text_total (t : basic_trie) (ht : Shallow t) (text : List Char) :
    ∃ res, parse_text t text = some res := by
  rcases List.eq_nil_or_concat (seen t text) with h | ⟨w, c, h⟩
  · have : text = [] := by simpa [seen] using h
    subst this
    exact ⟨[], rfl⟩
  · exact ⟨_, parse_text_snoc t ht text w c (by simpa using h)⟩

theorem parse_text_mem (t : basic_trie) (ht : Shallow t) (text : List Char) (res : List emit)
    (e : emit) (h : parse_text t text = some res) (he : e ∈ res) :
    ∃ w c, seen t text = w ++ [c] ∧ ∃ s ∈ active t w, ∃ m ∈ moves t c s, m.2 = true ∧
      ∃ k ∈ (t.heap m.1).d_emits, e = emit_at w.length k := by
  rcases List.eq_nil_or_concat (seen t text) with h1 | ⟨w, c, h1⟩
  · have : text = [] := by simpa [seen] using h1
    subst this
    rw [parse_text_nil] at h
    simp only [Option.some.injEq] at h
    subst h
    simp at he
  · have h2 : seen t text = w ++ [c] := by simpa using h1
    rw [parse_text_snoc t ht text w c h2] at h
    simp only [Option.some.injEq] at h
    subst h
    rcases mem_harvest t w.length _ _ he with h3 | ⟨m, hm, hfin, k, hk, hx⟩
    · simp at h3
    · obtain ⟨s, hs, hms⟩ := List.mem_flatMap.mp hm
      exact ⟨w, c, h2, s, hs, m, hms, hfin, k, hk, hx⟩

theorem parse_text_ne_nil (t : basic_trie) (ht : Shallow t) (text w : List Char) (c : Char)
    (hseen : seen t text = w ++ [c]) (s : Nat) (m : Nat × Bool) (hs : s ∈ active t w)
    (hm : m ∈ moves t c s) (hfin : m.2 = true) (hne : (t.heap m.1).d_emits ≠ []) :
    ∃ res, parse_text t text = some res ∧ res ≠ [] := by
  refine ⟨_, parse_text_snoc t ht text w c hseen, ?_⟩
  exact harvest_ne_nil t w.length _ [] m (List.mem_flatMap.mpr ⟨s, hs, hm⟩) hfin hne

theorem seen_sensitive (t : basic_trie) (h : t.d_config.d_case_insensitive = false)
    (text : List Char) : seen t text = text := by
  simp [seen, h]

theorem size_wrap_self (n : Nat) : size_add (size_sub n (n + 1)) 1 = 0 := by
  simp only [size_add, size_sub, SIZE_MOD]
  norm_num
  omega

end aho_corasick

namespace aho_corasick

theorem map_insert_same (e : emit) : map_insert e [e] = [e] := by
  simp [map_insert, emit.lt]

theorem foldl_map_insert_const (pos : Nat) (e0 : emit) :
    ∀ (ks : List (List Char × Nat)) (col : List emit),
      (∀ k ∈ ks, emit_at pos k = e0) → (col = [] ∨ col = [e0]) →
      (ks.foldl (fun m str => map_insert (emit_at pos str) m) col = [] ∨
       ks.foldl (fun m str => map_insert (emit_at pos str) m) col = [e0]) := by
  intro ks
  induction ks with
  | nil => intro col _ h; exact h
  | cons k rest ih =>
    intro col hk h
    simp only [List.foldl_cons]
    apply ih _ (fun k2 hk2 => hk k2 (by simp [hk2]))
    right
    rw [hk k (by simp)]
    rcases h with h | h
    · subst h; rfl
    · subst h; exact map_insert_same e0

theorem harvest_const (t : basic_trie) (pos : Nat) (e0 : emit) :
    ∀ (ms : List (Nat × Bool)) (col : List emit),
      (∀ m ∈ ms, m.2 = true → ∀ k ∈ (t.heap m.1).d_emits, emit_at pos k = e0) →
      (col = [] ∨ col = [e0]) →
      (harvest t pos ms col = [] ∨ harvest t pos ms col = [e0]) := by
  intro ms
  induction ms with
  | nil => intro col _ h; exact h
  | cons m rest ih =>
    intro col hm h
    have e : harvest t pos (m :: rest) col =
        harvest t pos rest (if m.2 then store_emits pos (t.heap m.1) col else col) := rfl
    rw [e]
    apply ih _ (fun m2 hm2 => hm m2 (by simp [hm2]))
    by_cases hfin : m.2 = true
    · rw [if_pos hfin, store_emits_eq]
      exact foldl_map_insert_const pos e0 _ col (hm m (by simp) hfin) h
    · rw [if_neg hfin]; exact h

/-- C1. A single keyword that is not empty, whatever its symbols, matched against itself in a
case-sensitive trie that holds nothing else: `parse_text` returns exactly one emit, from `0`
to the last position, with the keyword and the index `0`. -/
theorem C1_single_keyword_matches_itself (u : Bool) (P : List Char) (hP : P ≠ []) :
    parse_text (insert (basic_trie.fresh u) P) P = some [emit.make 0 (P.length - 1) P 0] := by
  obtain ⟨lt, T, I, hw, _, hleaf, hem, hcfg⟩ := single_spec u P hP
  obtain ⟨w, c, rfl⟩ : ∃ w c, P = w ++ [c] := by
    rcases List.eq_nil_or_concat P with h | ⟨w, c, h⟩
    · exact absurd h hP
    · exact ⟨w, c, by simpa using h⟩
  obtain ⟨q, hq, hqc⟩ := walk_snoc_inv _ w c 0 T hw
  have hseen := seen_sensitive _ hcfg (w ++ [c])
  rw [parse_text_snoc _ I.shallow (w ++ [c]) w c hseen]
  have hact : q ∈ active (insert (basic_trie.fresh u) (w ++ [c])) w := by
    have := active_walk (insert (basic_trie.fresh u) (w ++ [c])) [0] w [] 0 q (by simp [active_from]) hq
    simpa [active] using this
  have hmove := moves_exact _ q T c (get1_of_next _ q T c hqc)
  have hT : ((insert (basic_trie.fresh u) (w ++ [c])).heap T).d_emits = [(w ++ [c], 0)] := by
    rw [hem T]; simp
  have hne : harvest (insert (basic_trie.fresh u) (w ++ [c])) w.length
      ((active (insert (basic_trie.fresh u) (w ++ [c])) w).flatMap
        (moves (insert (basic_trie.fresh u) (w ++ [c])) c)) [] ≠ [] := by
    apply harvest_ne_nil _ w.length _ [] _ (List.mem_flatMap.mpr ⟨q, hact, hmove⟩)
    · simp [fin_leaf, hleaf]
    · simp only; rw [hT]; simp
  have hconst := harvest_const (insert (basic_trie.fresh u) (w ++ [c])) w.length
    (emit.make 0 w.length (w ++ [c]) 0)
    ((active (insert (basic_trie.fresh u) (w ++ [c])) w).flatMap
        (moves (insert (basic_trie.fresh u) (w ++ [c])) c)) [] (by
      intro m _ _ k hk
      rw [hem m.1] at hk
      by_cases hmT : m.1 = T
      · simp only [hmT, if_true, List.mem_singleton] at hk
        subst hk
        simp only [emit_at, List.length_append, List.length_singleton, size_wrap_self]
      · simp [hmT] at hk) (Or.inl rfl)
  rcases hconst with h | h
  · exact absurd h hne
  · rw [h]; simp

end aho_corasick

namespace aho_corasick

/-! ## Matches of a single keyword with wildcards -/

theorem walk_append_inv (t : basic_trie) :
    ∀ (w v : List Char) (s r : Nat), walk t s (w ++ v) = some r →
      ∃ q, walk t s w = some q ∧ walk t q v = some r := by
  intro w
  induction w with
  | nil => intro v s r h; exact ⟨s, rfl, by simpa using h⟩
  | cons c cs ih =>
    intro v s r h
    simp only [List.cons_append, walk] at h ⊢
    cases hn : (t.heap s).next_state c with
    | none => simp [hn] at h
    | some r2 =>
      simp only [hn] at h ⊢
      exact ih v r2 r h

theorem walk_cons_inv (t : basic_trie) (c : Char) (v : List Char) (s r : Nat)
    (h : walk t s (c :: v) = some r) :
    ∃ q, (t.heap s).d_success c = some q ∧ walk t q v = some r := by
  simp only [walk] at h
  cases hn : (t.heap s).next_state c with
  | none => simp [hn] at h
  | some r2 =>
    simp only [hn] at h
    exact ⟨r2, hn, h⟩

theorem active_root (t : basic_trie) : 0 ∈ active_from t [0] [] := by
  simp [active_from]

theorem exists_snoc (l : List Char) (h : l ≠ []) : ∃ w c, l = w ++ [c] := by
  rcases List.eq_nil_or_concat l with h1 | ⟨w, c, h1⟩
  · exact absurd h1 h
  · exact ⟨w, c, by simpa using h1⟩

/-- In the trie of a single keyword, every emit of a result carries that keyword. -/
theorem single_result (u : Bool) (P : List Char) (hP : P ≠ []) (text : List Char)
    (res : List emit) (h : parse_text (insert (basic_trie.fresh u) P) text = some res) :
    ∀ e ∈ res, e.d_keyword = P ∧ e.d_index = 0 := by
  obtain ⟨lt, T, I, _, _, _, hem, _⟩ := single_spec u P hP
  intro e he
  obtain ⟨w, c, _, s, _, m, _, _, k, hk, hx⟩ := parse_text_mem _ I.shallow text res e h he
  rw [hem m.1] at hk
  by_cases hmT : m.1 = T
  · simp only [hmT, if_true, List.mem_singleton] at hk
    subst hk
    rw [hx]
    exact ⟨rfl, rfl⟩
  · simp [hmT] at hk

/-- In the trie of a single keyword, a text matches as soon as its last symbol moves some
active state to the state the keyword ends in. -/
theorem single_reach (u : Bool) (P : List Char) (hP : P ≠ []) (text w : List Char) (c : Char)
    (s T : Nat) (hT : walk (insert (basic_trie.fresh u) P) 0 P = some T)
    (htext : text = w ++ [c])
    (hs : s ∈ active (insert (basic_trie.fresh u) P) w)
    (hmv : get1 (insert (basic_trie.fresh u) P) s c = some T ∨
      (c ≠ '.' ∧ get1 (insert (basic_trie.fresh u) P) s '+' = some T) ∨
      get1 (insert (basic_trie.fresh u) P) s '#' = some T) :
    ∃ res, parse_text (insert (basic_trie.fresh u) P) text = some res ∧ res ≠ [] ∧
      ∃ e ∈ res, e.d_keyword = P := by
  subst htext
  obtain ⟨lt, T2, I, hw, _, hleaf, hem, hcfg⟩ := single_spec u P hP
  have hTT : T2 = T := by rw [hw] at hT; simpa using hT
  subst hTT
  have hemT : ((insert (basic_trie.fresh u) P).heap T2).d_emits ≠ [] := by
    rw [hem T2]; simp
  have hseen := seen_sensitive _ hcfg (w ++ [c])
  have hfin1 : fin_leaf (insert (basic_trie.fresh u) P) T2 = true := by simp [fin_leaf, hleaf]
  have hfin2 : fin_any (insert (basic_trie.fresh u) P) T2 = true := by simp [fin_any, hleaf]
  obtain ⟨res, hres, hne⟩ : ∃ res, parse_text (insert (basic_trie.fresh u) P) (w ++ [c]) =
      some res ∧ res ≠ [] := by
    rcases hmv with h | ⟨hc, h⟩ | h
    · exact parse_text_ne_nil _ I.shallow _ w c hseen s _ hs (moves_exact _ s T2 c h) hfin1 hemT
    · exact parse_text_ne_nil _ I.shallow _ w c hseen s _ hs
        (moves_plus _ s T2 c (fun hh => hc hh.2) h) hfin2 hemT
    · exact parse_text_ne_nil _ I.shallow _ w c hseen s _ hs (moves_hash _ s T2 c h) hfin2 hemT
  refine ⟨res, hres, hne, ?_⟩
  obtain ⟨e, he⟩ := List.exists_mem_of_ne_nil res hne
  exact ⟨e, he, (single_result u P hP _ res hres e he).1⟩

/-- A text `A.L.B`, with a level `L` that is not empty and holds no separator, walks a trie
along the path of the pattern `A.+.B` up to its last transition. -/
theorem path_plus (t : basic_trie) (lt : Nat → List Char) (ps : List (List Char))
    (I : Inv t lt ps) (A B L : List Char) (T : Nat)
    (hw : walk t 0 (A ++ '.' :: '+' :: '.' :: B) = some T) (hL : L ≠ []) (hdot : '.' ∉ L) :
    ∃ w c s, A ++ '.' :: (L ++ '.' :: B) = w ++ [c] ∧ s ∈ active t w ∧
      (t.heap s).d_success c = some T := by
  have e1 : A ++ '.' :: '+' :: '.' :: B = (A ++ ['.']) ++ ('+' :: '.' :: B) := by simp
  obtain ⟨D, hD, h2⟩ := walk_append_inv t (A ++ ['.']) ('+' :: '.' :: B) 0 T (e1 ▸ hw)
  obtain ⟨S, hS, h3⟩ := walk_cons_inv t '+' ('.' :: B) D T h2
  have hSv := I.next_value D '+' S hS
  have hSS : (t.heap S).d_success '+' = some S := by
    have := I.self_loop S (by rw [hSv]; decide)
    rwa [hSv] at this
  have hDact := active_walk t [0] (A ++ ['.']) [] 0 D (active_root t) hD
  obtain ⟨L0, c, rfl⟩ := exists_snoc L hL
  obtain ⟨s2, hs2, hs2S⟩ := plus_absorbs t [0] S (get1_of_next t S S '+' hSS) L0
    ([] ++ (A ++ ['.'])) D hDact (get1_of_next t D S '+' hS) (fun h => hdot (by simp [h]))
  have hc : c ≠ '.' := fun h => hdot (by simp [h])
  have hSact := active_move t [0] _ c s2 _ hs2 (moves_plus t s2 S c (fun hh => hc hh.2) hs2S)
  obtain ⟨v0, c2, hv⟩ := exists_snoc ('.' :: B) (by simp)
  rw [hv] at h3
  obtain ⟨q, hq, hqc⟩ := walk_snoc_inv t v0 c2 S T h3
  have hqact := active_walk t [0] v0 _ S q hSact hq
  refine ⟨[] ++ (A ++ ['.']) ++ L0 ++ [c] ++ v0, c2, q, ?_, hqact, hqc⟩
  simp only [List.nil_append, List.append_assoc, List.singleton_append, List.cons_append]
  rw [← hv]

/-- A text `X.S`, with `S` not empty, walks a trie along the path of the pattern `X.#` and
can take the `#` transition into its last state on the last symbol. -/
theorem path_hash_end (t : basic_trie) (lt : Nat → List Char) (ps : List (List Char))
    (I : Inv t lt ps) (X S : List Char) (T : Nat)
    (hw : walk t 0 (X ++ '.' :: '#' :: []) = some T) (hS : S ≠ []) :
    ∃ w c s, X ++ '.' :: S = w ++ [c] ∧ s ∈ active t w ∧ get1 t s '#' = some T := by
  have e1 : X ++ '.' :: '#' :: [] = (X ++ ['.']) ++ ['#'] := by simp
  obtain ⟨D, hD, hDT⟩ := walk_snoc_inv t (X ++ ['.']) '#' 0 T (e1 ▸ hw)
  have hTv := I.next_value D '#' T hDT
  have hTT : (t.heap T).d_success '#' = some T := by
    have := I.self_loop T (by rw [hTv]; decide)
    rwa [hTv] at this
  have hDact := active_walk t [0] (X ++ ['.']) [] 0 D (active_root t) hD
  obtain ⟨S0, c, rfl⟩ := exists_snoc S hS
  obtain ⟨s2, hs2, hs2T⟩ := hash_absorbs t [0] T (get1_of_next t T T '#' hTT) S0
    ([] ++ (X ++ ['.'])) D hDact (get1_of_next t D T '#' hDT)
  exact ⟨[] ++ (X ++ ['.']) ++ S0, c, s2, by simp, hs2, hs2T⟩

/-- A text `A.S.B`, with `S` not empty, walks a trie along the path of the pattern `A.#.B` up
to its last transition. -/
theorem path_hash_inner (t : basic_trie) (lt : Nat → List Char) (ps : List (List Char))
    (I : Inv t lt ps) (A B S : List Char) (T : Nat)
    (hw : walk t 0 (A ++ '.' :: '#' :: '.' :: B) = some T) (hS : S ≠ []) :
    ∃ w c s, A ++ '.' :: (S ++ '.' :: B) = w ++ [c] ∧ s ∈ active t w ∧
      (t.heap s).d_success c = some T := by
  have e1 : A ++ '.' :: '#' :: '.' :: B = (A ++ ['.']) ++ ('#' :: '.' :: B) := by simp
  obtain ⟨D, hD, h2⟩ := walk_append_inv t (A ++ ['.']) ('#' :: '.' :: B) 0 T (e1 ▸ hw)
  obtain ⟨H, hH, h3⟩ := walk_cons_inv t '#' ('.' :: B) D T h2
  have hHv := I.next_value D '#' H hH
  have hHH : (t.heap H).d_success '#' = some H := by
    have := I.self_loop H (by rw [hHv]; decide)
    rwa [hHv] at this
  have hDact := active_walk t [0] (A ++ ['.']) [] 0 D (active_root t) hD
  obtain ⟨S0, c, rfl⟩ := exists_snoc S hS
  obtain ⟨s2, hs2, hs2H⟩ := hash_absorbs t [0] H (get1_of_next t H H '#' hHH) S0
    ([] ++ (A ++ ['.'])) D hDact (get1_of_next t D H '#' hH)
  have hHact := active_move t [0] _ c s2 _ hs2 (moves_hash t s2 H c hs2H)
  obtain ⟨v0, c2, hv⟩ := exists_snoc ('.' :: B) (by simp)
  rw [hv] at h3
  obtain ⟨q, hq, hqc⟩ := walk_snoc_inv t v0 c2 H T h3
  have hqact := active_walk t [0] v0 _ H q hHact hq
  refine ⟨[] ++ (A ++ ['.']) ++ S0 ++ [c] ++ v0, c2, q, ?_, hqact, hqc⟩
  simp only [List.nil_append, List.append_assoc, List.singleton_append, List.cons_append]
  rw [← hv]

/-- C2. The pattern `A.+.B` alone in a case-sensitive trie matches `A.L.B` for every level `L`
that is not empty and holds no separator: the result is not empty and has an emit with the
pattern as keyword. Nothing is asked of `A` and `B`. -/
theorem C2_single_level_wildcard_matches (u : Bool) (A B L : List Char) (hL : L ≠ [])
    (hdot : '.' ∉ L) :
    ∃ res, parse_text (insert (basic_trie.fresh u) (A ++ '.' :: '+' :: '.' :: B))
        (A ++ '.' :: (L ++ '.' :: B)) = some res ∧ res ≠ [] ∧
      ∃ e ∈ res, e.d_keyword = A ++ '.' :: '+' :: '.' :: B := by
  have hP : A ++ '.' :: '+' :: '.' :: B ≠ [] := by simp
  obtain ⟨lt, T, I, hw, _, _, _, _⟩ := single_spec u _ hP
  obtain ⟨w, c, s, htext, hs, hmv⟩ := path_plus _ lt _ I A B L T hw hL hdot
  exact single_reach u _ hP _ w c s T hw htext hs (Or.inl (get1_of_next _ s T c hmv))

/-- C4. The pattern `X.#` alone in a case-sensitive trie matches `X.S` for every `S` that is
not empty, separators in `S` or not: the result has an emit with the pattern as keyword.
Nothing is asked of `X`. -/
theorem C4_trailing_multi_level_wildcard_matches (u : Bool) (X S : List Char) (hS : S ≠ []) :
    ∃ res, parse_text (insert (basic_trie.fresh u) (X ++ '.' :: '#' :: []))
        (X ++ '.' :: S) = some res ∧ res ≠ [] ∧
      ∃ e ∈ res, e.d_keyword = X ++ '.' :: '#' :: [] := by
  have hP : X ++ '.' :: '#' :: [] ≠ [] := by simp
  obtain ⟨lt, T, I, hw, _, _, _, _⟩ := single_spec u _ hP
  obtain ⟨w, c, s, htext, hs, hmv⟩ := path_hash_end _ lt _ I X S T hw hS
  exact single_reach u _ hP _ w c s T hw htext hs (Or.inr (Or.inr hmv))

end aho_corasick

namespace aho_corasick

/-! ## What an active state says about the text read so far -/

theorem tail_of_failure (t : basic_trie) (lt : Nat → List Char) (ps : List (List Char))
    (I : Inv t lt ps) (s f : Nat) (h : (t.heap s).d_failure = some f) : lt f = [] := by
  have hv := (I.fail_value s f h).2
  have hl := I.self_loop f (by rw [hv]; decide)
  rw [hv] at hl
  have := I.next_tail f '#' f hl
  rw [this]
  simp [tail_step, is_wild]

theorem tail_get1 (t : basic_trie) (lt : Nat → List Char) (ps : List (List Char))
    (I : Inv t lt ps) (s r : Nat) (x : Char) (h : get1 t s x = some r) :
    lt r = tail_step (lt s) x ∨ lt r = tail_step [] x := by
  rcases get1_cases t s r x h with h1 | ⟨f, hf, h1⟩
  · exact Or.inl (I.next_tail s x r h1)
  · right
    rw [I.next_tail f x r h1, tail_of_failure t lt ps I s f hf]

theorem tail_step_suffix (a w : List Char) (c : Char) (h : a <:+ w) :
    tail_step a c <:+ w ++ [c] := by
  unfold tail_step
  split_ifs
  · exact List.nil_suffix
  · obtain ⟨p, hp⟩ := h
    exact ⟨p, by rw [← hp]; simp⟩

theorem tail_step_wild (a : List Char) (c : Char) (h : is_wild c = true) : tail_step a c = [] := by
  simp [tail_step, h]

theorem tail_move (t : basic_trie) (lt : Nat → List Char) (ps : List (List Char))
    (I : Inv t lt ps) (s : Nat) (c : Char) (w : List Char) (m : Nat × Bool)
    (hs : lt s <:+ w) (hm : m ∈ moves t c s) : lt m.1 <:+ w ++ [c] := by
  rcases mem_moves t s c m hm with h | h | h
  · rcases tail_get1 t lt ps I s m.1 c h with h1 | h1
    · rw [h1]; exact tail_step_suffix _ _ _ hs
    · rw [h1]; exact tail_step_suffix _ _ _ (List.nil_suffix)
  · rcases tail_get1 t lt ps I s m.1 '+' h with h1 | h1 <;>
      (rw [h1, tail_step_wild _ _ (by decide)]; exact List.nil_suffix)
  · rcases tail_get1 t lt ps I s m.1 '#' h with h1 | h1 <;>
      (rw [h1, tail_step_wild _ _ (by decide)]; exact List.nil_suffix)

/-- Every active state has its wildcard-free tail at the end of the text read so far. -/
theorem active_tail (t : basic_trie) (lt : Nat → List Char) (ps : List (List Char))
    (I : Inv t lt ps) :
    ∀ (w w0 : List Char) (prev : List Nat), (∀ s ∈ prev, lt s <:+ w0) →
      ∀ r ∈ active_from t prev w, lt r <:+ w0 ++ w := by
  intro w
  induction w with
  | nil => intro w0 prev h r hr; simpa [active_from] using h r (by simpa [active_from] using hr)
  | cons c cs ih =>
    intro w0 prev h r hr
    have e : active_from t prev (c :: cs) = active_from t (step t c prev) cs := rfl
    rw [e] at hr
    have := ih (w0 ++ [c]) (step t c prev) (by
      intro s2 hs2
      obtain ⟨s, hs, m, hm, hms⟩ := (mem_step t c prev s2).mp hs2
      rw [← hms]
      exact tail_move t lt ps I s c w0 m (h s hs) hm) r hr
    simpa using this

theorem depth_get1 (t : basic_trie) (lt : Nat → List Char) (ps : List (List Char))
    (I : Inv t lt ps) (s r : Nat) (x : Char) (h : get1 t s x = some r) :
    (t.heap r).d_depth ≤ (t.heap s).d_depth + 1 := by
  rcases get1_cases t s r x h with h1 | ⟨f, hf, h1⟩
  · rcases I.next_depth s x r h1 with h2 | h2
    · rw [h2]; omega
    · omega
  · have := I.fail_depth s f hf
    rcases I.next_depth f x r h1 with h2 | h2
    · rw [h2]; omega
    · omega

/-- Every active state is at most as deep as the text read so far is long. -/
theorem active_depth (t : basic_trie) (lt : Nat → List Char) (ps : List (List Char))
    (I : Inv t lt ps) :
    ∀ (w : List Char) (n0 : Nat) (prev : List Nat), (∀ s ∈ prev, (t.heap s).d_depth ≤ n0) →
      ∀ r ∈ active_from t prev w, (t.heap r).d_depth ≤ n0 + w.length := by
  intro w
  induction w with
  | nil => intro n0 prev h r hr; simpa [active_from] using h r (by simpa [active_from] using hr)
  | cons c cs ih =>
    intro n0 prev h r hr
    have e : active_from t prev (c :: cs) = active_from t (step t c prev) cs := rfl
    rw [e] at hr
    have := ih (n0 + 1) (step t c prev) (by
      intro s2 hs2
      obtain ⟨s, hs, m, hm, hms⟩ := (mem_step t c prev s2).mp hs2
      rw [← hms]
      have hd := h s hs
      rcases mem_moves t s c m hm with h1 | h1 | h1
      · exact le_trans (depth_get1 t lt ps I s m.1 _ h1) (by omega)
      · exact le_trans (depth_get1 t lt ps I s m.1 _ h1) (by omega)
      · exact le_trans (depth_get1 t lt ps I s m.1 _ h1) (by omega)) r hr
    simp only [List.length_cons]
    omega

theorem foldl_tail_lit (v : List Char) (hv : ∀ c ∈ v, is_wild c = false) :
    ∀ a : List Char, v.foldl tail_step a = a ++ v := by
  induction v with
  | nil => intro a; simp
  | cons c cs ih =>
    intro a
    have hc : is_wild c = false := hv c (by simp)
    rw [List.foldl_cons, ih (fun c2 h2 => hv c2 (by simp [h2]))]
    simp [tail_step, hc]

theorem foldl_shape_lit (v : List Char) (hv : ∀ c ∈ v, is_wild c = false) :
    ∀ p : Char × Nat, (v.foldl shape_step p).2 = p.2 + v.length := by
  induction v with
  | nil => intro p; simp
  | cons c cs ih =>
    intro p
    have hc : is_wild c = false := hv c (by simp)
    rw [List.foldl_cons, ih (fun c2 h2 => hv c2 (by simp [h2]))]
    simp only [shape_step, hc, Bool.false_and, List.length_cons]
    simp
    omega

theorem not_wild_of_not_mem (v : List Char) (h1 : '+' ∉ v) (h2 : '#' ∉ v) :
    ∀ c ∈ v, is_wild c = false := by
  intro c hc
  by_contra h
  have : is_wild c = true := by simpa using h
  rcases (is_wild_iff c).mp this with h3 | h3
  · exact h1 (h3 ▸ hc)
  · exact h2 (h3 ▸ hc)

theorem lit_tail_hash_inner (A B : List Char) (hB : ∀ c ∈ B, is_wild c = false) :
    lit_tail (A ++ '.' :: '#' :: '.' :: B) = '.' :: B := by
  simp only [lit_tail, List.foldl_append, List.foldl_cons]
  rw [foldl_tail_lit B hB]
  simp [tail_step, is_wild]

theorem walk_shape_hash_inner (A B : List Char) (hA : ∀ c ∈ A, is_wild c = false)
    (hB : ∀ c ∈ B, is_wild c = false) :
    (walk_shape (A ++ '.' :: '#' :: '.' :: B)).2 = A.length + 3 + B.length := by
  simp only [walk_shape, List.foldl_append, List.foldl_cons]
  rw [foldl_shape_lit B hB]
  simp only [shape_step]
  rw [foldl_shape_lit A hA]
  simp [is_wild]

end aho_corasick

namespace aho_corasick

/-- In the trie of a single keyword, the state behind an emit of a result is active at the end
of the text and carries the keyword. -/
theorem single_emit_state (u : Bool) (P : List Char) (hP : P ≠ [])
    (lt : Nat → List Char) (I : Inv (insert (basic_trie.fresh u) P) lt [P])
    (text : List Char) (res : List emit) (e : emit)
    (h : parse_text (insert (basic_trie.fresh u) P) text = some res) (he : e ∈ res) :
    ∃ r ∈ active (insert (basic_trie.fresh u) P) text,
      lt r = lit_tail P ∧ ((insert (basic_trie.fresh u) P).heap r).d_depth = (walk_shape P).2 := by
  obtain ⟨_, _, _, _, _, _, _, hcfg⟩ := single_spec u P hP
  obtain ⟨w, c, hseen, s, hs, m, hm, _, k, hk, _⟩ := parse_text_mem _ I.shallow text res e h he
  rw [seen_sensitive _ hcfg] at hseen
  have hok := I.emits_ok m.1 k hk
  have hkP : k.1 = P := by simpa using hok.1
  refine ⟨m.1, ?_, ?_, ?_⟩
  · rw [hseen]
    exact active_move _ [0] w c s m hs hm
  · rw [hok.2.2.1, hkP]
  · have := congrArg Prod.snd hok.2.2.2.1
    rw [hkP] at this
    exact this

/-- C5. The pattern `A.#.B`, with no wildcard symbol in `B`, alone in a case-sensitive trie:
every text `A.S.B` with `S` not empty matches, and no text matches that does not end with
`.B`. Nothing is asked of `A`. -/
theorem C5_inner_multi_level_wildcard (u : Bool) (A B : List Char) (hB1 : '+' ∉ B)
    (hB2 : '#' ∉ B) :
    (∀ S : List Char, S ≠ [] →
      ∃ res, parse_text (insert (basic_trie.fresh u) (A ++ '.' :: '#' :: '.' :: B))
        (A ++ '.' :: (S ++ '.' :: B)) = some res ∧ res ≠ []) ∧
    (∀ text : List Char, ¬ ('.' :: B) <:+ text →
      parse_text (insert (basic_trie.fresh u) (A ++ '.' :: '#' :: '.' :: B)) text = some []) := by
  have hP : A ++ '.' :: '#' :: '.' :: B ≠ [] := by simp
  obtain ⟨lt, T, I, hw, _, _, _, _⟩ := single_spec u _ hP
  constructor
  · intro S hS
    obtain ⟨w, c, s, htext, hs, hmv⟩ := path_hash_inner _ lt _ I A B S T hw hS
    obtain ⟨res, h1, h2, _⟩ :=
      single_reach u _ hP _ w c s T hw htext hs (Or.inl (get1_of_next _ s T c hmv))
    exact ⟨res, h1, h2⟩
  · intro text hsuf
    obtain ⟨res, hres⟩ := parse_text_total _ I.shallow text
    rw [hres]
    cases res with
    | nil => rfl
    | cons e rest =>
      exfalso
      obtain ⟨r, hr, hlt, _⟩ := single_emit_state u _ hP lt I text _ e hres (by simp)
      have := active_tail _ lt _ I text [] [0] (by
        intro s hs
        simp only [List.mem_singleton] at hs
        rw [hs, I.root_tail]) r hr
      rw [hlt, lit_tail_hash_inner A B (not_wild_of_not_mem B hB1 hB2)] at this
      exact hsuf (by simpa using this)

/-- C6, as the code has it. The pattern `A.#.B`, with no wildcard symbol in `A` and `B`, alone
in a case-sensitive trie does not match `A.B`: the wildcard never stands for no level at
all. -/
theorem C6_multi_level_wildcard_needs_a_level (u : Bool) (A B : List Char)
    (hA1 : '+' ∉ A) (hA2 : '#' ∉ A) (hB1 : '+' ∉ B) (hB2 : '#' ∉ B) :
    parse_text (insert (basic_trie.fresh u) (A ++ '.' :: '#' :: '.' :: B)) (A ++ '.' :: B) =
      some [] := by
  have hP : A ++ '.' :: '#' :: '.' :: B ≠ [] := by simp
  obtain ⟨lt, T, I, hw, _, _, _, _⟩ := single_spec u _ hP
  obtain ⟨res, hres⟩ := parse_text_total _ I.shallow (A ++ '.' :: B)
  rw [hres]
  cases res with
  | nil => rfl
  | cons e rest =>
    exfalso
    obtain ⟨r, hr, _, hdep⟩ := single_emit_state u _ hP lt I _ _ e hres (by simp)
    have := active_depth _ lt _ I (A ++ '.' :: B) 0 [0] (by
      intro s hs
      simp only [List.mem_singleton] at hs
      rw [hs, I.root_depth]) r hr
    rw [hdep, walk_shape_hash_inner A B (not_wild_of_not_mem A hA1 hA2)
      (not_wild_of_not_mem B hB1 hB2)] at this
    simp only [List.length_append, List.length_cons] at this
    omega

end aho_corasick

namespace aho_corasick

/-- C1 at the keyword `hi.mom`. -/
theorem C1_witness :
    "hi.mom".toList ≠ [] ∧
    parse_text (insert (basic_trie.fresh false) "hi.mom".toList) "hi.mom".toList =
      some [emit.make 0 ("hi.mom".toList.length - 1) "hi.mom".toList 0] :=
  ⟨by decide, C1_single_keyword_matches_itself false "hi.mom".toList (by decide)⟩

/-- C2 at the pattern `hi.+.how.are.you` and the text `hi.alex.how.are.you`. -/
theorem C2_witness :
    "alex".toList ≠ [] ∧ '.' ∉ "alex".toList ∧
    ∃ res, parse_text
        (insert (basic_trie.fresh false) ("hi".toList ++ '.' :: '+' :: '.' :: "how.are.you".toList))
        ("hi".toList ++ '.' :: ("alex".toList ++ '.' :: "how.are.you".toList)) = some res ∧
      res ≠ [] ∧
      ∃ e ∈ res, e.d_keyword = "hi".toList ++ '.' :: '+' :: '.' :: "how.are.you".toList :=
  ⟨by decide, by decide,
    C2_single_level_wildcard_matches false "hi".toList "how.are.you".toList "alex".toList
      (by decide) (by decide)⟩

/-- C3. The pattern `hi.+.how.are.you` alone in a case-sensitive trie matches the text
`hi...how.are.you`, where a separator stands in the place of the wildcard: the first symbol
after `hi.` enters the `+` state whatever it is. The text `hi.james.bond.how.are.you` is not
matched. -/
theorem C3_separator_taken_as_level :
    parse_text (insert (basic_trie.fresh false) "hi.+.how.are.you".toList)
        "hi...how.are.you".toList = some [emit.make 0 15 "hi.+.how.are.you".toList 0] ∧
    parse_text (insert (basic_trie.fresh true) "hi.+.how.are.you".toList)
        "hi...how.are.you".toList = some [emit.make 0 15 "hi.+.how.are.you".toList 0] ∧
    parse_text (insert (basic_trie.fresh false) "hi.+.how.are.you".toList)
        "hi.james.bond.how.are.you".toList = some [] ∧
    parse_text (insert (basic_trie.fresh true) "hi.+.how.are.you".toList)
        "hi.james.bond.how.are.you".toList = some [] := by
  refine ⟨?_, ?_, ?_, ?_⟩ <;> decide

end aho_corasick

namespace aho_corasick

/-- C4 at the pattern `im.#` and the text `im.patrick.bond`. -/
theorem C4_witness :
    "patrick.bond".toList ≠ [] ∧
    ∃ res, parse_text (insert (basic_trie.fresh false) ("im".toList ++ '.' :: '#' :: []))
        ("im".toList ++ '.' :: "patrick.bond".toList) = some res ∧ res ≠ [] ∧
      ∃ e ∈ res, e.d_keyword = "im".toList ++ '.' :: '#' :: [] :=
  ⟨by decide,
    C4_trailing_multi_level_wildcard_matches false "im".toList "patrick.bond".toList (by decide)⟩

/-- C5 at the pattern `im.#.bond`. -/
theorem C5_witness :
    '+' ∉ "bond".toList ∧ '#' ∉ "bond".toList ∧
    (∀ S : List Char, S ≠ [] →
      ∃ res, parse_text
        (insert (basic_trie.fresh false) ("im".toList ++ '.' :: '#' :: '.' :: "bond".toList))
        ("im".toList ++ '.' :: (S ++ '.' :: "bond".toList)) = some res ∧ res ≠ []) ∧
    (∀ text : List Char, ¬ ('.' :: "bond".toList) <:+ text →
      parse_text
        (insert (basic_trie.fresh false) ("im".toList ++ '.' :: '#' :: '.' :: "bond".toList))
        text = some []) :=
  ⟨by decide, by decide,
    C5_inner_multi_level_wildcard false "im".toList "bond".toList (by decide) (by decide)⟩

/-- C6 at the pattern `im.#.bond` and the text `im.bond`. -/
theorem C6_witness :
    '+' ∉ "im".toList ∧ '#' ∉ "im".toList ∧ '+' ∉ "bond".toList ∧ '#' ∉ "bond".toList ∧
    parse_text
      (insert (basic_trie.fresh false) ("im".toList ++ '.' :: '#' :: '.' :: "bond".toList))
      ("im".toList ++ '.' :: "bond".toList) = some [] :=
  ⟨by decide, by decide, by decide, by decide,
    C6_multi_level_wildcard_needs_a_level false "im".toList "bond".toList
      (by decide) (by decide) (by decide) (by decide)⟩

/-- The pattern `im.#.bond` alone in a case-sensitive trie gives no emit on the text
`im.bond`, whatever the state constructor leaves in the end mark. -/
theorem C6_counterexample :
    parse_text (insert (basic_trie.fresh false) "im.#.bond".toList) "im.bond".toList = some [] ∧
    parse_text (insert (basic_trie.fresh true) "im.#.bond".toList) "im.bond".toList = some [] := by
  constructor <;> decide

/-- C7. What the code does where all matches should be reported. The result map compares
its keys by start index only, so emits with the same start are one key. After inserting `hi`
twice, the text `hi` gives the single emit with index `0`. After inserting `im.+.bond` and
`im.#.bond`, which are equally long, the text `im.james.bond` gives the emit of the first
pattern only, although the states of both are harvested. -/
theorem C7_same_start_emits_collapse :
    ((insert_all (basic_trie.fresh false) ["hi".toList, "hi".toList]).heap 2).d_emits =
      [("hi".toList, 0), ("hi".toList, 1)] ∧
    parse_text (insert_all (basic_trie.fresh false) ["hi".toList, "hi".toList]) "hi".toList =
      some [emit.make 0 1 "hi".toList 0] ∧
    parse_text (insert_all (basic_trie.fresh true) ["hi".toList, "hi".toList]) "hi".toList =
      some [emit.make 0 1 "hi".toList 0] ∧
    parse_text (insert_all (basic_trie.fresh false) ["im.+.bond".toList, "im.#.bond".toList])
      "im.james.bond".toList = some [emit.make 4 12 "im.+.bond".toList 0] ∧
    parse_text (insert_all (basic_trie.fresh true) ["im.+.bond".toList, "im.#.bond".toList])
      "im.james.bond".toList = some [emit.make 4 12 "im.+.bond".toList 0] := by
  refine ⟨?_, ?_, ?_, ?_, ?_⟩ <;> decide

/-- C8. What the code does where a pattern end should be harvested. The exact transition
tests `!has_success()` alone, without the end mark that the wildcard transitions also accept.
After inserting `hi` and `hi.mom`, the state of `hi` has a child, and the text `hi` gives no
emit. -/
theorem C8_pattern_end_with_child_not_harvested :
    parse_text (insert_all (basic_trie.fresh false) ["hi".toList, "hi.mom".toList]) "hi".toList =
      some [] ∧
    parse_text (insert_all (basic_trie.fresh true) ["hi".toList, "hi.mom".toList]) "hi".toList =
      some [] ∧
    ((insert_all (basic_trie.fresh false) ["hi".toList, "hi.mom".toList]).heap 2).d_emits =
      [("hi".toList, 0)] ∧
    ((insert_all (basic_trie.fresh false) ["hi".toList, "hi.mom".toList]).heap 2).d_ending_pattern =
      true ∧
    active (insert_all (basic_trie.fresh false) ["hi".toList, "hi.mom".toList]) "hi".toList = [2] := by
  refine ⟨?_, ?_, ?_, ?_, ?_⟩ <;> decide

/-- C10. What the code does under the case-insensitive option. `parse_text` lowers the
symbols of the text, and `insert` stores the keyword as it is. After `insert` of `Hi.Mom` the
texts `hi.mom` and `HI.MOM` give no emit. -/
theorem C10_keyword_not_lowercased :
    parse_text (insert (basic_trie.fresh false).case_insensitive "Hi.Mom".toList)
      "hi.mom".toList = some [] ∧
    parse_text (insert (basic_trie.fresh false).case_insensitive "Hi.Mom".toList)
      "HI.MOM".toList = some [] ∧
    parse_text (insert (basic_trie.fresh true).case_insensitive "Hi.Mom".toList)
      "hi.mom".toList = some [] ∧
    parse_text (insert (basic_trie.fresh true).case_insensitive "Hi.Mom".toList)
      "HI.MOM".toList = some [] := by
  refine ⟨?_, ?_, ?_, ?_⟩ <;> decide

end aho_corasick

namespace aho_corasick

/-! ## Tries built by any sequence of inserts -/

theorem insert_nil (t : basic_trie) : insert t [] = t := by
  simp [insert]

theorem insert_all_inv :
    ∀ (ps : List (List Char)) (t : basic_trie) (lt : Nat → List Char) (qs : List (List Char)),
      Inv t lt qs → (∀ p ∈ qs, p ≠ []) →
      ∃ lt2 qs2, Inv (insert_all t ps) lt2 qs2 ∧ (∀ p ∈ qs2, p ≠ []) ∧
        (insert_all t ps).d_config = t.d_config := by
  intro ps
  induction ps with
  | nil => intro t lt qs I h; exact ⟨lt, qs, I, h, rfl⟩
  | cons p rest ih =>
    intro t lt qs I h
    have e : insert_all t (p :: rest) = insert_all (insert t p) rest := rfl
    rw [e]
    by_cases hp : p = []
    · subst hp
      rw [insert_nil]
      exact ih t lt qs I h
    · obtain ⟨lt1, I1, _, _, hcfg⟩ := insert_inv t qs lt I p hp
      obtain ⟨lt2, qs2, I2, h2, hcfg2⟩ := ih (insert t p) lt1 (qs ++ [p]) I1 (by
        intro x hx
        rcases List.mem_append.mp hx with h3 | h3
        · exact h x h3
        · simp only [List.mem_singleton] at h3; rw [h3]; exact hp)
      exact ⟨lt2, qs2, I2, h2, hcfg2.trans hcfg⟩

theorem built_inv (u : Bool) (c : config) (ps : List (List Char)) :
    ∃ lt qs, Inv (insert_all (basic_trie.make u c) ps) lt qs ∧ (∀ p ∈ qs, p ≠ []) := by
  obtain ⟨lt, qs, I, h, _⟩ := insert_all_inv ps _ _ [] (inv_make u c) (by simp)
  exact ⟨lt, qs, I, h⟩

theorem size_span (p n : Nat) (h1 : p + 1 < SIZE_MOD) (h2 : n ≤ p + 1) :
    size_add (size_sub p n) 1 = p + 1 - n := by
  simp only [size_add, size_sub, SIZE_MOD] at *
  norm_num at *
  omega

theorem seen_length (t : basic_trie) (text : List Char) : (seen t text).length = text.length := by
  simp [seen]

/-- C9, as the code has it. For every trie built by a sequence of inserts and every text
(of a length a `size_t` can hold), `parse_text` returns, and each emit of the result ends at
the last position of the text; when its keyword is no longer than the text, it starts
`len(keyword)` places before the end of the text, so that `start <= end`. -/
theorem C9_emit_span (u : Bool) (c : config) (ps : List (List Char)) (text : List Char)
    (hlen : text.length < SIZE_MOD) :
    ∃ res, parse_text (insert_all (basic_trie.make u c) ps) text = some res ∧
      ∀ e ∈ res, e.d_end = text.length - 1 ∧
        (e.d_keyword.length ≤ text.length →
          e.d_start = text.length - e.d_keyword.length ∧ e.d_start ≤ e.d_end) := by
  obtain ⟨lt, qs, I, hne⟩ := built_inv u c ps
  obtain ⟨res, hres⟩ := parse_text_total _ I.shallow text
  refine ⟨res, hres, ?_⟩
  intro e he
  obtain ⟨w, ch, hseen, s, _, m, _, _, k, hk, hx⟩ := parse_text_mem _ I.shallow text res e hres he
  have hl : text.length = w.length + 1 := by
    rw [← seen_length (insert_all (basic_trie.make u c) ps) text, hseen]
    simp
  have hk1 : k.1 ≠ [] := hne k.1 (I.emits_ok m.1 k hk).1
  have hk2 : 1 ≤ k.1.length := by
    cases hk3 : k.1 with
    | nil => exact absurd hk3 hk1
    | cons a as => simp
  rw [hx]
  simp only [emit_at, emit.make]
  refine ⟨by omega, ?_⟩
  intro hle
  rw [size_span w.length k.1.length (by omega) (by omega)]
  omega

/-- C9 at the pattern `im.#` and the text `im.patrick`. -/
theorem C9_witness :
    "im.patrick".toList.length < SIZE_MOD ∧
    ∃ res, parse_text
        (insert_all (basic_trie.make false { d_case_insensitive := false }) ["im.#".toList])
        "im.patrick".toList = some res ∧
      ∀ e ∈ res, e.d_end = "im.patrick".toList.length - 1 ∧
        (e.d_keyword.length ≤ "im.patrick".toList.length →
          e.d_start = "im.patrick".toList.length - e.d_keyword.length ∧ e.d_start ≤ e.d_end) :=
  ⟨by decide, C9_emit_span false { d_case_insensitive := false } ["im.#".toList]
    "im.patrick".toList (by decide)⟩

/-- The pattern `++` ends in a state of depth one, since its second symbol follows the
self-loop of the first. On the text `a` its emit has a keyword longer than the text and a
start, computed as `0 - 2 + 1` in `size_t`, that lies behind its end. -/
theorem C9_counterexample :
    parse_text (insert (basic_trie.fresh false) "++".toList) "a".toList =
      some [emit.make 18446744073709551615 0 "++".toList 0] ∧
    parse_text (insert (basic_trie.fresh true) "++".toList) "a".toList =
      some [emit.make 18446744073709551615 0 "++".toList 0] ∧
    "a".toList.length < "++".toList.length ∧
    (emit.make 18446744073709551615 0 "++".toList 0).d_end <
      (emit.make 18446744073709551615 0 "++".toList 0).d_start := by
  refine ⟨?_, ?_, ?_, ?_⟩ <;> decide

end aho_corasick

namespace aho_corasick

/-! ## Literal patterns, degenerate inputs and the empty keyword -/

theorem insert_all_inv_of (Q : List Char → Prop) :
    ∀ (ps : List (List Char)) (t : basic_trie) (lt : Nat → List Char) (qs : List (List Char)),
      Inv t lt qs → (∀ p ∈ qs, Q p) → (∀ p ∈ ps, p ≠ [] → Q p) →
      ∃ lt2 qs2, Inv (insert_all t ps) lt2 qs2 ∧ (∀ p ∈ qs2, Q p) ∧
        (insert_all t ps).d_config = t.d_config := by
  intro ps
  induction ps with
  | nil => intro t lt qs I h _; exact ⟨lt, qs, I, h, rfl⟩
  | cons p rest ih =>
    intro t lt qs I h hps
    have e : insert_all t (p :: rest) = insert_all (insert t p) rest := rfl
    rw [e]
    by_cases hp : p = []
    · subst hp
      rw [insert_nil]
      exact ih t lt qs I h (fun x hx => hps x (by simp [hx]))
    · obtain ⟨lt1, I1, _, _, hcfg⟩ := insert_inv t qs lt I p hp
      obtain ⟨lt2, qs2, I2, h2, hcfg2⟩ := ih (insert t p) lt1 (qs ++ [p]) I1 (by
        intro x hx
        rcases List.mem_append.mp hx with h3 | h3
        · exact h x h3
        · simp only [List.mem_singleton] at h3; rw [h3]; exact hps p (by simp) hp)
        (fun x hx => hps x (by simp [hx]))
      exact ⟨lt2, qs2, I2, h2, hcfg2.trans hcfg⟩

theorem lit_tail_literal (p : List Char) (h1 : '+' ∉ p) (h2 : '#' ∉ p) : lit_tail p = p := by
  unfold lit_tail
  rw [foldl_tail_lit p (not_wild_of_not_mem p h1 h2)]
  simp

/-- C11. Patterns without `+` and `#` in a case-sensitive trie: a text that contains none of
the inserted patterns as a substring gives no emit. Empty patterns, which `insert` ignores,
are not counted as inserted. -/
theorem C11_no_false_match_for_literal_patterns (u : Bool) (ps : List (List Char))
    (T : List Char) (hlit : ∀ p ∈ ps, '+' ∉ p ∧ '#' ∉ p)
    (hsub : ∀ p ∈ ps, p ≠ [] → ¬ p <:+: T) :
    parse_text (insert_all (basic_trie.fresh u) ps) T = some [] := by
  obtain ⟨lt, qs, I, hq, hcfg⟩ := insert_all_inv_of (fun p => p ∈ ps ∧ p ≠ []) ps
    (basic_trie.fresh u) _ [] (inv_make u { d_case_insensitive := false }) (by simp)
    (fun p hp hne => ⟨hp, hne⟩)
  obtain ⟨res, hres⟩ := parse_text_total _ I.shallow T
  rw [hres]
  cases res with
  | nil => rfl
  | cons e rest =>
    exfalso
    obtain ⟨w, c, hseen, s, hs, m, hm, _, k, hk, _⟩ :=
      parse_text_mem _ I.shallow T _ e hres (by simp)
    rw [seen_sensitive _ (by rw [hcfg]; rfl)] at hseen
    have hok := I.emits_ok m.1 k hk
    obtain ⟨hkps, hkne⟩ := hq k.1 hok.1
    have hact : m.1 ∈ active (insert_all (basic_trie.fresh u) ps) (w ++ [c]) :=
      active_move _ [0] w c s m hs hm
    have := active_tail _ lt _ I (w ++ [c]) [] [0] (by
      intro s2 hs2
      simp only [List.mem_singleton] at hs2
      rw [hs2, I.root_tail]) m.1 hact
    rw [hok.2.2.1, lit_tail_literal k.1 (hlit k.1 hkps).1 (hlit k.1 hkps).2, ← hseen] at this
    exact hsub k.1 hkps hkne (by simpa using this.isInfix)

/-- C11 at the patterns `hi.mom` and `hi.there` and the text `hi.dad`. -/
theorem C11_witness :
    (∀ p ∈ ["hi.mom".toList, "hi.there".toList], '+' ∉ p ∧ '#' ∉ p) ∧
    (∀ p ∈ ["hi.mom".toList, "hi.there".toList], p ≠ [] → ¬ p <:+: "hi.dad".toList) ∧
    parse_text (insert_all (basic_trie.fresh false) ["hi.mom".toList, "hi.there".toList])
      "hi.dad".toList = some [] :=
  ⟨by decide, by decide,
    C11_no_false_match_for_literal_patterns false ["hi.mom".toList, "hi.there".toList]
      "hi.dad".toList (by decide) (by decide)⟩

theorem insert_all_empty (t : basic_trie) :
    ∀ ps : List (List Char), (∀ p ∈ ps, p = []) → insert_all t ps = t := by
  intro ps
  induction ps with
  | nil => intro _; rfl
  | cons p rest ih =>
    intro h
    have e : insert_all t (p :: rest) = insert_all (insert t p) rest := rfl
    rw [e, h p (by simp), insert_nil]
    exact ih (fun x hx => h x (by simp [hx]))

/-- C12. The empty text gives no emit on any trie, and a trie into which only empty patterns
were inserted, if any, gives no emit on any text. -/
theorem C12_degenerate_inputs_give_no_match (t : basic_trie) (u : Bool) (c : config)
    (ps : List (List Char)) (T : List Char) (hps : ∀ p ∈ ps, p = []) :
    parse_text t [] = some [] ∧
    parse_text (insert_all (basic_trie.make u c) ps) T = some [] := by
  refine ⟨rfl, ?_⟩
  rw [insert_all_empty _ ps hps]
  have I := inv_make u c
  obtain ⟨res, hres⟩ := parse_text_total _ I.shallow T
  rw [hres]
  cases res with
  | nil => rfl
  | cons e rest =>
    exfalso
    obtain ⟨_, _, _, _, _, m, _, _, k, hk, _⟩ :=
      parse_text_mem _ I.shallow T _ e hres (by simp)
    exact absurd (I.emits_ok m.1 k hk).1 (by simp)

/-- C12 at the trie of `hi.mom` for the empty text, and at a trie that only saw the empty
pattern for the text `hi.mom`. -/
theorem C12_witness :
    (∀ p ∈ [([] : List Char)], p = []) ∧
    parse_text (insert (basic_trie.fresh false) "hi.mom".toList) [] = some [] ∧
    parse_text (insert_all (basic_trie.make false { d_case_insensitive := false }) [[]])
      "hi.mom".toList = some [] :=
  ⟨by decide,
    C12_degenerate_inputs_give_no_match (insert (basic_trie.fresh false) "hi.mom".toList) false
      { d_case_insensitive := false } [[]] "hi.mom".toList (by decide)⟩

/-- C13. `insert` of the empty keyword returns the trie it was given: the state store, with
transitions, failure links, end marks and emits, and the next pattern index are the same, so
every later `insert` and every `parse_text` gives what it would have given without the call. -/
theorem C13_insert_empty_is_no_op (t : basic_trie) :
    insert t [] = t ∧
    (insert t []).heap = t.heap ∧
    (insert t []).d_num_keywords = t.d_num_keywords ∧
    (∀ P : List Char, insert (insert t []) P = insert t P) ∧
    (∀ T : List Char, parse_text (insert t []) T = parse_text t T) := by
  have h : insert t [] = t := insert_nil t
  refine ⟨h, ?_, ?_, ?_, ?_⟩
  · rw [h]
  · rw [h]
  · intro P; rw [h]
  · intro T; rw [h]

end aho_corasick

namespace aho_corasick

/-! ## The wiring of the failure links -/

theorem wire_make (u : Bool) (c : config) : Wire (basic_trie.make u c) (fun _ => none) :=
  { nh_root := rfl
    nh_next := by intro s c r h; simp [basic_trie.make, state.make] at h
    fail_eq := by
      intro s
      have : (Char.ofNat 0) ≠ '.' := by decide
      simp [basic_trie.make, state.make, this]
    reach := by
      intro s hs
      have : s = 0 := by simp only [basic_trie.make] at hs; omega
      subst this
      exact ⟨[], rfl⟩ }

theorem wire_step_old (t0 t : basic_trie) (ps : List (List Char)) (cur : Nat) (ch : Char)
    (lmw : Option Nat) (q : List Char) (lt : Nat → List Char) (nh : Nat → Option Nat) (r : Nat)
    (hI : LoopInv t0 ps { trie := t, cur_state := cur, last_multi_wildcard := lmw } q lt)
    (hW : Wire t nh) (hl : lmw = nh cur)
    (h : (t.heap cur).d_success ch = some r) :
    Wire (insert_step { trie := t, cur_state := cur, last_multi_wildcard := lmw } ch).trie nh ∧
      (insert_step { trie := t, cur_state := cur, last_multi_wildcard := lmw } ch).last_multi_wildcard =
        nh (insert_step { trie := t, cur_state := cur, last_multi_wildcard := lmw } ch).cur_state := by
  have I := hI.inv
  simp only at I
  have hv : (t.heap r).d_value = ch := I.next_value cur ch r h
  have hloop : is_wild ch = true → (t.heap r).d_success ch = some r := by
    intro hw
    have := I.self_loop r (by rw [hv]; exact hw)
    rwa [hv] at this
  rw [insert_step_old t cur ch lmw r h hloop]
  have hnr := hW.nh_next cur ch r h
  refine ⟨{ nh_root := hW.nh_root, nh_next := ?_, fail_eq := ?_, reach := ?_ }, ?_⟩
  · intro s c r2 h2
    rw [relinked_success] at h2
    exact hW.nh_next s c r2 h2
  · intro s
    rw [relinked_value]
    by_cases hs : s = r
    · subst hs
      by_cases hc : ch = '.'
      · have hne : ch ≠ '#' := by rw [hc]; decide
        rw [if_neg hne] at hnr
        cases hlm : lmw with
        | none =>
          have e : relinked t s ch none = t := by simp [relinked]
          rw [e]
          exact hW.fail_eq s
        | some w =>
          have e : relinked t s ch (some w) = set_failure t s w := by simp [relinked, hc]
          rw [e, hv, if_pos hc, hnr, ← hl, hlm]
          simp [set_failure, basic_trie.put]
      · have e : relinked t s ch lmw = t := by simp [relinked, hc]
        rw [e]
        exact hW.fail_eq s
    · have e : ((relinked t r ch lmw).heap s).d_failure = (t.heap s).d_failure := by
        unfold relinked
        split
        · simp [set_failure, basic_trie.put, hs]
        · rfl
      rw [e]
      exact hW.fail_eq s
  · intro s hs
    rw [relinked_size] at hs
    obtain ⟨w, hw⟩ := hW.reach s hs
    exact ⟨w, walk_mono t _ (fun s2 c r2 h2 => by rw [relinked_success]; exact h2) w 0 s hw⟩
  · simp only
    rw [hnr, hl]

theorem wire_step_new (t0 t : basic_trie) (ps : List (List Char)) (cur : Nat) (ch : Char)
    (lmw : Option Nat) (q : List Char) (lt : Nat → List Char) (nh : Nat → Option Nat)
    (hI : LoopInv t0 ps { trie := t, cur_state := cur, last_multi_wildcard := lmw } q lt)
    (hW : Wire t nh) (hl : lmw = nh cur)
    (h : (t.heap cur).d_success ch = none) :
    Wire (insert_step { trie := t, cur_state := cur, last_multi_wildcard := lmw } ch).trie
        (fun j => if j = t.d_size then (if ch = '#' then some t.d_size else nh cur) else nh j) ∧
      (insert_step { trie := t, cur_state := cur, last_multi_wildcard := lmw } ch).last_multi_wildcard =
        (fun j => if j = t.d_size then (if ch = '#' then some t.d_size else nh cur) else nh j)
          (insert_step { trie := t, cur_state := cur, last_multi_wildcard := lmw } ch).cur_state := by
  have I := hI.inv
  simp only at I
  have hcur : cur < t.d_size := hI.cur_lt
  have hcn : cur ≠ t.d_size := by omega
  have hpos := I.size_pos
  have h0 : (0 : Nat) ≠ t.d_size := by omega
  have hnew := loop_step_new t0 t ps cur ch lmw q lt hI h
  have hwalk := hnew.walk_ok
  rw [insert_step_new t cur ch lmw h hcn] at hwalk ⊢
  simp only at hwalk
  have hmono : ∀ s c r, (t.heap s).d_success c = some r →
      ((grown t cur ch lmw).heap s).d_success c = some r := by
    intro s c r h2
    have := I.next_lt s c r h2
    rw [grown_success t cur ch lmw s c (by omega)]
    have : ¬ (s = cur ∧ c = ch) := by
      rintro ⟨h4, h5⟩
      subst h4; subst h5
      rw [h] at h2
      simp at h2
    rw [if_neg this]
    exact h2
  refine ⟨{ nh_root := ?_, nh_next := ?_, fail_eq := ?_, reach := ?_ }, ?_⟩
  · simp only [h0, if_false]; exact hW.nh_root
  · intro s c r h2
    rcases grown_trans t cur ch lmw s c r h2 with ⟨h3, h4, h5, h6⟩ | ⟨_, h3, h6, h4⟩ |
      ⟨hs, _, h3⟩
    · subst h3; subst h4; subst h6
      simp only [if_true]
      by_cases hc : c = '#'
      · simp [hc]
      · simp [hc]
    · subst h3; subst h4; subst h6
      simp only [if_true, hcn, if_false]
    · have := I.next_lt s c r h3
      have hr : r ≠ t.d_size := by omega
      simp only [hr, hs, if_false]
      exact hW.nh_next s c r h3
  · intro s
    by_cases hs : s = t.d_size
    · subst hs
      rw [grown_heap_new]
      simp only [new_child, if_true]
      by_cases hc : ch = '.'
      · have hne : ch ≠ '#' := by rw [hc]; decide
        simp [hc, hl]
      · simp [hc]
    · rw [grown_failure t cur ch lmw s hs, grown_value t cur ch lmw s hs]
      simp only [hs, if_false]
      exact hW.fail_eq s
  · intro s hs
    have hsz : (grown t cur ch lmw).d_size = t.d_size + 1 := rfl
    rw [hsz] at hs
    by_cases hsn : s = t.d_size
    · subst hsn
      exact ⟨q ++ [ch], hwalk⟩
    · obtain ⟨w, hw⟩ := hW.reach s (by omega)
      exact ⟨w, walk_mono t _ hmono w 0 s hw⟩
  · simp only [if_true]
    by_cases hc : ch = '#'
    · simp [hc]
    · simp [hc, hl]

end aho_corasick

namespace aho_corasick

theorem wire_step (t0 : basic_trie) (ps : List (List Char)) (v : insert_vars) (ch : Char)
    (q : List Char) (lt : Nat → List Char) (nh : Nat → Option Nat)
    (hI : LoopInv t0 ps v q lt) (hW : Wire v.trie nh)
    (hl : v.last_multi_wildcard = nh v.cur_state) :
    ∃ nh2, Wire (insert_step v ch).trie nh2 ∧
      (insert_step v ch).last_multi_wildcard = nh2 (insert_step v ch).cur_state := by
  obtain ⟨t, cur, lmw⟩ := v
  cases h : (t.heap cur).d_success ch with
  | none => exact ⟨_, wire_step_new t0 t ps cur ch lmw q lt nh hI hW hl h⟩
  | some r => exact ⟨_, wire_step_old t0 t ps cur ch lmw q lt nh r hI hW hl h⟩

theorem wire_fold (t0 : basic_trie) (ps : List (List Char)) :
    ∀ (rest : List Char) (v : insert_vars) (q : List Char) (lt : Nat → List Char)
      (nh : Nat → Option Nat),
      LoopInv t0 ps v q lt → Wire v.trie nh → v.last_multi_wildcard = nh v.cur_state →
      ∃ nh2, Wire (rest.foldl insert_step v).trie nh2 := by
  intro rest
  induction rest with
  | nil => intro v q lt nh _ hW _; exact ⟨nh, hW⟩
  | cons c cs ih =>
    intro v q lt nh hI hW hl
    obtain ⟨lt1, h1⟩ := loop_step t0 ps v c q lt hI
    obtain ⟨nh1, hW1, hl1⟩ := wire_step t0 ps v c q lt nh hI hW hl
    exact ih (insert_step v c) (q ++ [c]) lt1 nh1 h1 hW1 hl1

/-- The wiring survives `insert`. -/
theorem insert_wire (t : basic_trie) (ps : List (List Char)) (lt : Nat → List Char)
    (I : Inv t lt ps) (nh : Nat → Option Nat) (hW : Wire t nh) (kw : List Char) :
    ∃ nh2, Wire (insert t kw) nh2 := by
  by_cases hk : kw = []
  · subst hk; rw [insert_nil]; exact ⟨nh, hW⟩
  · obtain ⟨lt2, hI⟩ := insert_loop_inv t ps lt I kw
    have hc := loop_cur_ne_zero t ps _ kw lt2 hI hk
    obtain ⟨nh2, hW2⟩ : ∃ nh2, Wire (insert_loop t kw).trie nh2 := by
      have := wire_fold t ps kw _ [] lt nh (loop_start t ps lt I) hW (by simp [hW.nh_root])
      simpa [insert_loop] using this
    have hh := insert_heap t kw hk hc
    have hsucc : ∀ s, ((insert t kw).heap s).d_success =
        ((insert_loop t kw).trie.heap s).d_success := by
      intro s; rw [hh]; split_ifs <;> rfl
    have hval : ∀ s, ((insert t kw).heap s).d_value =
        ((insert_loop t kw).trie.heap s).d_value := by
      intro s; rw [hh]; split_ifs <;> rfl
    have hfail : ∀ s, ((insert t kw).heap s).d_failure =
        ((insert_loop t kw).trie.heap s).d_failure := by
      intro s; rw [hh]; split_ifs <;> rfl
    refine ⟨nh2, { nh_root := hW2.nh_root, nh_next := ?_, fail_eq := ?_, reach := ?_ }⟩
    · intro s c r h; rw [hsucc] at h; exact hW2.nh_next s c r h
    · intro s; rw [hfail, hval]; exact hW2.fail_eq s
    · intro s hs
      rw [insert_size t kw hk] at hs
      obtain ⟨w, hw⟩ := hW2.reach s hs
      exact ⟨w, walk_mono _ _ (fun s2 c r h => by rw [hsucc]; exact h) w 0 s hw⟩

theorem built_wire (u : Bool) (c : config) :
    ∀ ps : List (List Char), ∃ lt qs nh,
      Inv (insert_all (basic_trie.make u c) ps) lt qs ∧
      Wire (insert_all (basic_trie.make u c) ps) nh := by
  intro ps
  induction ps using List.reverseRecOn with
  | nil => exact ⟨_, [], _, inv_make u c, wire_make u c⟩
  | append_singleton rest p ih =>
    obtain ⟨lt, qs, nh, I, W⟩ := ih
    have e : insert_all (basic_trie.make u c) (rest ++ [p]) =
        insert (insert_all (basic_trie.make u c) rest) p := by
      simp [insert_all, List.foldl_append]
    rw [e]
    obtain ⟨nh2, W2⟩ := insert_wire _ qs lt I nh W p
    by_cases hp : p = []
    · subst hp
      rw [insert_nil]
      exact ⟨lt, qs, nh, I, W⟩
    · obtain ⟨lt2, I2, _⟩ := insert_inv _ qs lt I p hp
      exact ⟨lt2, _, nh2, I2, W2⟩

theorem hash_stem_snoc (w : List Char) (c : Char) :
    hash_stem (w ++ [c]) = if c = '#' then some (w ++ [c]) else hash_stem w := by
  simp [hash_stem, hash_stem_rev]

theorem hash_stem_none (w : List Char) (h : '#' ∉ w) : hash_stem w = none := by
  induction w using List.reverseRecOn with
  | nil => rfl
  | append_singleton rest c ih =>
    rw [hash_stem_snoc]
    have hc : c ≠ '#' := fun e => h (by simp [e])
    rw [if_neg hc]
    exact ih (fun hm => h (by simp [hm]))

/-- The nearest `#` state above a state is the state at the end of the longest beginning of
its path that ends with `#`. -/
theorem wire_walk (t : basic_trie) (nh : Nat → Option Nat) (W : Wire t nh) :
    ∀ (w : List Char) (s : Nat), walk t 0 w = some s →
      nh s = (hash_stem w).bind (walk t 0) := by
  intro w
  induction w using List.reverseRecOn with
  | nil =>
    intro s h
    simp only [walk, Option.some.injEq] at h
    subst h
    rw [W.nh_root]
    rfl
  | append_singleton rest c ih =>
    intro s h
    obtain ⟨q, hq, hqc⟩ := walk_snoc_inv t rest c 0 s h
    rw [W.nh_next q c s hqc, hash_stem_snoc]
    by_cases hc : c = '#'
    · simp only [hc, if_true, Option.some_bind]
      rw [← hc, h]
    · simp only [hc, if_false]
      exact ih q hq

theorem walk_value (t : basic_trie) (lt : Nat → List Char) (ps : List (List Char))
    (I : Inv t lt ps) (w : List Char) (c : Char) (s : Nat)
    (h : walk t 0 (w ++ [c]) = some s) : (t.heap s).d_value = c := by
  obtain ⟨q, _, hqc⟩ := walk_snoc_inv t w c 0 s h
  exact I.next_value q c s hqc

end aho_corasick

namespace aho_corasick

theorem hash_stem_split (p0 : List Char) :
    ∀ rest : List Char, '#' ∉ rest → hash_stem (p0 ++ '#' :: rest) = some (p0 ++ ['#']) := by
  intro rest
  induction rest using List.reverseRecOn with
  | nil =>
    intro _
    rw [hash_stem_snoc]
    simp
  | append_singleton r x ih =>
    intro h
    have hx : x ≠ '#' := fun e => h (by simp [e])
    have e : p0 ++ '#' :: (r ++ [x]) = (p0 ++ '#' :: r) ++ [x] := by simp
    rw [e, hash_stem_snoc, if_neg hx]
    exact ih (fun hm => h (by simp [hm]))

/-- C20. In every trie built by a sequence of inserts: every state lies on a path of exact
transitions from the root and its value is the last symbol of the path; a state entered by
`.` whose path has a `#` before has a failure link to the state at the last such `#`, and that
state has a `#` self-loop; a state whose path has no `#`, the root among them, and a state
entered by another symbol than `.` have no failure link. -/
theorem C20_failure_link_wiring (u : Bool) (c : config) (ps : List (List Char)) :
    (∀ s, s < (insert_all (basic_trie.make u c) ps).d_size →
      ∃ w, walk (insert_all (basic_trie.make u c) ps) 0 w = some s) ∧
    (∀ (w : List Char) (x : Char) (s : Nat),
      walk (insert_all (basic_trie.make u c) ps) 0 (w ++ [x]) = some s →
      ((insert_all (basic_trie.make u c) ps).heap s).d_value = x) ∧
    (∀ (p0 rest : List Char) (s : Nat),
      walk (insert_all (basic_trie.make u c) ps) 0 (p0 ++ '#' :: rest ++ ['.']) = some s →
      '#' ∉ rest →
      ∃ f, walk (insert_all (basic_trie.make u c) ps) 0 (p0 ++ ['#']) = some f ∧
        ((insert_all (basic_trie.make u c) ps).heap s).d_failure = some f ∧
        ((insert_all (basic_trie.make u c) ps).heap f).d_success '#' = some f) ∧
    (∀ (w : List Char) (s : Nat),
      walk (insert_all (basic_trie.make u c) ps) 0 w = some s → '#' ∉ w →
      ((insert_all (basic_trie.make u c) ps).heap s).d_failure = none) ∧
    (∀ (w : List Char) (x : Char) (s : Nat),
      walk (insert_all (basic_trie.make u c) ps) 0 (w ++ [x]) = some s → x ≠ '.' →
      ((insert_all (basic_trie.make u c) ps).heap s).d_failure = none) ∧
    ((insert_all (basic_trie.make u c) ps).heap 0).d_failure = none := by
  obtain ⟨lt, qs, nh, I, W⟩ := built_wire u c ps
  have hnone : ∀ (w : List Char) (s : Nat),
      walk (insert_all (basic_trie.make u c) ps) 0 w = some s → '#' ∉ w →
      ((insert_all (basic_trie.make u c) ps).heap s).d_failure = none := by
    intro w s hw hh
    rw [W.fail_eq s, wire_walk _ nh W w s hw, hash_stem_none w hh]
    simp
  refine ⟨W.reach, ?_, ?_, hnone, ?_, hnone [] 0 rfl (by simp)⟩
  · intro w x s hw
    exact walk_value _ lt qs I w x s hw
  · intro p0 rest s hw hrest
    have hv := walk_value _ lt qs I (p0 ++ '#' :: rest) '.' s hw
    have hnh := wire_walk _ nh W _ s hw
    have hdot : ('.' : Char) ≠ '#' := by decide
    rw [hash_stem_snoc, if_neg hdot, hash_stem_split p0 rest hrest] at hnh
    have e : p0 ++ '#' :: rest ++ ['.'] = (p0 ++ ['#']) ++ (rest ++ ['.']) := by simp
    obtain ⟨f, hf, _⟩ := walk_append_inv _ (p0 ++ ['#']) (rest ++ ['.']) 0 s (e ▸ hw)
    have hfail : ((insert_all (basic_trie.make u c) ps).heap s).d_failure = some f := by
      rw [W.fail_eq s, hv, if_pos rfl, hnh]
      simp [hf]
    refine ⟨f, hf, hfail, ?_⟩
    have hfv := (I.fail_value s f hfail).2
    have := I.self_loop f (by rw [hfv]; decide)
    rwa [hfv] at this
  · intro w x s hw hx
    have hv := walk_value _ lt qs I w x s hw
    rw [W.fail_eq s, hv, if_neg hx]

end aho_corasick

namespace aho_corasick

/-! ## What `insert` leaves as it was -/

theorem emits_step (t0 : basic_trie) (ps : List (List Char)) (v : insert_vars) (ch : Char)
    (q : List Char) (lt : Nat → List Char) (hI : LoopInv t0 ps v q lt)
    (hb : ∀ s, v.trie.d_size ≤ s → (v.trie.heap s).d_emits = []) :
    (∀ s, ((insert_step v ch).trie.heap s).d_emits = (v.trie.heap s).d_emits) ∧
    (∀ s, (insert_step v ch).trie.d_size ≤ s → ((insert_step v ch).trie.heap s).d_emits = []) := by
  obtain ⟨t, cur, lmw⟩ := v
  have I := hI.inv
  simp only at I hb
  have hcur : cur < t.d_size := hI.cur_lt
  cases h : (t.heap cur).d_success ch with
  | none =>
    rw [insert_step_new t cur ch lmw h (by omega)]
    have hall : ∀ s, ((grown t cur ch lmw).heap s).d_emits = (t.heap s).d_emits := by
      intro s
      by_cases hs : s = t.d_size
      · subst hs
        rw [grown_heap_new, hb _ (le_refl _)]
        rfl
      · exact grown_emits t cur ch lmw s hs
    refine ⟨hall, ?_⟩
    intro s hs
    have hsz : (grown t cur ch lmw).d_size = t.d_size + 1 := rfl
    simp only [hsz] at hs
    simp only
    rw [hall s]
    exact hb s (by omega)
  | some r =>
    have hv : (t.heap r).d_value = ch := I.next_value cur ch r h
    have hloop : is_wild ch = true → (t.heap r).d_success ch = some r := by
      intro hw
      have := I.self_loop r (by rw [hv]; exact hw)
      rwa [hv] at this
    rw [insert_step_old t cur ch lmw r h hloop]
    refine ⟨fun s => relinked_emits t r ch lmw s, ?_⟩
    intro s hs
    simp only [relinked_size] at hs
    simp only
    rw [relinked_emits]
    exact hb s hs

theorem emits_fold (t0 : basic_trie) (ps : List (List Char)) :
    ∀ (rest : List Char) (v : insert_vars) (q : List Char) (lt : Nat → List Char),
      LoopInv t0 ps v q lt → (∀ s, v.trie.d_size ≤ s → (v.trie.heap s).d_emits = []) →
      (∀ s, ((rest.foldl insert_step v).trie.heap s).d_emits = (v.trie.heap s).d_emits) ∧
      (∀ s, (rest.foldl insert_step v).trie.d_size ≤ s →
        ((rest.foldl insert_step v).trie.heap s).d_emits = []) := by
  intro rest
  induction rest with
  | nil => intro v q lt _ hb; exact ⟨fun _ => rfl, hb⟩
  | cons c cs ih =>
    intro v q lt hI hb
    obtain ⟨lt1, h1⟩ := loop_step t0 ps v c q lt hI
    obtain ⟨h2, h3⟩ := emits_step t0 ps v c q lt hI hb
    obtain ⟨h4, h5⟩ := ih (insert_step v c) (q ++ [c]) lt1 h1 h3
    exact ⟨fun s => (h4 s).trans (h2 s), h5⟩

theorem char_eq_of_toNat (a b : Char) (h : a.toNat = b.toNat) : a = b := by
  apply Char.ext
  apply UInt32.ext
  exact h

theorem string_lt_tri :
    ∀ a b : List Char, string_lt a b = false → string_lt b a = false → a = b := by
  intro a
  induction a with
  | nil =>
    intro b h1 h2
    cases b with
    | nil => rfl
    | cons y ys => simp [string_lt] at h1
  | cons x xs ih =>
    intro b h1 h2
    cases b with
    | nil => simp [string_lt] at h2
    | cons y ys =>
      simp only [string_lt] at h1 h2
      by_cases hxy : x.toNat < y.toNat
      · simp [hxy] at h1
      · by_cases hyx : y.toNat < x.toNat
        · simp [hyx] at h2
        · simp only [hxy, hyx, if_false] at h1 h2
          have hc : x = y := char_eq_of_toNat x y (by omega)
          rw [hc, ih ys h1 h2]

theorem key_index_lt_tri (a b : List Char × Nat) (h1 : key_index_lt a b = false)
    (h2 : key_index_lt b a = false) : a = b := by
  simp only [key_index_lt, Bool.or_eq_false_iff, Bool.and_eq_false_iff, Bool.not_eq_false',
    decide_eq_false_iff_not] at h1 h2
  have hs : a.1 = b.1 := string_lt_tri a.1 b.1 h1.1 h2.1
  have hn : a.2 = b.2 := by
    rcases h1.2 with h3 | h3
    · rw [h2.1] at h3; simp at h3
    · rcases h2.2 with h4 | h4
      · rw [h1.1] at h4; simp at h4
      · omega
  exact Prod.ext hs hn

theorem mem_set_insert_self (k : List Char × Nat) :
    ∀ m : List (List Char × Nat), k ∈ set_insert k m := by
  intro m
  induction m with
  | nil => simp [set_insert]
  | cons y ys ih =>
    simp only [set_insert]
    split
    · simp
    · split
      · simp [ih]
      · rename_i h1 h2
        have := key_index_lt_tri k y (by simpa using h1) (by simpa using h2)
        simp [this]

theorem insert_count (t : basic_trie) (ps : List (List Char)) (lt : Nat → List Char)
    (I : Inv t lt ps) (kw : List Char) (hk : kw ≠ []) :
    (insert t kw).d_num_keywords = (t.d_num_keywords + 1) % UNSIGNED_MOD := by
  obtain ⟨lt2, hI⟩ := insert_loop_inv t ps lt I kw
  have := hI.same_count
  simp only [insert, hk, if_false, basic_trie.put]
  split <;> simp [this]

/-- The emit sets after `insert` of a keyword that is not empty: the state the keyword ends in
gains the keyword with the old counter as index and is marked as a pattern end, and every
other emit set is as before. -/
theorem insert_emits (t : basic_trie) (ps : List (List Char)) (lt : Nat → List Char)
    (I : Inv t lt ps) (hb : ∀ s, t.d_size ≤ s → (t.heap s).d_emits = [])
    (kw : List Char) (hk : kw ≠ []) :
    ∃ T, walk (insert t kw) 0 kw = some T ∧ T ≠ 0 ∧
      ((insert t kw).heap T).d_ending_pattern = true ∧
      ((insert t kw).heap T).d_emits = set_insert (kw, t.d_num_keywords) (t.heap T).d_emits ∧
      (∀ s, s ≠ T → ((insert t kw).heap s).d_emits = (t.heap s).d_emits) ∧
      (∀ s, (insert t kw).d_size ≤ s → ((insert t kw).heap s).d_emits = []) := by
  obtain ⟨lt1, _, hw, hc, _⟩ := insert_inv t ps lt I kw hk
  obtain ⟨lt2, hI⟩ := insert_loop_inv t ps lt I kw
  obtain ⟨hsame, hblank⟩ : (∀ s, ((insert_loop t kw).trie.heap s).d_emits = (t.heap s).d_emits) ∧
      (∀ s, (insert_loop t kw).trie.d_size ≤ s →
        ((insert_loop t kw).trie.heap s).d_emits = []) := by
    have := emits_fold t ps kw _ [] lt (loop_start t ps lt I) hb
    simpa [insert_loop] using this
  have hh := insert_heap t kw hk hc
  refine ⟨_, hw, hc, ?_, ?_, ?_, ?_⟩
  · rw [hh]; simp
  · rw [hh]; simp only [if_true]; rw [hsame, hI.same_count]
  · intro s hs
    rw [hh, if_neg hs]
    exact hsame s
  · intro s hs
    rw [insert_size t kw hk] at hs
    have hne : s ≠ (insert_loop t kw).cur_state := by
      have := hI.cur_lt
      omega
    rw [hh, if_neg hne]
    exact hblank s hs

theorem num_keywords_snoc (ps : List (List Char)) (p : List Char) :
    num_keywords (ps ++ [p]) = if p = [] then num_keywords ps else num_keywords ps + 1 := by
  unfold num_keywords
  rw [List.filter_append]
  cases p with
  | nil => simp
  | cons a as => simp

theorem built_book (u : Bool) (c : config) :
    ∀ ps : List (List Char), ∃ lt qs,
      Inv (insert_all (basic_trie.make u c) ps) lt qs ∧
      Book (insert_all (basic_trie.make u c) ps) (num_keywords ps) := by
  intro ps
  induction ps using List.reverseRecOn with
  | nil =>
    exact ⟨_, [], inv_make u c, { blank := fun _ _ => rfl, count := rfl }⟩
  | append_singleton rest p ih =>
    obtain ⟨lt, qs, I, B⟩ := ih
    have e : insert_all (basic_trie.make u c) (rest ++ [p]) =
        insert (insert_all (basic_trie.make u c) rest) p := by
      simp [insert_all, List.foldl_append]
    rw [e, num_keywords_snoc]
    by_cases hp : p = []
    · subst hp
      rw [insert_nil]
      simp only [if_true]
      exact ⟨lt, qs, I, B⟩
    · obtain ⟨lt2, I2, _⟩ := insert_inv _ qs lt I p hp
      obtain ⟨T, _, _, _, _, _, hblank⟩ := insert_emits _ qs lt I B.blank p hp
      refine ⟨lt2, _, I2, { blank := hblank, count := ?_ }⟩
      rw [if_neg hp, insert_count _ qs lt I p hp, B.count]
      simp [Nat.add_mod]

/-- C14. For every trie built by a sequence of inserts, with fewer keywords than the
`unsigned` pattern counter can count, and every keyword `P` that is not empty: after
`insert(P)` the exact transitions for the symbols of `P` lead from the root to a state that
is marked as a pattern end and whose emit set holds `P` with the number of non-empty keywords
inserted before as index; every other emit set is what it was. -/
theorem C14_insert_postcondition (u : Bool) (c : config) (ps : List (List Char))
    (P : List Char) (hP : P ≠ []) (hcount : num_keywords ps < UNSIGNED_MOD) :
    ∃ T, walk (insert (insert_all (basic_trie.make u c) ps) P) 0 P = some T ∧
      ((insert (insert_all (basic_trie.make u c) ps) P).heap T).d_ending_pattern = true ∧
      (P, num_keywords ps) ∈
        ((insert (insert_all (basic_trie.make u c) ps) P).heap T).d_emits ∧
      (∀ s, s ≠ T →
        ((insert (insert_all (basic_trie.make u c) ps) P).heap s).d_emits =
          ((insert_all (basic_trie.make u c) ps).heap s).d_emits) := by
  obtain ⟨lt, qs, I, B⟩ := built_book u c ps
  obtain ⟨T, hw, _, hend, hem, hothers, _⟩ := insert_emits _ qs lt I B.blank P hP
  refine ⟨T, hw, hend, ?_, hothers⟩
  rw [hem, B.count, Nat.mod_eq_of_lt hcount]
  exact mem_set_insert_self _ _

/-- C14 at the trie of `hi.mom` and `hi.there` and the keyword `im.#`. -/
theorem C14_witness :
    "im.#".toList ≠ [] ∧ num_keywords ["hi.mom".toList, "hi.there".toList] < UNSIGNED_MOD ∧
    ∃ T, walk (insert (insert_all (basic_trie.make false { d_case_insensitive := false })
        ["hi.mom".toList, "hi.there".toList]) "im.#".toList) 0 "im.#".toList = some T ∧
      ((insert (insert_all (basic_trie.make false { d_case_insensitive := false })
        ["hi.mom".toList, "hi.there".toList]) "im.#".toList).heap T).d_ending_pattern = true ∧
      ("im.#".toList, num_keywords ["hi.mom".toList, "hi.there".toList]) ∈
        ((insert (insert_all (basic_trie.make false { d_case_insensitive := false })
          ["hi.mom".toList, "hi.there".toList]) "im.#".toList).heap T).d_emits ∧
      (∀ s, s ≠ T →
        ((insert (insert_all (basic_trie.make false { d_case_insensitive := false })
          ["hi.mom".toList, "hi.there".toList]) "im.#".toList).heap s).d_emits =
          ((insert_all (basic_trie.make false { d_case_insensitive := false })
            ["hi.mom".toList, "hi.there".toList]).heap s).d_emits) :=
  ⟨by decide, by decide,
    C14_insert_postcondition false { d_case_insensitive := false }
      ["hi.mom".toList, "hi.there".toList] "im.#".toList (by decide) (by decide)⟩

end aho_corasick

namespace aho_corasick

/-! ## The interval tree is built -/

theorem median_seen_step (done : List interval) (p : Nat × Nat) (i : interval)
    (hi : i.d_start ≤ SIZE_MAX) (h : median_seen done p) :
    median_seen (done ++ [i]) (median_step p i) := by
  right
  refine ⟨by simp, ?_⟩
  rcases h with ⟨hd, hp⟩ | ⟨_, ⟨a, ha, hap⟩, hmin, ⟨b, hb, hbp⟩⟩
  · subst hd; subst hp
    simp [median_step]
  · refine ⟨?_, ?_, ?_⟩
    · by_cases hc : p.1 = SIZE_MAX ∨ i.d_start < p.1
      · exact ⟨i, by simp, by simp [median_step, hc]⟩
      · exact ⟨a, by simp [ha], by simp [median_step, hc, hap]⟩
    · intro x hx
      by_cases hc : p.1 = SIZE_MAX ∨ i.d_start < p.1
      · have hle : i.d_start ≤ p.1 := by
          rcases hc with h1 | h1
          · rw [h1]; exact hi
          · omega
        simp only [median_step, hc, if_true]
        rcases List.mem_append.mp hx with h2 | h2
        · exact le_trans hle (hmin x h2)
        · simp only [List.mem_singleton] at h2; rw [h2]
      · simp only [median_step, hc, if_false]
        rcases List.mem_append.mp hx with h2 | h2
        · exact hmin x h2
        · simp only [List.mem_singleton] at h2
          rw [h2]
          have : ¬ i.d_start < p.1 := fun hh => hc (Or.inr hh)
          omega
    · by_cases hc : p.2 = SIZE_MAX ∨ i.d_end > p.2
      · exact ⟨i, by simp, by simp [median_step, hc]⟩
      · exact ⟨b, by simp [hb], by simp [median_step, hc, hbp]⟩

theorem median_seen_fold :
    ∀ (rest done : List interval) (p : Nat × Nat), (∀ i ∈ rest, i.d_start ≤ SIZE_MAX) →
      median_seen done p → median_seen (done ++ rest) (rest.foldl median_step p) := by
  intro rest
  induction rest with
  | nil => intro done p _ h; simpa using h
  | cons i is ih =>
    intro done p hr h
    have := ih (done ++ [i]) (median_step p i) (fun x hx => hr x (by simp [hx]))
      (median_seen_step done p i (hr i (by simp)) h)
    simpa using this

/-- The median of intervals that are well formed lies between the start of one of them and
the end of one of them. -/
theorem median_between (c : List interval) (hc : well_formed c) (hne : c ≠ []) :
    (∃ a ∈ c, a.d_start ≤ determine_median c) ∧ (∃ b ∈ c, determine_median c ≤ b.d_end) := by
  have hmax : ∀ i ∈ c, i.d_start ≤ SIZE_MAX := by
    intro i hi
    have := hc i hi
    simp only [SIZE_MAX, SIZE_MOD] at *
    omega
  have h := median_seen_fold c [] (SIZE_MAX, SIZE_MAX) hmax (Or.inl ⟨rfl, rfl⟩)
  simp only [List.nil_append] at h
  rcases h with ⟨h1, _⟩ | ⟨_, ⟨a, ha, hap⟩, hmin, ⟨b, hb, hbp⟩⟩
  · exact absurd h1 hne
  · have hb1 := hc b hb
    have hle := hmin b hb
    have hsum : (c.foldl median_step (SIZE_MAX, SIZE_MAX)).1 +
        (c.foldl median_step (SIZE_MAX, SIZE_MAX)).2 < SIZE_MOD := by
      rw [← hbp]; omega
    have hmed : determine_median c = ((c.foldl median_step (SIZE_MAX, SIZE_MAX)).1 +
        (c.foldl median_step (SIZE_MAX, SIZE_MAX)).2) / 2 := by
      simp only [determine_median, size_add]
      rw [Nat.mod_eq_of_lt hsum]
    refine ⟨⟨a, ha, ?_⟩, ⟨b, hb, ?_⟩⟩
    · rw [hmed, hap]; omega
    · rw [hmed, ← hbp]; omega

theorem to_left_shorter (c : List interval) (hc : well_formed c) (hne : c ≠ []) :
    (to_left (determine_median c) c).length < c.length := by
  obtain ⟨_, ⟨b, hb, hbp⟩⟩ := median_between c hc hne
  unfold to_left
  rw [List.length_filter_lt_length_iff_exists]
  exact ⟨b, hb, by simp; omega⟩

theorem to_right_shorter (c : List interval) (hc : well_formed c) (hne : c ≠ []) :
    (to_right (determine_median c) c).length < c.length := by
  obtain ⟨⟨a, ha, hap⟩, _⟩ := median_between c hc hne
  unfold to_right
  rw [List.length_filter_lt_length_iff_exists]
  refine ⟨a, ha, ?_⟩
  simp only [Bool.and_eq_true, Bool.not_eq_true', decide_eq_false_iff_not, decide_eq_true_eq,
    not_and, not_lt]
  intro _
  omega

theorem well_formed_filter (c : List interval) (p : interval → Bool) (hc : well_formed c) :
    well_formed (c.filter p) := by
  intro i hi
  exact hc i (List.mem_filter.mp hi).1

/-- The constructor of `node` returns on intervals that are well formed, with any fuel
above their number. -/
theorem build_total :
    ∀ (fuel : Nat) (c : List interval), well_formed c → c.length < fuel →
      ∃ n, node.build fuel c = some n := by
  intro fuel
  induction fuel with
  | zero => intro c _ h; omega
  | succ k ih =>
    intro c hc hlen
    have hl : ∃ l, (if (to_left (determine_median c) c).length > 0
        then node.build k (to_left (determine_median c) c) else some node.null) = some l := by
      by_cases h0 : (to_left (determine_median c) c).length > 0
      · rw [if_pos h0]
        have hne : c ≠ [] := by
          intro e; subst e; simp [to_left] at h0
        exact ih _ (well_formed_filter c _ hc) (by have := to_left_shorter c hc hne; omega)
      · rw [if_neg h0]; exact ⟨_, rfl⟩
    have hr : ∃ r, (if (to_right (determine_median c) c).length > 0
        then node.build k (to_right (determine_median c) c) else some node.null) = some r := by
      by_cases h0 : (to_right (determine_median c) c).length > 0
      · rw [if_pos h0]
        have hne : c ≠ [] := by
          intro e; subst e; simp [to_right] at h0
        exact ih _ (well_formed_filter c _ hc) (by have := to_right_shorter c hc hne; omega)
      · rw [if_neg h0]; exact ⟨_, rfl⟩
    obtain ⟨l, hl⟩ := hl
    obtain ⟨r, hr⟩ := hr
    exact ⟨node.mk (determine_median c) l r (to_here (determine_median c) c), by
      simp only [node.build, hl, hr]⟩

theorem make_total (c : List interval) (hc : well_formed c) :
    ∃ tree, interval_tree.make c = some tree :=
  build_total (c.length + 1) c hc (by omega)

end aho_corasick

namespace aho_corasick

/-! ## What `find_overlaps` returns -/

theorem partition_perm (point : Nat) (c : List interval) :
    List.Perm c (to_here point c ++ (to_left point c ++ to_right point c)) := by
  have h1 := List.filter_append_perm (fun i : interval => decide (i.d_end < point)) c
  have h2 := List.filter_append_perm (fun i : interval => decide (i.d_start > point))
    (c.filter (fun i => !decide (i.d_end < point)))
  have e1 : (c.filter (fun i => !decide (i.d_end < point))).filter
      (fun i => decide (i.d_start > point)) = to_right point c := by
    rw [List.filter_filter]
    unfold to_right
    apply List.filter_congr
    intro x _
    exact Bool.and_comm _ _
  have e2 : (c.filter (fun i => !decide (i.d_end < point))).filter
      (fun i => !decide (i.d_start > point)) = to_here point c := by
    rw [List.filter_filter]
    unfold to_here
    apply List.filter_congr
    intro x _
    exact Bool.and_comm _ _
  rw [e1, e2] at h2
  have h3 : List.Perm (to_left point c ++ (to_right point c ++ to_here point c)) c :=
    (List.Perm.append_left _ h2).trans h1
  refine h3.symm.trans ?_
  have h4 : List.Perm (to_left point c ++ (to_right point c ++ to_here point c))
      ((to_left point c ++ to_right point c) ++ to_here point c) := by
    rw [List.append_assoc]
  exact h4.trans List.perm_append_comm

theorem mem_to_here (point : Nat) (c : List interval) (x : interval)
    (h : x ∈ to_here point c) : x.d_start ≤ point ∧ point ≤ x.d_end := by
  have := (List.mem_filter.mp h).2
  simp only [Bool.and_eq_true, Bool.not_eq_true', decide_eq_false_iff_not] at this
  omega

theorem mem_to_left (point : Nat) (c : List interval) (x : interval)
    (h : x ∈ to_left point c) : x.d_end < point := by
  simpa using (List.mem_filter.mp h).2

theorem mem_to_right (point : Nat) (c : List interval) (x : interval)
    (h : x ∈ to_right point c) : point < x.d_start := by
  have := (List.mem_filter.mp h).2
  simp only [Bool.and_eq_true, decide_eq_true_eq] at this
  exact this.2

theorem filter_other_ne (q : interval) (l : List interval) :
    (l.filter (overlaps_other q)).filter (fun cur => decide (cur ≠ q)) =
      l.filter (overlaps_other q) := by
  rw [List.filter_filter]
  apply List.filter_congr
  intro x _
  unfold overlaps_other
  cases decide (x ≠ q) <;> simp

theorem build_succ (fuel : Nat) (c : List interval) (n : node)
    (h : node.build (fuel + 1) c = some n) :
    ∃ l r,
      (if (to_left (determine_median c) c).length > 0
        then node.build fuel (to_left (determine_median c) c) else some node.null) = some l ∧
      (if (to_right (determine_median c) c).length > 0
        then node.build fuel (to_right (determine_median c) c) else some node.null) = some r ∧
      n = node.mk (determine_median c) l r (to_here (determine_median c) c) := by
  simp only [node.build] at h
  cases hl : (if (to_left (determine_median c) c).length > 0
      then node.build fuel (to_left (determine_median c) c) else some node.null) with
  | none => rw [hl] at h; simp at h
  | some l =>
    rw [hl] at h
    simp only at h
    cases hr : (if (to_right (determine_median c) c).length > 0
        then node.build fuel (to_right (determine_median c) c) else some node.null) with
    | none => rw [hr] at h; simp at h
    | some r =>
      rw [hr] at h
      simp only [Option.some.injEq] at h
      exact ⟨l, r, rfl, rfl, h.symm⟩

theorem child_perm (fuel : Nat) (sub : List interval) (n : node) (q : interval)
    (ih : ∀ (c : List interval) (m : node), node.build fuel c = some m →
      List.Perm (find_overlaps m q) (c.filter (overlaps_other q)))
    (h : (if sub.length > 0 then node.build fuel sub else some node.null) = some n) :
    List.Perm (find_overlaps n q) (sub.filter (overlaps_other q)) := by
  by_cases h0 : sub.length > 0
  · rw [if_pos h0] at h
    exact ih sub n h
  · rw [if_neg h0] at h
    simp only [Option.some.injEq] at h
    subst h
    have : sub = [] := List.length_eq_zero.mp (by omega)
    subst this
    simp [find_overlaps]

/-- On a tree the constructor returned for the collection `c`, and for a query with
`start <= end`, `find_overlaps` returns the intervals of `c` that overlap the query and are
not the query, each as often as it is in `c`. -/
theorem find_overlaps_perm (q : interval) (hq : q.d_start ≤ q.d_end) :
    ∀ (fuel : Nat) (c : List interval) (n : node), node.build fuel c = some n →
      List.Perm (find_overlaps n q) (c.filter (overlaps_other q)) := by
  intro fuel
  induction fuel with
  | zero => intro c n h; simp [node.build] at h
  | succ k ih =>
    intro c n h
    obtain ⟨l, r, hl, hr, hn⟩ := build_succ k c n h
    subst hn
    have pl := child_perm k _ l q ih hl
    have pr := child_perm k _ r q ih hr
    have pl2 : List.Perm ((find_overlaps l q).filter (fun cur => decide (cur ≠ q)))
        ((to_left (determine_median c) c).filter (overlaps_other q)) := by
      have := List.Perm.filter (fun cur => decide (cur ≠ q)) pl
      rwa [filter_other_ne] at this
    have pr2 : List.Perm ((find_overlaps r q).filter (fun cur => decide (cur ≠ q)))
        ((to_right (determine_median c) c).filter (overlaps_other q)) := by
      have := List.Perm.filter (fun cur => decide (cur ≠ q)) pr
      rwa [filter_other_ne] at this
    have hpart := List.Perm.filter (overlaps_other q) (partition_perm (determine_median c) c)
    rw [List.filter_append, List.filter_append] at hpart
    refine List.Perm.trans ?_ hpart.symm
    simp only [find_overlaps, add_to_overlaps, List.nil_append]
    by_cases h1 : determine_median c < q.d_start
    · rw [if_pos h1]
      have eL : (to_left (determine_median c) c).filter (overlaps_other q) = [] := by
        rw [List.filter_eq_nil_iff]
        intro x hx
        have := mem_to_left _ _ x hx
        simp only [overlaps_other, Bool.and_eq_true, decide_eq_true_eq, not_and]
        intro hh
        omega
      have eH : (check_right_overlaps (to_here (determine_median c) c) q).filter
          (fun cur => decide (cur ≠ q)) =
          (to_here (determine_median c) c).filter (overlaps_other q) := by
        unfold check_right_overlaps
        rw [List.filter_filter]
        apply List.filter_congr
        intro x hx
        have := mem_to_here _ _ x hx
        have h2 : x.d_start ≤ q.d_end := by omega
        simp [overlaps_other, h2, Bool.and_comm]
      rw [eL, eH, List.nil_append]
      exact (List.Perm.append_right _ pr2).trans List.perm_append_comm
    · rw [if_neg h1]
      by_cases h2 : determine_median c > q.d_end
      · rw [if_pos h2]
        have eR : (to_right (determine_median c) c).filter (overlaps_other q) = [] := by
          rw [List.filter_eq_nil_iff]
          intro x hx
          have := mem_to_right _ _ x hx
          simp only [overlaps_other, Bool.and_eq_true, decide_eq_true_eq, not_and]
          intro hh
          omega
        have eH : (check_left_overlaps (to_here (determine_median c) c) q).filter
            (fun cur => decide (cur ≠ q)) =
            (to_here (determine_median c) c).filter (overlaps_other q) := by
          unfold check_left_overlaps
          rw [List.filter_filter]
          apply List.filter_congr
          intro x hx
          have := mem_to_here _ _ x hx
          have h3 : x.d_end ≥ q.d_start := by omega
          simp [overlaps_other, h3, Bool.and_comm]
        rw [eR, eH, List.append_nil]
        exact (List.Perm.append_right _ pl2).trans List.perm_append_comm
      · rw [if_neg h2]
        have eH : (to_here (determine_median c) c).filter (fun cur => decide (cur ≠ q)) =
            (to_here (determine_median c) c).filter (overlaps_other q) := by
          apply List.filter_congr
          intro x hx
          have := mem_to_here _ _ x hx
          have h3 : x.d_end ≥ q.d_start := by omega
          have h4 : x.d_start ≤ q.d_end := by omega
          simp [overlaps_other, h3, h4]
        rw [eH, List.append_assoc]
        exact List.Perm.append_left _ (List.Perm.append pl2 pr2)

end aho_corasick

namespace aho_corasick

/-- C16. For every collection `c` of intervals with `start <= end` and `start + end` in the
range of `size_t`, and every query interval `q` with `start <= end`: the tree is built, and
`find_overlaps(q)` returns the intervals `x` of `c` with `x.start <= q.end` and
`x.end >= q.start` that are not `q`, each as often as it occurs in `c`. -/
theorem C16_find_overlaps_complete (c : List interval) (q : interval) (hc : well_formed c)
    (hq : q.d_start ≤ q.d_end) :
    ∃ tree, interval_tree.make c = some tree ∧
      List.Perm (find_overlaps tree q)
        (c.filter (fun x => decide (x.d_start ≤ q.d_end) && decide (x.d_end ≥ q.d_start) &&
          decide (x ≠ q))) := by
  obtain ⟨tree, ht⟩ := make_total c hc
  exact ⟨tree, ht, find_overlaps_perm q hq _ c tree ht⟩

/-- C16 at four intervals and the query `[3, 6]`. -/
theorem C16_witness :
    well_formed [⟨0, 3⟩, ⟨2, 5⟩, ⟨6, 8⟩, ⟨7, 7⟩] ∧ (⟨3, 6⟩ : interval).d_start ≤ (⟨3, 6⟩ : interval).d_end ∧
    ∃ tree, interval_tree.make [⟨0, 3⟩, ⟨2, 5⟩, ⟨6, 8⟩, ⟨7, 7⟩] = some tree ∧
      List.Perm (find_overlaps tree ⟨3, 6⟩)
        (([⟨0, 3⟩, ⟨2, 5⟩, ⟨6, 8⟩, ⟨7, 7⟩] : List interval).filter
          (fun x => decide (x.d_start ≤ (⟨3, 6⟩ : interval).d_end) &&
            decide (x.d_end ≥ (⟨3, 6⟩ : interval).d_start) && decide (x ≠ ⟨3, 6⟩))) :=
  ⟨by unfold well_formed; decide, by decide,
    C16_find_overlaps_complete [⟨0, 3⟩, ⟨2, 5⟩, ⟨6, 8⟩, ⟨7, 7⟩] ⟨3, 6⟩
      (by unfold well_formed; decide) (by decide)⟩

/-! ## What `remove_overlaps` returns -/

theorem child_mem (fuel : Nat) (sub : List interval) (n : node) (q x : interval)
    (ih : ∀ (c : List interval) (m : node), node.build fuel c = some m →
      x ∈ find_overlaps m q → x ∈ c)
    (h : (if sub.length > 0 then node.build fuel sub else some node.null) = some n)
    (hx : x ∈ find_overlaps n q) : x ∈ sub := by
  by_cases h0 : sub.length > 0
  · rw [if_pos h0] at h
    exact ih sub n h hx
  · rw [if_neg h0] at h
    simp only [Option.some.injEq] at h
    subst h
    simp [find_overlaps] at hx

/-- Whatever the query, `find_overlaps` returns intervals of the collection the tree was
built from. -/
theorem find_overlaps_mem (q x : interval) :
    ∀ (fuel : Nat) (c : List interval) (n : node), node.build fuel c = some n →
      x ∈ find_overlaps n q → x ∈ c := by
  intro fuel
  induction fuel with
  | zero => intro c n h; simp [node.build] at h
  | succ k ih =>
    intro c n h hx
    obtain ⟨l, r, hl, hr, hn⟩ := build_succ k c n h
    subst hn
    have ml := fun hh => (List.mem_filter.mp (child_mem k _ l q x ih hl hh)).1
    have mr := fun hh => (List.mem_filter.mp (child_mem k _ r q x ih hr hh)).1
    have mh : x ∈ to_here (determine_median c) c → x ∈ c := fun hh => (List.mem_filter.mp hh).1
    simp only [find_overlaps, add_to_overlaps, List.nil_append, check_right_overlaps,
      check_left_overlaps] at hx
    split_ifs at hx
    · rcases List.mem_append.mp hx with h1 | h1
      · exact mr (List.mem_filter.mp h1).1
      · exact mh (List.mem_filter.mp (List.mem_filter.mp h1).1).1
    · rcases List.mem_append.mp hx with h1 | h1
      · exact ml (List.mem_filter.mp h1).1
      · exact mh (List.mem_filter.mp (List.mem_filter.mp h1).1).1
    · rcases List.mem_append.mp hx with h1 | h1
      · rcases List.mem_append.mp h1 with h2 | h2
        · exact mh (List.mem_filter.mp h2).1
        · exact ml (List.mem_filter.mp h2).1
      · exact mr (List.mem_filter.mp h1).1

theorem mem_iv_set_insert (x y : interval) :
    ∀ s : List interval, y ∈ iv_set_insert x s → y = x ∨ y ∈ s := by
  intro s
  induction s with
  | nil => intro h; simpa [iv_set_insert] using h
  | cons z zs ih =>
    intro h
    simp only [iv_set_insert] at h
    split_ifs at h
    · simpa using h
    · rcases List.mem_cons.mp h with h1 | h1
      · exact Or.inr (by simp [h1])
      · rcases ih h1 with h2 | h2
        · exact Or.inl h2
        · exact Or.inr (by simp [h2])
    · exact Or.inr h

theorem iv_set_insert_sorted (x : interval) :
    ∀ s : List interval, s.Pairwise (fun a b => a.d_start < b.d_start) →
      (iv_set_insert x s).Pairwise (fun a b => a.d_start < b.d_start) := by
  intro s
  induction s with
  | nil => intro _; simp [iv_set_insert]
  | cons z zs ih =>
    intro h
    have hz := List.pairwise_cons.mp h
    simp only [iv_set_insert]
    split_ifs with h1 h2
    · refine List.pairwise_cons.mpr ⟨?_, h⟩
      intro a ha
      rcases List.mem_cons.mp ha with h3 | h3
      · rw [h3]; exact h1
      · exact lt_trans h1 (hz.1 a h3)
    · refine List.pairwise_cons.mpr ⟨?_, ih hz.2⟩
      intro a ha
      rcases mem_iv_set_insert x a zs ha with h3 | h3
      · rw [h3]; exact h2
      · exact hz.1 a h3
    · exact h

theorem mark_overlaps_inv (tree : node) (c : List interval) (fuel : Nat)
    (ht : node.build fuel c = some tree) (s : List interval) (i : interval)
    (h1 : ∀ x ∈ s, x ∈ c) (h2 : s.Pairwise (fun a b => a.d_start < b.d_start)) :
    (∀ x ∈ mark_overlaps tree s i, x ∈ c) ∧
      (mark_overlaps tree s i).Pairwise (fun a b => a.d_start < b.d_start) := by
  unfold mark_overlaps
  split_ifs
  · exact ⟨h1, h2⟩
  · have key : ∀ (os : List interval) (s0 : List interval), (∀ x ∈ os, x ∈ c) →
        (∀ x ∈ s0, x ∈ c) → s0.Pairwise (fun a b => a.d_start < b.d_start) →
        (∀ x ∈ os.foldl (fun s overlap => iv_set_insert overlap s) s0, x ∈ c) ∧
          (os.foldl (fun s overlap => iv_set_insert overlap s) s0).Pairwise
            (fun a b => a.d_start < b.d_start) := by
      intro os
      induction os with
      | nil => intro s0 _ h3 h4; exact ⟨h3, h4⟩
      | cons o rest ih =>
        intro s0 ho h3 h4
        simp only [List.foldl_cons]
        apply ih _ (fun x hx => ho x (by simp [hx]))
        · intro x hx
          rcases mem_iv_set_insert o x s0 hx with h5 | h5
          · rw [h5]; exact ho o (by simp)
          · exact h3 x h5
        · exact iv_set_insert_sorted o s0 h4
    exact key _ s (fun x hx => find_overlaps_mem i x fuel c tree ht hx) h1 h2

theorem mark_fold_inv (tree : node) (c : List interval) (fuel : Nat)
    (ht : node.build fuel c = some tree) :
    ∀ (l s : List interval), (∀ x ∈ s, x ∈ c) → s.Pairwise (fun a b => a.d_start < b.d_start) →
      (∀ x ∈ l.foldl (mark_overlaps tree) s, x ∈ c) ∧
        (l.foldl (mark_overlaps tree) s).Pairwise (fun a b => a.d_start < b.d_start) := by
  intro l
  induction l with
  | nil => intro s h1 h2; exact ⟨h1, h2⟩
  | cons i rest ih =>
    intro s h1 h2
    obtain ⟨h3, h4⟩ := mark_overlaps_inv tree c fuel ht s i h1 h2
    exact ih _ h3 h4

theorem erase_fold (s : List interval) :
    ∀ l : List interval, s.Pairwise (fun a b => a.d_start < b.d_start) → (∀ x ∈ s, x ∈ l) →
      ∃ l2, s.foldl erase_found (some l) = some l2 ∧ l2.Sublist l := by
  induction s with
  | nil => intro l _ _; exact ⟨l, rfl, List.Sublist.refl l⟩
  | cons x rest ih =>
    intro l hp hm
    have hx : x ∈ l := hm x (by simp)
    have hpc := List.pairwise_cons.mp hp
    have e : (x :: rest).foldl erase_found (some l) =
        rest.foldl erase_found (some (l.erase x)) := by
      simp [List.foldl_cons, erase_found, hx]
    rw [e]
    obtain ⟨l2, h1, h2⟩ := ih (l.erase x) hpc.2 (by
      intro y hy
      have hne : y ≠ x := by
        intro e2
        have := hpc.1 y hy
        rw [e2] at this
        omega
      exact (List.mem_erase_of_ne hne).mpr (hm y (by simp [hy])))
    exact ⟨l2, h1, h2.trans (List.erase_sublist x l)⟩

theorem std_sort_perm (comp : interval → interval → Bool) (l : List interval) :
    List.Perm (std_sort comp l) l :=
  List.perm_insertionSort _ l

theorem std_sort_by_start_sorted (l : List interval) :
    (std_sort by_start l).Pairwise (fun a b => a.d_start ≤ b.d_start) := by
  have ht : IsTotal interval (fun a b => by_start b a = false) :=
    ⟨fun a b => by simp only [by_start, decide_eq_false_iff_not]; omega⟩
  have htr : IsTrans interval (fun a b => by_start b a = false) :=
    ⟨fun a b c h1 h2 => by
      simp only [by_start, decide_eq_false_iff_not] at *; omega⟩
  have := @List.sorted_insertionSort interval (fun a b => by_start b a = false) _ ht htr l
  refine List.Pairwise.imp ?_ this
  intro a b h
  simp only [by_start, decide_eq_false_iff_not] at h
  omega

/-- On a tree the constructor returned for the collection `c`, `remove_overlaps(c)` returns,
and what it returns is a part of `c`, with no interval more often than in `c`, in the order
of non-decreasing start. -/
theorem remove_overlaps_sorted_part_of (c : List interval) (tree : node)
    (ht : interval_tree.make c = some tree) :
    ∃ res, remove_overlaps tree c = some res ∧ List.Subperm res c ∧
      res.Pairwise (fun a b => a.d_start ≤ b.d_start) := by
  have hperm := std_sort_perm by_size c
  obtain ⟨h1, h2⟩ := mark_fold_inv tree c _ ht (std_sort by_size c) [] (by simp) (by simp)
  obtain ⟨l2, h3, h4⟩ := erase_fold _ (std_sort by_size c) h2
    (fun x hx => hperm.symm.subset (h1 x hx))
  refine ⟨std_sort by_start l2, ?_, ?_, std_sort_by_start_sorted l2⟩
  · simp only [remove_overlaps, h3, Option.map_some']
  · exact ((std_sort_perm by_start l2).subperm.trans h4.subperm).trans hperm.subperm

/-- C18, as the code has it. For every collection `c` of intervals with `start <= end` and
`start + end` in the range of `size_t`, the constructor returns a tree, and on that tree
`remove_overlaps(c)` returns a part of `c`, with no interval more often than in `c`, in the
order of non-decreasing start. -/
theorem C18_remove_overlaps_sorted_part (c : List interval) (hc : well_formed c) :
    ∃ tree, interval_tree.make c = some tree ∧
      ∃ res, remove_overlaps tree c = some res ∧ List.Subperm res c ∧
        res.Pairwise (fun a b => a.d_start ≤ b.d_start) := by
  obtain ⟨tree, ht⟩ := make_total c hc
  exact ⟨tree, ht, remove_overlaps_sorted_part_of c tree ht⟩

/-- C18 at four intervals. -/
theorem C18_witness :
    well_formed [⟨0, 3⟩, ⟨2, 5⟩, ⟨6, 8⟩, ⟨7, 7⟩] ∧
    ∃ tree, interval_tree.make [⟨0, 3⟩, ⟨2, 5⟩, ⟨6, 8⟩, ⟨7, 7⟩] = some tree ∧
      ∃ res, remove_overlaps tree [⟨0, 3⟩, ⟨2, 5⟩, ⟨6, 8⟩, ⟨7, 7⟩] = some res ∧
        List.Subperm res [⟨0, 3⟩, ⟨2, 5⟩, ⟨6, 8⟩, ⟨7, 7⟩] ∧
        res.Pairwise (fun a b => a.d_start ≤ b.d_start) :=
  ⟨by unfold well_formed; decide,
    C18_remove_overlaps_sorted_part [⟨0, 3⟩, ⟨2, 5⟩, ⟨6, 8⟩, ⟨7, 7⟩]
      (by unfold well_formed; decide)⟩

end aho_corasick

namespace aho_corasick

/-- C15. What the code does where the tokens should give back the text. Every emit of
`parse_text` ends at the last position of the text, so two emits always overlap, while
`tokenise` takes each emit to start behind the one before. After inserting `im.#.bond` and
`im.#`, the text `im.james.bond` has the emits from `4` and from `9`; its tokens are the
fragment `im.j`, the match `ames.bond`, an empty fragment and the match `bond`, and their
texts one after the other are `im.james.bondbond`. -/
theorem C15_tokens_repeat_text :
    parse_text (insert_all (basic_trie.fresh false) ["im.#.bond".toList, "im.#".toList])
        "im.james.bond".toList =
      some [emit.make 4 12 "im.#.bond".toList 0, emit.make 9 12 "im.#".toList 1] ∧
    tokenise (insert_all (basic_trie.fresh false) ["im.#.bond".toList, "im.#".toList])
        "im.james.bond".toList =
      some [token.fragment "im.j".toList,
            token.matched "ames.bond".toList (emit.make 4 12 "im.#.bond".toList 0),
            token.fragment [],
            token.matched "bond".toList (emit.make 9 12 "im.#".toList 1)] ∧
    tokenise (insert_all (basic_trie.fresh true) ["im.#.bond".toList, "im.#".toList])
        "im.james.bond".toList =
      some [token.fragment "im.j".toList,
            token.matched "ames.bond".toList (emit.make 4 12 "im.#.bond".toList 0),
            token.fragment [],
            token.matched "bond".toList (emit.make 9 12 "im.#".toList 1)] ∧
    concat_fragments [token.fragment "im.j".toList,
            token.matched "ames.bond".toList (emit.make 4 12 "im.#.bond".toList 0),
            token.fragment [],
            token.matched "bond".toList (emit.make 9 12 "im.#".toList 1)] =
      "im.james.bondbond".toList ∧
    "im.james.bondbond".toList ≠ "im.james.bond".toList := by
  refine ⟨?_, ?_, ?_, ?_, ?_⟩ <;> decide

/-- C17. What the code does where no two kept intervals should overlap. The intervals to
remove are collected in a `std::set<interval>`, whose order compares the start only: of
`[5, 6]` and `[5, 7]`, both found to overlap `[0, 10]`, the set keeps the first and takes the
second for the same element. Only `[5, 6]` is erased, and the result holds `[0, 10]` and
`[5, 7]`, which overlap. -/
theorem C17_same_start_overlap_survives :
    find_overlaps (node.mk 5 node.null node.null [⟨0, 10⟩, ⟨5, 6⟩, ⟨5, 7⟩]) ⟨0, 10⟩ =
      [⟨5, 6⟩, ⟨5, 7⟩] ∧
    interval_tree.make [⟨0, 10⟩, ⟨5, 6⟩, ⟨5, 7⟩] =
      some (node.mk 5 node.null node.null [⟨0, 10⟩, ⟨5, 6⟩, ⟨5, 7⟩]) ∧
    remove_overlaps_of [⟨0, 10⟩, ⟨5, 6⟩, ⟨5, 7⟩] = some [⟨0, 10⟩, ⟨5, 7⟩] ∧
    interval.overlaps_with ⟨0, 10⟩ ⟨5, 7⟩ = true := by
  refine ⟨?_, rfl, ?_, ?_⟩ <;> decide

/-- C19. What the code does where a second `remove_overlaps` should change nothing. The
result `[0, 10]`, `[5, 7]` of `remove_overlaps` on `[0, 10]`, `[5, 6]`, `[5, 7]` still holds
two intervals that overlap, and `remove_overlaps` on it, with its own tree, removes
`[5, 7]`. -/
theorem C19_second_pass_removes_more :
    remove_overlaps_of [⟨0, 10⟩, ⟨5, 6⟩, ⟨5, 7⟩] = some [⟨0, 10⟩, ⟨5, 7⟩] ∧
    remove_overlaps_of [⟨0, 10⟩, ⟨5, 7⟩] = some [⟨0, 10⟩] ∧
    ([⟨0, 10⟩] : List interval) ≠ [⟨0, 10⟩, ⟨5, 7⟩] := by
  refine ⟨?_, ?_, ?_⟩ <;> decide

end aho_corasick

namespace aho_corasick

/-! ## The constructor of `node` terminates -/

theorem build_mono :
    ∀ (fuel : Nat) (c : List interval) (n : node), node.build fuel c = some n →
      node.build (fuel + 1) c = some n := by
  intro fuel
  induction fuel with
  | zero => intro c n h; simp [node.build] at h
  | succ k ih =>
    intro c n h
    obtain ⟨l, r, hl, hr, hn⟩ := build_succ k c n h
    have hl2 : (if (to_left (determine_median c) c).length > 0
        then node.build (k + 1) (to_left (determine_median c) c) else some node.null) = some l := by
      by_cases h0 : (to_left (determine_median c) c).length > 0
      · rw [if_pos h0] at hl ⊢; exact ih _ l hl
      · rw [if_neg h0] at hl ⊢; exact hl
    have hr2 : (if (to_right (determine_median c) c).length > 0
        then node.build (k + 1) (to_right (determine_median c) c) else some node.null) = some r := by
      by_cases h0 : (to_right (determine_median c) c).length > 0
      · rw [if_pos h0] at hr ⊢; exact ih _ r hr
      · rw [if_neg h0] at hr ⊢; exact hr
    have e : node.build (k + 1 + 1) c =
        (match (if (to_left (determine_median c) c).length > 0
            then node.build (k + 1) (to_left (determine_median c) c) else some node.null) with
        | none => none
        | some l2 =>
          match (if (to_right (determine_median c) c).length > 0
              then node.build (k + 1) (to_right (determine_median c) c)
              else some node.null) with
          | none => none
          | some r2 =>
            some (node.mk (determine_median c) l2 r2
              (to_here (determine_median c) c))) := rfl
    rw [e, hl2, hr2, hn]

theorem build_mono_le (c : List interval) (n : node) (fuel : Nat)
    (h : node.build fuel c = some n) :
    ∀ more : Nat, node.build (fuel + more) c = some n := by
  intro more
  induction more with
  | zero => exact h
  | succ k ih => exact build_mono (fuel + k) c n ih

/-- C24. For every collection of intervals with `start <= end` and `start + end` in the range
of `size_t`, the constructor of `node` returns: with any bound on the depth of the recursion
above the number of intervals it gives one and the same node. The reason is that, when the
collection is not empty, what goes to the left child and what goes to the right child are
both shorter than the collection: an interval with the largest end does not go left, and one
with the smallest start does not go right. -/
theorem C24_node_constructor_terminates (c : List interval) (hc : well_formed c) :
    (∃ n, ∀ fuel, c.length < fuel → node.build fuel c = some n) ∧
    (c ≠ [] →
      (to_left (determine_median c) c).length < c.length ∧
      (to_right (determine_median c) c).length < c.length ∧
      (∀ i ∈ c, (∀ j ∈ c, j.d_end ≤ i.d_end) → i ∉ to_left (determine_median c) c) ∧
      (∀ i ∈ c, (∀ j ∈ c, i.d_start ≤ j.d_start) → i ∉ to_right (determine_median c) c)) := by
  constructor
  · obtain ⟨n, hn⟩ := build_total (c.length + 1) c hc (by omega)
    refine ⟨n, ?_⟩
    intro fuel hf
    have e : fuel = (c.length + 1) + (fuel - (c.length + 1)) := by omega
    rw [e]
    exact build_mono_le c n _ hn _
  · intro hne
    obtain ⟨⟨a, ha, hap⟩, ⟨b, hb, hbp⟩⟩ := median_between c hc hne
    refine ⟨to_left_shorter c hc hne, to_right_shorter c hc hne, ?_, ?_⟩
    · intro i _ hmax hi
      have h1 := mem_to_left _ _ i hi
      have h2 := hmax b hb
      omega
    · intro i _ hmin hi
      have h1 := mem_to_right _ _ i hi
      have h2 := hmin a ha
      omega

/-- C24 at four intervals. -/
theorem C24_witness :
    well_formed [⟨0, 3⟩, ⟨2, 5⟩, ⟨6, 8⟩, ⟨7, 7⟩] ∧
    (∃ n, ∀ fuel, ([⟨0, 3⟩, ⟨2, 5⟩, ⟨6, 8⟩, ⟨7, 7⟩] : List interval).length < fuel →
      node.build fuel [⟨0, 3⟩, ⟨2, 5⟩, ⟨6, 8⟩, ⟨7, 7⟩] = some n) ∧
    (([⟨0, 3⟩, ⟨2, 5⟩, ⟨6, 8⟩, ⟨7, 7⟩] : List interval) ≠ [] →
      (to_left (determine_median [⟨0, 3⟩, ⟨2, 5⟩, ⟨6, 8⟩, ⟨7, 7⟩])
        [⟨0, 3⟩, ⟨2, 5⟩, ⟨6, 8⟩, ⟨7, 7⟩]).length <
          ([⟨0, 3⟩, ⟨2, 5⟩, ⟨6, 8⟩, ⟨7, 7⟩] : List interval).length ∧
      (to_right (determine_median [⟨0, 3⟩, ⟨2, 5⟩, ⟨6, 8⟩, ⟨7, 7⟩])
        [⟨0, 3⟩, ⟨2, 5⟩, ⟨6, 8⟩, ⟨7, 7⟩]).length <
          ([⟨0, 3⟩, ⟨2, 5⟩, ⟨6, 8⟩, ⟨7, 7⟩] : List interval).length ∧
      (∀ i ∈ ([⟨0, 3⟩, ⟨2, 5⟩, ⟨6, 8⟩, ⟨7, 7⟩] : List interval),
        (∀ j ∈ ([⟨0, 3⟩, ⟨2, 5⟩, ⟨6, 8⟩, ⟨7, 7⟩] : List interval), j.d_end ≤ i.d_end) →
        i ∉ to_left (determine_median [⟨0, 3⟩, ⟨2, 5⟩, ⟨6, 8⟩, ⟨7, 7⟩])
          [⟨0, 3⟩, ⟨2, 5⟩, ⟨6, 8⟩, ⟨7, 7⟩]) ∧
      (∀ i ∈ ([⟨0, 3⟩, ⟨2, 5⟩, ⟨6, 8⟩, ⟨7, 7⟩] : List interval),
        (∀ j ∈ ([⟨0, 3⟩, ⟨2, 5⟩, ⟨6, 8⟩, ⟨7, 7⟩] : List interval), i.d_start ≤ j.d_start) →
        i ∉ to_right (determine_median [⟨0, 3⟩, ⟨2, 5⟩, ⟨6, 8⟩, ⟨7, 7⟩])
          [⟨0, 3⟩, ⟨2, 5⟩, ⟨6, 8⟩, ⟨7, 7⟩])) :=
  ⟨by unfold well_formed; decide,
    C24_node_constructor_terminates [⟨0, 3⟩, ⟨2, 5⟩, ⟨6, 8⟩, ⟨7, 7⟩]
      (by unfold well_formed; decide)⟩

/-- C25. What the range insert does. On an empty range the loop is not entered and the trie
is returned as it is. On a range that holds at least one keyword the test of the loop,
`first != last`, stays true for ever: the loop inserts every keyword of the range and then
reads `*it` behind the end of the range, so the call has no defined result, where calling
`insert` once for each keyword returns. -/
theorem C25_range_insert_reads_past_the_end (t : basic_trie) (p : List Char)
    (ps : List (List Char)) :
    insert_range t [] = some t ∧
    insert_range t (p :: ps) = none ∧
    insert_range (basic_trie.fresh false) ["a".toList] = none ∧
    (∀ b : basic_trie, insert_range_loop true b [] = none) := by
  have key : ∀ (l : List (List Char)) (b : basic_trie), insert_range_loop true b l = none := by
    intro l
    induction l with
    | nil => intro b; rfl
    | cons x rest ih => intro b; simp only [insert_range_loop, if_true]; exact ih _
  refine ⟨rfl, ?_, ?_, fun b => key [] b⟩
  · simp only [insert_range]
    have : decide (p :: ps ≠ []) = true := by simp
    rw [this]
    exact key _ _
  · exact key _ _

end aho_corasick

namespace aho_corasick

/-! ## The states `parse_text` carries from one symbol to the next -/

theorem parse_states_eq (t : basic_trie) (ht : Shallow t) (len : Nat) :
    ∀ (text : List Char) (pos : Nat) (prev : List Nat) (col : List emit),
      parse_states t len text pos prev col = some (active_from t prev (seen t text)) := by
  intro text
  induction text with
  | nil => intro pos prev col; simp [parse_states, active_from, seen]
  | cons c0 rest ih =>
    intro pos prev col
    simp only [parse_states, parse_inner_eq t ht, List.nil_append]
    rw [ih]
    simp [seen, active_from]

theorem prev_states_at_eq (t : basic_trie) (ht : Shallow t) (text : List Char) (k : Nat) :
    prev_states_at t text k = some (active t (seen t (text.take k))) := by
  unfold prev_states_at active
  exact parse_states_eq t ht _ _ _ _ _

theorem moves_length (t : basic_trie) (c : Char) (s : Nat) : (moves t c s).length ≤ 3 := by
  unfold moves
  cases get1 t s c <;> cases get1 t s '+' <;> cases get1 t s '#' <;>
    by_cases hg : ((t.heap s).d_value = '+' && c = '.') = true <;> simp [hg]

theorem step_length (t : basic_trie) (c : Char) :
    ∀ prev : List Nat, (step t c prev).length ≤ 3 * prev.length := by
  intro prev
  induction prev with
  | nil => simp [step]
  | cons s rest ih =>
    have h1 := moves_length t c s
    simp only [step, List.flatMap_cons, List.map_append, List.length_append, List.length_map,
      List.length_cons] at ih ⊢
    omega

theorem active_length (t : basic_trie) :
    ∀ (w : List Char) (prev : List Nat),
      (active_from t prev w).length ≤ 3 ^ w.length * prev.length := by
  intro w
  induction w with
  | nil => intro prev; simp [active_from]
  | cons c cs ih =>
    intro prev
    have e : active_from t prev (c :: cs) = active_from t (step t c prev) cs := rfl
    rw [e]
    have h1 := ih (step t c prev)
    have h2 := step_length t c prev
    have h3 : 3 ^ cs.length * (step t c prev).length ≤ 3 ^ cs.length * (3 * prev.length) :=
      Nat.mul_le_mul_left _ h2
    simp only [List.length_cons, pow_succ]
    calc (active_from t (step t c prev) cs).length
        ≤ 3 ^ cs.length * (step t c prev).length := h1
      _ ≤ 3 ^ cs.length * (3 * prev.length) := h3
      _ = 3 ^ cs.length * 3 * prev.length := by ring

theorem get1_lt (t : basic_trie) (lt : Nat → List Char) (ps : List (List Char))
    (I : Inv t lt ps) (s r : Nat) (x : Char) (h : get1 t s x = some r) : r < t.d_size := by
  rcases get1_cases t s r x h with h1 | ⟨f, _, h1⟩
  · exact (I.next_lt s x r h1).2.1
  · exact (I.next_lt f x r h1).2.1

theorem active_lt (t : basic_trie) (lt : Nat → List Char) (ps : List (List Char))
    (I : Inv t lt ps) :
    ∀ (w : List Char) (prev : List Nat), (∀ s ∈ prev, s < t.d_size) →
      ∀ r ∈ active_from t prev w, r < t.d_size := by
  intro w
  induction w with
  | nil => intro prev h r hr; exact h r (by simpa [active_from] using hr)
  | cons c cs ih =>
    intro prev h r hr
    have e : active_from t prev (c :: cs) = active_from t (step t c prev) cs := rfl
    rw [e] at hr
    refine ih (step t c prev) ?_ r hr
    intro s2 hs2
    obtain ⟨s, _, m, hm, hms⟩ := (mem_step t c prev s2).mp hs2
    rw [← hms]
    rcases mem_moves t s c m hm with h1 | h1 | h1
    · exact get1_lt t lt ps I s m.1 _ h1
    · exact get1_lt t lt ps I s m.1 _ h1
    · exact get1_lt t lt ps I s m.1 _ h1

theorem dedup_length_le (l : List Nat) (n : Nat) (h : ∀ s ∈ l, s < n) : l.dedup.length ≤ n := by
  have h1 : l.dedup ⊆ List.range n := by
    intro x hx
    exact List.mem_range.mpr (h x (List.mem_dedup.mp hx))
  have h2 := (List.subperm_of_subset (List.nodup_dedup l) h1).length_le
  simpa using h2

/-- C21, as the code has it. For every trie built by a sequence of inserts and every text, the
vector of active states that `parse_text` carries after `k` symbols exists and holds states of
the trie only, so no more different ones than the trie has states; the vector is filled by
`push_back` alone and can hold one state several times, and its size is at most `3 ^ k`. -/
theorem C21_active_states_bound (u : Bool) (c : config) (ps : List (List Char))
    (text : List Char) (k : Nat) :
    ∃ l, prev_states_at (insert_all (basic_trie.make u c) ps) text k = some l ∧
      (∀ s ∈ l, s < (insert_all (basic_trie.make u c) ps).d_size) ∧
      l.dedup.length ≤ (insert_all (basic_trie.make u c) ps).d_size ∧
      l.length ≤ 3 ^ k := by
  obtain ⟨lt, qs, I, _⟩ := built_inv u c ps
  refine ⟨_, prev_states_at_eq _ I.shallow text k, ?_, ?_, ?_⟩
  · exact active_lt _ lt qs I _ [0] (by intro s hs; simp at hs; rw [hs]; exact I.size_pos)
  · apply dedup_length_le
    exact active_lt _ lt qs I _ [0] (by intro s hs; simp at hs; rw [hs]; exact I.size_pos)
  · have h1 := active_length (insert_all (basic_trie.make u c) ps)
      (seen (insert_all (basic_trie.make u c) ps) (text.take k)) [0]
    simp only [List.length_singleton, mul_one, seen_length, List.length_take] at h1
    unfold active
    exact le_trans h1 (Nat.pow_le_pow_right (by decide) (Nat.min_le_left _ _))

/-- The trie of the one pattern `#.b` has four states. On the text `a.c.c.c` the vector
carried by `parse_text` holds the state behind `#` twice after three symbols, four times
after five and eight times after all seven: one state is held more than once, and the vector
is larger than the trie. -/
theorem C21_counterexample :
    (insert (basic_trie.fresh false) "#.b".toList).d_size = 4 ∧
    prev_states_at (insert (basic_trie.fresh false) "#.b".toList) "a.c.c.c".toList 3 =
      some [1, 1] ∧
    prev_states_at (insert (basic_trie.fresh false) "#.b".toList) "a.c.c.c".toList 5 =
      some [1, 1, 1, 1] ∧
    prev_states_at (insert (basic_trie.fresh false) "#.b".toList) "a.c.c.c".toList 7 =
      some [1, 1, 1, 1, 1, 1, 1, 1] ∧
    prev_states_at (insert (basic_trie.fresh true) "#.b".toList) "a.c.c.c".toList 7 =
      some [1, 1, 1, 1, 1, 1, 1, 1] ∧
    ¬ ([1, 1, 1, 1, 1, 1, 1, 1] : List Nat).Nodup ∧
    (insert (basic_trie.fresh false) "#.b".toList).d_size <
      ([1, 1, 1, 1, 1, 1, 1, 1] : List Nat).length := by
  refine ⟨?_, ?_, ?_, ?_, ?_, ?_, ?_⟩ <;> decide

end aho_corasick

namespace aho_corasick

/-! ## Depth of the state a pattern ends in -/

theorem success_step (t0 : basic_trie) (ps : List (List Char)) (v : insert_vars) (ch : Char)
    (q : List Char) (lt : Nat → List Char) (hI : LoopInv t0 ps v q lt) (s : Nat) (c : Char)
    (r : Nat) (h : (v.trie.heap s).d_success c = some r) :
    ((insert_step v ch).trie.heap s).d_success c = some r := by
  obtain ⟨t, cur, lmw⟩ := v
  have I := hI.inv
  simp only at I h
  have hcur : cur < t.d_size := hI.cur_lt
  cases h2 : (t.heap cur).d_success ch with
  | none =>
    rw [insert_step_new t cur ch lmw h2 (by omega)]
    have hs : s ≠ t.d_size := by
      have := (I.next_lt s c r h).1
      omega
    simp only
    rw [grown_success t cur ch lmw s c hs]
    have hne : ¬ (s = cur ∧ c = ch) := by
      rintro ⟨e1, e2⟩
      rw [e1, e2, h2] at h
      simp at h
    rw [if_neg hne]
    exact h
  | some r2 =>
    have hv : (t.heap r2).d_value = ch := I.next_value cur ch r2 h2
    have hloop : is_wild ch = true → (t.heap r2).d_success ch = some r2 := by
      intro hw
      have := I.self_loop r2 (by rw [hv]; exact hw)
      rwa [hv] at this
    rw [insert_step_old t cur ch lmw r2 h2 hloop]
    simp only
    rw [relinked_success]
    exact h

theorem success_fold (t0 : basic_trie) (ps : List (List Char)) :
    ∀ (rest : List Char) (v : insert_vars) (q : List Char) (lt : Nat → List Char),
      LoopInv t0 ps v q lt → ∀ s c r, (v.trie.heap s).d_success c = some r →
        ((rest.foldl insert_step v).trie.heap s).d_success c = some r := by
  intro rest
  induction rest with
  | nil => intro v q lt _ s c r h; exact h
  | cons x xs ih =>
    intro v q lt hI s c r h
    obtain ⟨lt1, h1⟩ := loop_step t0 ps v x q lt hI
    exact ih (insert_step v x) (q ++ [x]) lt1 h1 s c r (success_step t0 ps v x q lt hI s c r h)

/-- The call `insert` keeps every transition that is there. -/
theorem insert_success (t : basic_trie) (ps : List (List Char)) (lt : Nat → List Char)
    (I : Inv t lt ps) (kw : List Char) (s : Nat) (c : Char) (r : Nat)
    (h : (t.heap s).d_success c = some r) : ((insert t kw).heap s).d_success c = some r := by
  by_cases hk : kw = []
  · subst hk; rw [insert_nil]; exact h
  · obtain ⟨lt2, hI⟩ := insert_loop_inv t ps lt I kw
    have hc := loop_cur_ne_zero t ps _ kw lt2 hI hk
    have h1 : ((insert_loop t kw).trie.heap s).d_success c = some r := by
      have := success_fold t ps kw _ [] lt (loop_start t ps lt I) s c r h
      simpa [insert_loop] using this
    rw [insert_heap t kw hk hc]
    split_ifs <;> exact h1

/-- In a trie built by a sequence of inserts every keyword of the sequence can be followed
from the root. -/
theorem built_walks (u : Bool) (c : config) :
    ∀ ps : List (List Char), ∃ lt qs,
      Inv (insert_all (basic_trie.make u c) ps) lt qs ∧ (∀ p ∈ qs, p ∈ ps) ∧
      (∀ p ∈ ps, ∃ s, walk (insert_all (basic_trie.make u c) ps) 0 p = some s) := by
  intro ps
  induction ps using List.reverseRecOn with
  | nil => exact ⟨_, [], inv_make u c, by simp, by simp⟩
  | append_singleton rest p ih =>
    obtain ⟨lt, qs, I, hsub, hwalk⟩ := ih
    have e : insert_all (basic_trie.make u c) (rest ++ [p]) =
        insert (insert_all (basic_trie.make u c) rest) p := by
      simp [insert_all, List.foldl_append]
    rw [e]
    by_cases hp : p = []
    · subst hp
      rw [insert_nil]
      refine ⟨lt, qs, I, fun x hx => by simp [hsub x hx], ?_⟩
      intro x hx
      rcases List.mem_append.mp hx with h1 | h1
      · exact hwalk x h1
      · simp only [List.mem_singleton] at h1
        subst h1
        exact ⟨0, rfl⟩
    · obtain ⟨lt2, I2, hw, _, _⟩ := insert_inv _ qs lt I p hp
      refine ⟨lt2, _, I2, ?_, ?_⟩
      · intro x hx
        rcases List.mem_append.mp hx with h1 | h1
        · simp [hsub x h1]
        · simp only [List.mem_singleton] at h1; simp [h1]
      · intro x hx
        rcases List.mem_append.mp hx with h1 | h1
        · obtain ⟨s, hs⟩ := hwalk x h1
          exact ⟨s, walk_mono _ _ (fun s2 c2 r2 h2 => insert_success _ qs lt I p s2 c2 r2 h2)
            x 0 s hs⟩
        · simp only [List.mem_singleton] at h1
          subst h1
          exact ⟨_, hw⟩

/-- The state at the end of a path from the root has the value and the depth that
`walk_shape` computes from the symbols of the path. -/
theorem walk_shape_of_walk (t : basic_trie) (lt : Nat → List Char) (ps : List (List Char))
    (I : Inv t lt ps) :
    ∀ (w : List Char) (s : Nat), walk t 0 w = some s →
      ((t.heap s).d_value, (t.heap s).d_depth) = walk_shape w := by
  intro w
  induction w using List.reverseRecOn with
  | nil =>
    intro s h
    simp only [walk, Option.some.injEq] at h
    subst h
    simp [walk_shape, I.root_value, I.root_depth]
  | append_singleton rest c ih =>
    intro s h
    obtain ⟨q, hq, hqc⟩ := walk_snoc_inv t rest c 0 s h
    have hv := I.next_value q c s hqc
    have ihq := ih q hq
    rw [walk_shape_snoc, ← ihq]
    simp only [shape_step, Prod.mk.injEq]
    refine ⟨hv, ?_⟩
    by_cases hw : (is_wild c && c == (t.heap q).d_value) = true
    · rw [if_pos hw]
      simp only [Bool.and_eq_true, beq_iff_eq] at hw
      have hl := I.self_loop q (by rw [← hw.2]; exact hw.1)
      rw [← hw.2, hqc] at hl
      simp only [Option.some.injEq] at hl
      rw [hl]
    · rw [if_neg hw]
      rcases I.next_depth q c s hqc with h1 | h1
      · exfalso
        have ht := I.next_tail q c s hqc
        rw [h1] at ht
        have hwild := tail_step_ne_self (lt q) c ht
        apply hw
        simp only [Bool.and_eq_true, beq_iff_eq]
        refine ⟨hwild, ?_⟩
        rw [← h1, hv]
      · exact h1

theorem walk_shape_last (q : List Char) (d : Char) : (walk_shape (q ++ [d])).1 = d := by
  rw [walk_shape_snoc]
  rfl

/-- A keyword in which no wildcard symbol follows itself ends in a state as deep as the
keyword is long. -/
theorem walk_shape_length :
    ∀ p : List Char, ¬ ['+', '+'] <:+: p → ¬ ['#', '#'] <:+: p →
      (walk_shape p).2 = p.length := by
  intro p
  induction p using List.reverseRecOn with
  | nil => intro _ _; rfl
  | append_singleton q c ih =>
    intro h1 h2
    have g1 : ¬ ['+', '+'] <:+: q := fun h => h1 (h.trans (List.prefix_append q [c]).isInfix)
    have g2 : ¬ ['#', '#'] <:+: q := fun h => h2 (h.trans (List.prefix_append q [c]).isInfix)
    have ihq := ih g1 g2
    rw [walk_shape_snoc]
    simp only [shape_step, List.length_append, List.length_singleton]
    by_cases hw : (is_wild c && c == (walk_shape q).1) = true
    · exfalso
      simp only [Bool.and_eq_true, beq_iff_eq] at hw
      rcases List.eq_nil_or_concat q with hq | ⟨q2, d, hq⟩
      · subst hq
        have : (walk_shape []).1 = Char.ofNat 0 := rfl
        rw [this] at hw
        have hn : is_wild (Char.ofNat 0) = false := by decide
        rw [← hw.2] at hn
        rw [hn] at hw
        exact absurd hw.1 (by simp)
      · have hq2 : q = q2 ++ [d] := by simpa using hq
        subst hq2
        rw [walk_shape_last] at hw
        have hcd : c = d := hw.2
        subst hcd
        have hin : [c, c] <:+: q2 ++ [c] ++ [c] := ⟨q2, [], by simp⟩
        rcases (is_wild_iff c).mp hw.1 with hc | hc
        · subst hc; exact h1 hin
        · subst hc; exact h2 hin
    · rw [if_neg hw, ihq]

/-- C23. Patterns in which neither `++` nor `##` occurs, inserted in any order into a trie of
either configuration, and a text of a length a `size_t` can hold. The states `parse_text`
carries after `k` symbols are at most `k` deep; every pattern can be followed from the root
and ends in a state as deep as the pattern is long; and `parse_text` returns emits whose
keyword is no longer than the text and whose start is `pos - len(keyword) + 1` without
wrap-around, `pos` being the end of the emit, the last position of the text. -/
theorem C23_no_start_wrap_around (u : Bool) (c : config) (ps : List (List Char))
    (text : List Char)
    (hps : ∀ p ∈ ps, ¬ ['+', '+'] <:+: p ∧ ¬ ['#', '#'] <:+: p)
    (hlen : text.length < SIZE_MOD) :
    (∀ k, ∃ l, prev_states_at (insert_all (basic_trie.make u c) ps) text k = some l ∧
      ∀ s ∈ l, ((insert_all (basic_trie.make u c) ps).heap s).d_depth ≤ k) ∧
    (∀ p ∈ ps, ∃ s, walk (insert_all (basic_trie.make u c) ps) 0 p = some s ∧
      ((insert_all (basic_trie.make u c) ps).heap s).d_depth = p.length) ∧
    ∃ res, parse_text (insert_all (basic_trie.make u c) ps) text = some res ∧
      ∀ e ∈ res, e.d_keyword.length ≤ text.length ∧ e.d_end + 1 = text.length ∧
        e.d_start + e.d_keyword.length = e.d_end + 1 := by
  obtain ⟨lt, qs, I, hsub, hwalk⟩ := built_walks u c ps
  have hroot : ∀ s ∈ [0], ((insert_all (basic_trie.make u c) ps).heap s).d_depth ≤ 0 := by
    intro s hs
    simp only [List.mem_singleton] at hs
    rw [hs, I.root_depth]
  refine ⟨?_, ?_, ?_⟩
  · intro k
    refine ⟨_, prev_states_at_eq _ I.shallow text k, ?_⟩
    intro s hs
    have := active_depth _ lt qs I _ 0 [0] hroot s hs
    simp only [seen_length, List.length_take] at this
    omega
  · intro p hp
    obtain ⟨s, hs⟩ := hwalk p hp
    refine ⟨s, hs, ?_⟩
    have h1 := walk_shape_of_walk _ lt qs I p s hs
    have h2 := walk_shape_length p (hps p hp).1 (hps p hp).2
    rw [← h1] at h2
    exact h2
  · obtain ⟨res, hres⟩ := parse_text_total _ I.shallow text
    refine ⟨res, hres, ?_⟩
    intro e he
    obtain ⟨w, ch, hseen, s, hs, m, hm, _, k, hk, hx⟩ :=
      parse_text_mem _ I.shallow text res e hres he
    have hl : text.length = w.length + 1 := by
      rw [← seen_length (insert_all (basic_trie.make u c) ps) text, hseen]
      simp
    have hact := active_move _ [0] w ch s m hs hm
    have hdep := active_depth _ lt qs I _ 0 [0] hroot m.1 hact
    simp only [List.length_append, List.length_singleton] at hdep
    have hok := I.emits_ok m.1 k hk
    have hq := hps k.1 (hsub k.1 hok.1)
    have hsh := walk_shape_length k.1 hq.1 hq.2
    rw [← hok.2.2.2.1] at hsh
    simp only at hsh
    have hkl : k.1.length ≤ w.length + 1 := by omega
    rw [hx]
    simp only [emit_at, emit.make]
    rw [size_span w.length k.1.length (by omega) hkl]
    omega

/-- C23 at the patterns `im.#.bond` and `hi.+.there` and the text `im.james.bond`. -/
theorem C23_witness :
    (∀ p ∈ ["im.#.bond".toList, "hi.+.there".toList],
      ¬ ['+', '+'] <:+: p ∧ ¬ ['#', '#'] <:+: p) ∧
    "im.james.bond".toList.length < SIZE_MOD ∧
    (∀ k, ∃ l, prev_states_at (insert_all (basic_trie.make false { d_case_insensitive := false })
        ["im.#.bond".toList, "hi.+.there".toList]) "im.james.bond".toList k = some l ∧
      ∀ s ∈ l, ((insert_all (basic_trie.make false { d_case_insensitive := false })
        ["im.#.bond".toList, "hi.+.there".toList]).heap s).d_depth ≤ k) ∧
    (∀ p ∈ ["im.#.bond".toList, "hi.+.there".toList],
      ∃ s, walk (insert_all (basic_trie.make false { d_case_insensitive := false })
        ["im.#.bond".toList, "hi.+.there".toList]) 0 p = some s ∧
      ((insert_all (basic_trie.make false { d_case_insensitive := false })
        ["im.#.bond".toList, "hi.+.there".toList]).heap s).d_depth = p.length) ∧
    ∃ res, parse_text (insert_all (basic_trie.make false { d_case_insensitive := false })
        ["im.#.bond".toList, "hi.+.there".toList]) "im.james.bond".toList = some res ∧
      ∀ e ∈ res, e.d_keyword.length ≤ "im.james.bond".toList.length ∧
        e.d_end + 1 = "im.james.bond".toList.length ∧
        e.d_start + e.d_keyword.length = e.d_end + 1 :=
  ⟨by decide, by decide,
    C23_no_start_wrap_around false { d_case_insensitive := false }
      ["im.#.bond".toList, "hi.+.there".toList] "im.james.bond".toList
      (by decide) (by decide)⟩

end aho_corasick

namespace aho_corasick

/-! ## `remove_overlaps` on intervals with distinct starts -/

theorem mem_find_overlaps (c : List interval) (fuel : Nat) (tree : node)
    (ht : node.build fuel c = some tree) (q : interval) (hq : q.d_start ≤ q.d_end)
    (x : interval) : x ∈ find_overlaps tree q ↔ x ∈ c ∧ overlaps_other q x = true := by
  rw [(find_overlaps_perm q hq fuel c tree ht).mem_iff, List.mem_filter]

theorem iv_set_insert_keeps (x y : interval) :
    ∀ s : List interval, y ∈ s → y ∈ iv_set_insert x s := by
  intro s
  induction s with
  | nil => intro h; simp at h
  | cons z zs ih =>
    intro h
    simp only [iv_set_insert]
    split_ifs
    · exact List.mem_cons_of_mem _ h
    · rcases List.mem_cons.mp h with h1 | h1
      · simp [h1]
      · exact List.mem_cons_of_mem _ (ih h1)
    · exact h

theorem iv_set_insert_adds (x : interval) :
    ∀ s : List interval, x ∈ iv_set_insert x s ∨ ∃ y ∈ s, y.d_start = x.d_start := by
  intro s
  induction s with
  | nil => left; simp [iv_set_insert]
  | cons z zs ih =>
    simp only [iv_set_insert]
    split_ifs with h1 h2
    · left; simp
    · rcases ih with h3 | ⟨y, hy, hys⟩
      · left; exact List.mem_cons_of_mem _ h3
      · right; exact ⟨y, List.mem_cons_of_mem _ hy, hys⟩
    · right
      exact ⟨z, by simp, by omega⟩

theorem mem_iv_set_insert_iff (c : List interval)
    (inj : ∀ a ∈ c, ∀ b ∈ c, a.d_start = b.d_start → a = b)
    (s : List interval) (hs : ∀ x ∈ s, x ∈ c) (o : interval) (ho : o ∈ c) (x : interval) :
    x ∈ iv_set_insert o s ↔ x = o ∨ x ∈ s := by
  constructor
  · exact mem_iv_set_insert o x s
  · rintro (h | h)
    · subst h
      rcases iv_set_insert_adds x s with h1 | ⟨y, hy, hys⟩
      · exact h1
      · have : y = x := inj y (hs y hy) x ho hys
        rw [← this]
        exact iv_set_insert_keeps _ y s hy
    · exact iv_set_insert_keeps o x s h

theorem mem_insert_fold (c : List interval)
    (inj : ∀ a ∈ c, ∀ b ∈ c, a.d_start = b.d_start → a = b) :
    ∀ (os s0 : List interval), (∀ x ∈ os, x ∈ c) → (∀ x ∈ s0, x ∈ c) →
      ∀ x, x ∈ os.foldl (fun s overlap => iv_set_insert overlap s) s0 ↔ x ∈ s0 ∨ x ∈ os := by
  intro os
  induction os with
  | nil => intro s0 _ _ x; simp
  | cons o rest ih =>
    intro s0 ho hs x
    simp only [List.foldl_cons]
    have hs1 : ∀ y ∈ iv_set_insert o s0, y ∈ c := by
      intro y hy
      rcases mem_iv_set_insert o y s0 hy with h1 | h1
      · rw [h1]; exact ho o (by simp)
      · exact hs y h1
    rw [ih (iv_set_insert o s0) (fun y hy => ho y (by simp [hy])) hs1 x,
      mem_iv_set_insert_iff c inj s0 hs o (ho o (by simp)) x]
    simp only [List.mem_cons]
    tauto

theorem iv_set_has_iff (c : List interval)
    (inj : ∀ a ∈ c, ∀ b ∈ c, a.d_start = b.d_start → a = b)
    (s : List interval) (hs : ∀ x ∈ s, x ∈ c) (i : interval) (hi : i ∈ c) :
    iv_set_has s i = true ↔ i ∈ s := by
  simp only [iv_set_has, List.any_eq_true, decide_eq_true_eq]
  constructor
  · rintro ⟨y, hy, hys⟩
    have : y = i := inj y (hs y hy) i hi hys
    rw [← this]; exact hy
  · intro h; exact ⟨i, h, rfl⟩

/-- What one pass of the first loop of `remove_overlaps` leaves in the set, when the starts
of the collection are distinct. -/
theorem mem_mark_overlaps (c : List interval) (fuel : Nat) (tree : node)
    (ht : node.build fuel c = some tree) (hse : ∀ i ∈ c, i.d_start ≤ i.d_end)
    (inj : ∀ a ∈ c, ∀ b ∈ c, a.d_start = b.d_start → a = b)
    (s : List interval) (hs : ∀ x ∈ s, x ∈ c) (i : interval) (hi : i ∈ c) (x : interval) :
    x ∈ mark_overlaps tree s i ↔ x ∈ s ∨ (i ∉ s ∧ x ∈ c ∧ overlaps_other i x = true) := by
  unfold mark_overlaps
  by_cases h : i ∈ s
  · rw [if_pos ((iv_set_has_iff c inj s hs i hi).mpr h)]
    simp [h]
  · have h2 : ¬ iv_set_has s i = true := fun hh => h ((iv_set_has_iff c inj s hs i hi).mp hh)
    rw [if_neg h2]
    rw [mem_insert_fold c inj _ s
      (fun y hy => ((mem_find_overlaps c fuel tree ht i (hse i hi) y).mp hy).1) hs x,
      mem_find_overlaps c fuel tree ht i (hse i hi) x]
    simp [h]

theorem overlaps_other_symm (a b : interval) : overlaps_other a b = overlaps_other b a := by
  simp only [overlaps_other]
  by_cases h1 : b.d_start ≤ a.d_end <;> by_cases h2 : b.d_end ≥ a.d_start <;>
    by_cases h3 : a = b <;> simp [h1, h2, h3, eq_comm]

theorem overlaps_of_other (a b : interval) (h : overlaps_other a b = true) :
    a.overlaps_with b = true ∧ b ≠ a := by
  simp only [overlaps_other, Bool.and_eq_true, decide_eq_true_eq] at h
  simp only [interval.overlaps_with, Bool.and_eq_true, decide_eq_true_eq]
  exact ⟨⟨h.1.2, h.1.1⟩, h.2⟩

theorem marked_step (c : List interval) (fuel : Nat) (tree : node)
    (ht : node.build fuel c = some tree) (hse : ∀ i ∈ c, i.d_start ≤ i.d_end)
    (inj : ∀ a ∈ c, ∀ b ∈ c, a.d_start = b.d_start → a = b)
    (done rt post : List interval) (i : interval) (hi : i ∈ c)
    (hcover : ∀ x ∈ c, x ∈ done ∨ x = i ∨ x ∈ post)
    (hsize : ∀ x ∈ post, x.size ≤ i.size) (M : Marked c done rt) :
    Marked c (done ++ [i]) (mark_overlaps tree rt i) := by
  have hmem := mem_mark_overlaps c fuel tree ht hse inj rt M.sub i hi
  have hself : overlaps_other i i = false := by simp [overlaps_other]
  by_cases hin : i ∈ rt
  · have e : ∀ x, x ∈ mark_overlaps tree rt i ↔ x ∈ rt := by
      intro x; rw [hmem]; simp [hin]
    refine { sub := ?_, cause := ?_, closed := ?_ }
    · intro r hr; exact M.sub r ((e r).mp hr)
    · intro r hr
      obtain ⟨k, hk, hk2, hk3, hk4⟩ := M.cause r ((e r).mp hr)
      exact ⟨k, by simp [hk], fun hh => hk2 ((e k).mp hh), hk3, hk4⟩
    · intro k hk hk2 x hx hov
      have hk3 : k ∉ rt := fun hh => hk2 ((e k).mpr hh)
      rcases List.mem_append.mp hk with h1 | h1
      · exact (e x).mpr (M.closed k h1 hk3 x hx hov)
      · simp only [List.mem_singleton] at h1
        rw [h1] at hk3
        exact absurd hin hk3
  · have keep : ∀ k ∈ done, k ∉ rt → k ∉ mark_overlaps tree rt i := by
      intro k hk hk2 hh
      rcases (hmem k).mp hh with h1 | ⟨_, hkc, hov⟩
      · exact hk2 h1
      · rw [overlaps_other_symm] at hov
        exact hin (M.closed k hk hk2 i hi hov)
    have iout : i ∉ mark_overlaps tree rt i := by
      intro hh
      rcases (hmem i).mp hh with h1 | ⟨_, _, hov⟩
      · exact hin h1
      · rw [hself] at hov; exact absurd hov (by simp)
    refine { sub := ?_, cause := ?_, closed := ?_ }
    · intro r hr
      rcases (hmem r).mp hr with h1 | ⟨_, hrc, _⟩
      · exact M.sub r h1
      · exact hrc
    · intro r hr
      by_cases hr2 : r ∈ rt
      · obtain ⟨k, hk, hk2, hk3, hk4⟩ := M.cause r hr2
        exact ⟨k, by simp [hk], keep k hk hk2, hk3, hk4⟩
      · rcases (hmem r).mp hr with h1 | ⟨_, hrc, hov⟩
        · exact absurd h1 hr2
        · obtain ⟨hov2, hne⟩ := overlaps_of_other i r hov
          refine ⟨i, by simp, iout, hov2, ?_⟩
          rcases hcover r hrc with h1 | h1 | h1
          · exfalso
            rw [overlaps_other_symm] at hov
            exact hin (M.closed r h1 hr2 i hi hov)
          · exact absurd h1 hne
          · exact hsize r h1
    · intro k hk hk2 x hx hov
      rcases List.mem_append.mp hk with h1 | h1
      · have hk3 : k ∉ rt := fun hh => hk2 ((hmem k).mpr (Or.inl hh))
        exact (hmem x).mpr (Or.inl (M.closed k h1 hk3 x hx hov))
      · simp only [List.mem_singleton] at h1
        subst h1
        exact (hmem x).mpr (Or.inr ⟨hin, hx, hov⟩)

theorem marked_fold (c : List interval) (fuel : Nat) (tree : node)
    (ht : node.build fuel c = some tree) (hse : ∀ i ∈ c, i.d_start ≤ i.d_end)
    (inj : ∀ a ∈ c, ∀ b ∈ c, a.d_start = b.d_start → a = b) :
    ∀ (post done rt : List interval), post.Pairwise (fun a b => b.size ≤ a.size) →
      (∀ x ∈ post, x ∈ c) → (∀ x ∈ c, x ∈ done ∨ x ∈ post) → Marked c done rt →
      Marked c (done ++ post) (post.foldl (mark_overlaps tree) rt) := by
  intro post
  induction post with
  | nil => intro done rt _ _ _ M; simpa using M
  | cons i rest ih =>
    intro done rt hp hsub hcover M
    have hpc := List.pairwise_cons.mp hp
    have M1 := marked_step c fuel tree ht hse inj done rt rest i (hsub i (by simp))
      (fun x hx => by
        rcases hcover x hx with h1 | h1
        · exact Or.inl h1
        · rcases List.mem_cons.mp h1 with h2 | h2
          · exact Or.inr (Or.inl h2)
          · exact Or.inr (Or.inr h2))
      hpc.1 M
    have := ih (done ++ [i]) (mark_overlaps tree rt i) hpc.2
      (fun x hx => hsub x (by simp [hx]))
      (fun x hx => by
        rcases hcover x hx with h1 | h1
        · exact Or.inl (by simp [h1])
        · rcases List.mem_cons.mp h1 with h2 | h2
          · exact Or.inl (by simp [h2])
          · exact Or.inr h2)
      M1
    simpa using this

theorem size_lt (i : interval) : i.size < SIZE_MOD := by
  unfold interval.size size_add
  exact Nat.mod_lt _ (by decide)

theorem size_sub_eq_zero (x y : Nat) (hx : x < SIZE_MOD) (hy : y < SIZE_MOD) :
    size_sub x y = 0 ↔ x = y := by
  simp only [size_sub, SIZE_MOD] at *
  norm_num at *
  omega

theorem by_size_false (a b : interval) :
    by_size b a = false ↔ (b.size < a.size ∨ (b.size = a.size ∧ b.d_start ≤ a.d_start)) := by
  unfold by_size
  by_cases h : size_sub a.size b.size = 0
  · rw [if_pos h]
    have := (size_sub_eq_zero _ _ (size_lt a) (size_lt b)).mp h
    simp only [decide_eq_false_iff_not]
    omega
  · rw [if_neg h]
    have : a.size ≠ b.size := fun e => h ((size_sub_eq_zero _ _ (size_lt a) (size_lt b)).mpr e)
    simp only [decide_eq_false_iff_not]
    omega

theorem std_sort_by_size_sorted (l : List interval) :
    (std_sort by_size l).Pairwise (fun a b => b.size ≤ a.size) := by
  have ht : IsTotal interval (fun a b => by_size b a = false) :=
    ⟨fun a b => by rw [by_size_false, by_size_false]; omega⟩
  have htr : IsTrans interval (fun a b => by_size b a = false) :=
    ⟨fun a b c h1 h2 => by
      rw [by_size_false] at *; omega⟩
  have := @List.sorted_insertionSort interval (fun a b => by_size b a = false) _ ht htr l
  refine List.Pairwise.imp ?_ this
  intro a b h
  rw [by_size_false] at h
  omega

theorem erase_fold_mem (s : List interval) :
    ∀ l : List interval, l.Nodup → s.Pairwise (fun a b => a.d_start < b.d_start) →
      (∀ x ∈ s, x ∈ l) →
      ∃ l2, s.foldl erase_found (some l) = some l2 ∧ l2.Nodup ∧
        ∀ x, x ∈ l2 ↔ x ∈ l ∧ x ∉ s := by
  induction s with
  | nil => intro l hl _ _; exact ⟨l, rfl, hl, by simp⟩
  | cons x rest ih =>
    intro l hl hp hm
    have hx : x ∈ l := hm x (by simp)
    have hpc := List.pairwise_cons.mp hp
    have e : (x :: rest).foldl erase_found (some l) =
        rest.foldl erase_found (some (l.erase x)) := by
      simp [List.foldl_cons, erase_found, hx]
    rw [e]
    obtain ⟨l2, h1, h2, h3⟩ := ih (l.erase x) (hl.erase x) hpc.2 (by
      intro y hy
      have hne : y ≠ x := by
        intro e2
        have := hpc.1 y hy
        rw [e2] at this
        omega
      exact (List.mem_erase_of_ne hne).mpr (hm y (by simp [hy])))
    refine ⟨l2, h1, h2, ?_⟩
    intro y
    rw [h3 y, hl.mem_erase_iff]
    simp only [List.mem_cons, not_or]
    tauto

/-- A collection `c` of intervals with `start <= end` and with starts that are pairwise
distinct, and a tree the constructor returned for it. Then `remove_overlaps(c)` returns
intervals of `c`, no two of which overlap, and every interval of `c` that is not returned
overlaps a returned one whose `size()` is at least its own. -/
theorem remove_overlaps_distinct_of (c : List interval) (tree : node)
    (hse : ∀ i ∈ c, i.d_start ≤ i.d_end)
    (hd : c.Pairwise (fun a b => a.d_start ≠ b.d_start))
    (ht : interval_tree.make c = some tree) :
    ∃ res, remove_overlaps tree c = some res ∧
      (∀ x ∈ res, x ∈ c) ∧
      res.Pairwise (fun a b => a.overlaps_with b = false) ∧
      ∀ i ∈ c, i ∉ res → ∃ j ∈ res, i.overlaps_with j = true ∧ i.size ≤ j.size := by
  have inj : ∀ a ∈ c, ∀ b ∈ c, a.d_start = b.d_start → a = b := by
    intro a ha b hb hab
    by_contra hne
    exact (List.Pairwise.forall (fun x y h => Ne.symm h) hd) ha hb hne hab
  have hnd : c.Nodup := by
    refine List.Pairwise.imp ?_ hd
    intro a b h e
    exact h (by rw [e])
  have hperm := std_sort_perm by_size c
  have hLnd : (std_sort by_size c).Nodup := hperm.nodup_iff.mpr hnd
  have M := marked_fold c _ tree ht hse inj (std_sort by_size c) [] []
    (std_sort_by_size_sorted c) (fun x hx => hperm.subset hx)
    (fun x hx => Or.inr (hperm.symm.subset hx))
    { sub := by simp, cause := by simp, closed := by simp }
  simp only [List.nil_append] at M
  obtain ⟨h1, h2⟩ := mark_fold_inv tree c _ ht (std_sort by_size c) [] (by simp) (by simp)
  obtain ⟨l2, h3, h4, h5⟩ := erase_fold_mem _ (std_sort by_size c) hLnd h2
    (fun x hx => hperm.symm.subset (h1 x hx))
  have hres : ∀ x, x ∈ std_sort by_start l2 ↔
      x ∈ c ∧ x ∉ (std_sort by_size c).foldl (mark_overlaps tree) [] := by
    intro x
    rw [(std_sort_perm by_start l2).mem_iff, h5 x, hperm.mem_iff]
  have hrnd : (std_sort by_start l2).Nodup := (std_sort_perm by_start l2).nodup_iff.mpr h4
  refine ⟨std_sort by_start l2, ?_, ?_, ?_, ?_⟩
  · simp only [remove_overlaps, h3, Option.map_some']
  · intro x hx; exact ((hres x).mp hx).1
  · apply hrnd.pairwise_of_forall_ne
    intro a ha b hb hne
    obtain ⟨hac, haout⟩ := (hres a).mp ha
    obtain ⟨hbc, hbout⟩ := (hres b).mp hb
    by_contra hov
    have hov2 : a.overlaps_with b = true := by simpa using hov
    apply hbout
    apply M.closed a (hperm.symm.subset hac) haout b hbc
    simp only [interval.overlaps_with, Bool.and_eq_true, decide_eq_true_eq] at hov2
    simp only [overlaps_other, Bool.and_eq_true, decide_eq_true_eq]
    exact ⟨⟨hov2.2, hov2.1⟩, fun e => hne e.symm⟩
  · intro i hic hi
    have hin : i ∈ (std_sort by_size c).foldl (mark_overlaps tree) [] := by
      by_contra hh
      exact hi ((hres i).mpr ⟨hic, hh⟩)
    obtain ⟨k, hk, hk2, hk3, hk4⟩ := M.cause i hin
    refine ⟨k, (hres k).mpr ⟨hperm.subset hk, hk2⟩, ?_, hk4⟩
    simp only [interval.overlaps_with, Bool.and_eq_true, decide_eq_true_eq] at hk3 ⊢
    exact ⟨hk3.2, hk3.1⟩

/-- C22, as the code has it. For every collection `c` of intervals with `start <= end` and
`start + end` in the range of `size_t`, whose starts are pairwise distinct, the constructor
returns a tree, and on that tree `remove_overlaps(c)` returns intervals of `c`, no two of
which overlap; every interval of `c` that is not returned overlaps a returned one whose
`size()`, which is `end - start + 1` as a `size_t`, is at least its own. -/
theorem C22_remove_overlaps_distinct_starts (c : List interval) (hc : well_formed c)
    (hd : c.Pairwise (fun a b => a.d_start ≠ b.d_start)) :
    ∃ tree, interval_tree.make c = some tree ∧
      ∃ res, remove_overlaps tree c = some res ∧
        (∀ x ∈ res, x ∈ c) ∧
        res.Pairwise (fun a b => a.overlaps_with b = false) ∧
        ∀ i ∈ c, i ∉ res → ∃ j ∈ res, i.overlaps_with j = true ∧ i.size ≤ j.size := by
  obtain ⟨tree, ht⟩ := make_total c hc
  exact ⟨tree, ht, remove_overlaps_distinct_of c tree (fun i hi => (hc i hi).1) hd ht⟩

/-- C22 at four intervals. -/
theorem C22_witness :
    well_formed [⟨0, 3⟩, ⟨2, 5⟩, ⟨6, 8⟩, ⟨7, 7⟩] ∧
    ([⟨0, 3⟩, ⟨2, 5⟩, ⟨6, 8⟩, ⟨7, 7⟩] : List interval).Pairwise
      (fun a b => a.d_start ≠ b.d_start) ∧
    ∃ tree, interval_tree.make [⟨0, 3⟩, ⟨2, 5⟩, ⟨6, 8⟩, ⟨7, 7⟩] = some tree ∧
      ∃ res, remove_overlaps tree [⟨0, 3⟩, ⟨2, 5⟩, ⟨6, 8⟩, ⟨7, 7⟩] = some res ∧
        (∀ x ∈ res, x ∈ ([⟨0, 3⟩, ⟨2, 5⟩, ⟨6, 8⟩, ⟨7, 7⟩] : List interval)) ∧
        res.Pairwise (fun a b => a.overlaps_with b = false) ∧
        ∀ i ∈ ([⟨0, 3⟩, ⟨2, 5⟩, ⟨6, 8⟩, ⟨7, 7⟩] : List interval), i ∉ res →
          ∃ j ∈ res, i.overlaps_with j = true ∧ i.size ≤ j.size :=
  ⟨by unfold well_formed; decide, by decide,
    C22_remove_overlaps_distinct_starts [⟨0, 3⟩, ⟨2, 5⟩, ⟨6, 8⟩, ⟨7, 7⟩]
      (by unfold well_formed; decide) (by decide)⟩

end aho_corasick

namespace aho_corasick

/-! ## Where the counter wraps, the query is reversed, or the tree is never built -/

theorem num_keywords_replicate (n : Nat) (p : List Char) (hp : p ≠ []) :
    num_keywords (List.replicate n p) = n := by
  induction n with
  | zero => rfl
  | succ k ih =>
    rw [List.replicate_succ', num_keywords_snoc, if_neg hp, ih]

/-- The index of the emit that `insert` enters for a keyword that was not inserted before is
the number of keywords inserted before, as an `unsigned`, and no other. -/
theorem insert_index_wraps (u : Bool) (c : config) (ps : List (List Char)) (P : List Char)
    (hP : P ≠ []) (hnew : P ∉ ps) :
    ∃ T, walk (insert (insert_all (basic_trie.make u c) ps) P) 0 P = some T ∧
      ∀ n, (P, n) ∈ ((insert (insert_all (basic_trie.make u c) ps) P).heap T).d_emits ↔
        n = num_keywords ps % UNSIGNED_MOD := by
  obtain ⟨lt, qs, I, hsub, _⟩ := built_walks u c ps
  obtain ⟨_, _, _, B⟩ := built_book u c ps
  obtain ⟨T, hw, _, _, hem, _, _⟩ := insert_emits _ qs lt I B.blank P hP
  refine ⟨T, hw, ?_⟩
  intro n
  rw [hem, B.count]
  constructor
  · intro h
    rcases mem_set_insert h with h1 | h1
    · exact (Prod.mk.inj h1).2
    · exact absurd (hsub P (I.emits_ok T (P, n) h1).1) hnew
  · intro h
    rw [h]
    exact mem_set_insert_self _ _

/-- The claim C14 fails once the `unsigned` counter has wrapped. After `2 ^ 32` calls
`insert("a")` the counter is back at `0`: the call `insert("b")` is preceded by `2 ^ 32`
keywords that are not empty, and the state of `b` gets the pair `("b", 0)` and not the pair
`("b", 2 ^ 32)`. -/
theorem C14_counterexample :
    num_keywords (List.replicate 4294967296 ['a']) = 4294967296 ∧
    ∃ T, walk (insert (insert_all (basic_trie.make false { d_case_insensitive := false })
        (List.replicate 4294967296 ['a'])) ['b']) 0 ['b'] = some T ∧
      (['b'], 0) ∈ ((insert (insert_all (basic_trie.make false { d_case_insensitive := false })
        (List.replicate 4294967296 ['a'])) ['b']).heap T).d_emits ∧
      (['b'], 4294967296) ∉
        ((insert (insert_all (basic_trie.make false { d_case_insensitive := false })
          (List.replicate 4294967296 ['a'])) ['b']).heap T).d_emits := by
  have hn : num_keywords (List.replicate 4294967296 ['a']) = 4294967296 :=
    num_keywords_replicate _ _ (by simp)
  have hnew : ['b'] ∉ List.replicate 4294967296 ['a'] := by
    intro h
    have := List.eq_of_mem_replicate h
    simp at this
  obtain ⟨T, hw, hiff⟩ := insert_index_wraps false { d_case_insensitive := false }
    (List.replicate 4294967296 ['a']) ['b'] (by simp) hnew
  refine ⟨hn, T, hw, (hiff 0).mpr ?_, fun h => ?_⟩
  · rw [hn]; decide
  · have := (hiff 4294967296).mp h
    rw [hn] at this
    exact absurd this (by decide)

/-- The claim C16 fails for a query whose start lies behind its end, which the class
`interval` accepts. The tree of the one interval `[4, 8]` has the point `6`; for the query
`(7, 3)` the point lies before the start of the query, the intervals of the node are tested
for `end >= 7` only, and `[4, 8]` is returned, where no interval `x` of the collection has
`x.start <= 3`. -/
theorem C16_counterexample :
    well_formed [⟨4, 8⟩] ∧
    interval_tree.make [⟨4, 8⟩] = some (node.mk 6 node.null node.null [⟨4, 8⟩]) ∧
    find_overlaps (node.mk 6 node.null node.null [⟨4, 8⟩]) ⟨7, 3⟩ = [⟨4, 8⟩] ∧
    ([⟨4, 8⟩] : List interval).filter
      (fun x => decide (x.d_start ≤ (⟨7, 3⟩ : interval).d_end) &&
        decide (x.d_end ≥ (⟨7, 3⟩ : interval).d_start) && decide (x ≠ ⟨7, 3⟩)) = [] :=
  ⟨by unfold well_formed; decide, rfl, by decide, by decide⟩

theorem build_unfold (fuel : Nat) (c : List interval) :
    node.build (fuel + 1) c =
      (match (if (to_left (determine_median c) c).length > 0
          then node.build fuel (to_left (determine_median c) c) else some node.null) with
      | none => none
      | some l =>
        match (if (to_right (determine_median c) c).length > 0
            then node.build fuel (to_right (determine_median c) c)
            else some node.null) with
        | none => none
        | some r =>
          some (node.mk (determine_median c) l r (to_here (determine_median c) c))) := rfl

/-- The constructor of `node` does not return on the one interval `[2 ^ 63, 2 ^ 63 + 1]`:
`start + end` wraps to `1`, the median is `0`, the interval lies to the right of it, and the
constructor calls itself on the same collection. -/
theorem build_diverges :
    ∀ fuel : Nat, node.build fuel [⟨9223372036854775808, 9223372036854775809⟩] = none := by
  intro fuel
  induction fuel with
  | zero => rfl
  | succ k ih =>
    have hm : determine_median [⟨9223372036854775808, 9223372036854775809⟩] = 0 := by decide
    have hl : to_left 0 [⟨9223372036854775808, 9223372036854775809⟩] = [] := by decide
    have hr : to_right 0 [⟨9223372036854775808, 9223372036854775809⟩] =
        [⟨9223372036854775808, 9223372036854775809⟩] := by decide
    rw [build_unfold, hm, hl, hr, ih]
    rfl

/-- The claim C18 fails where `start + end` leaves the range of `size_t`: the collection of
the one interval `[2 ^ 63, 2 ^ 63 + 1]` has `start <= end`, and the constructor of its tree
never returns, so that there is no tree to call `remove_overlaps` on. -/
theorem C18_counterexample :
    (∀ i ∈ ([⟨9223372036854775808, 9223372036854775809⟩] : List interval),
      i.d_start ≤ i.d_end) ∧
    determine_median [⟨9223372036854775808, 9223372036854775809⟩] = 0 ∧
    to_right 0 [⟨9223372036854775808, 9223372036854775809⟩] =
      [⟨9223372036854775808, 9223372036854775809⟩] ∧
    interval_tree.make [⟨9223372036854775808, 9223372036854775809⟩] = none ∧
    ¬ ∃ fuel tree, node.build fuel [⟨9223372036854775808, 9223372036854775809⟩] = some tree := by
  refine ⟨by decide, by decide, by decide, build_diverges _, ?_⟩
  rintro ⟨fuel, tree, h⟩
  rw [build_diverges] at h
  exact absurd h (by simp)

/-- The claim C22 fails where `start + end` leaves the range of `size_t`: the collection of
the one interval `[2 ^ 63, 2 ^ 63 + 1]` has `start <= end` and distinct starts, the
constructor of its tree never returns, and `remove_overlaps` has no result. -/
theorem C22_counterexample :
    (∀ i ∈ ([⟨9223372036854775808, 9223372036854775809⟩] : List interval),
      i.d_start ≤ i.d_end) ∧
    ([⟨9223372036854775808, 9223372036854775809⟩] : List interval).Pairwise
      (fun a b => a.d_start ≠ b.d_start) ∧
    (¬ ∃ fuel tree,
      node.build fuel [⟨9223372036854775808, 9223372036854775809⟩] = some tree) ∧
    remove_overlaps_of [⟨9223372036854775808, 9223372036854775809⟩] = none := by
  refine ⟨by decide, by decide, ?_, ?_⟩
  · rintro ⟨fuel, tree, h⟩
    rw [build_diverges] at h
    exact absurd h (by simp)
  · unfold remove_overlaps_of interval_tree.make
    rw [build_diverges]
    rfl

end aho_corasick
